import Mathlib

/-!
Verification of the tree-diff-and-reconcile engine of `synchronizer.py`.

The filesystem is modelled as a rooted tree of nodes: a node is either a
regular file with byte content, or a directory with a list of named
children (the list order models the OS directory-listing order).  Paths
are lists of name segments; the source root and replica root are paths
into one shared filesystem tree, so the engine's operations are path
based exactly like the `os`/`shutil` calls in the source.  Fallible
operations return `Except`; composite operations additionally carry the
filesystem state reached at the moment of failure, mirroring the fact
that a raised exception leaves earlier mutations in place.  Per the
spec's data model and non-goals (kind is File or Directory, symbolic
link semantics out of scope), nodes have exactly these two kinds; a
separate extended model `XNode` below adds a third kind of entry to
analyse how `delete_extra_replica_items` treats entries that are
neither regular files nor directories.
-/

abbrev Bytes := List Nat

abbrev FPath := List String

inductive Err where
  | fileNotFound
  | notADirectory
  | isADirectory
  | fileExists
  | attributeError
  | typeError
  | valueError
  | ioError
  deriving DecidableEq, Repr

/-- `PathLe p q` means the path `p` is an initial segment of (an ancestor
of or equal to) the path `q`. -/
def PathLe (p q : FPath) : Prop := q.take p.length = p

instance (p q : FPath) : Decidable (PathLe p q) := by
  unfold PathLe; infer_instance

/-- Neither path is an ancestor of the other: the two subtrees are
completely separate. -/
def PathDisjoint (p q : FPath) : Prop := ¬ PathLe p q ∧ ¬ PathLe q p

inductive Node where
  | file (content : Bytes)
  | dir (children : List (String × Node))

/-- First entry with the given name, like a directory-entry lookup. -/
def lookupN (x : String) : List (String × Node) → Option Node
  | [] => none
  | c :: rest => if c.1 = x then some c.2 else lookupN x rest

/-- Remove every entry with the given name. -/
def removeKeyN (x : String) : List (String × Node) → List (String × Node)
  | [] => []
  | c :: rest => if c.1 = x then removeKeyN x rest else c :: removeKeyN x rest

/-- Replace the payload of every entry with the given name. -/
def replaceN (x : String) (m : Node) : List (String × Node) → List (String × Node)
  | [] => []
  | c :: rest => (if c.1 = x then (x, m) else c) :: replaceN x m rest

/-- Resolve a path to the node it denotes, if any. -/
def Node.find : Node → FPath → Option Node
  | n, [] => some n
  | .file _, _ :: _ => none
  | .dir cs, x :: p => match lookupN x cs with
    | none => none
    | some c => c.find p

/-- Kind-and-content view of a node: `none` for a directory, `some b`
for a file with content `b`. -/
def Node.view : Node → Option Bytes
  | .file b => some b
  | .dir _ => none

/-- Kind-and-content view of the entry at a path: `none` when the path
does not exist, `some none` for a directory, `some (some b)` for a file. -/
def viewAt (fs : Node) (p : FPath) : Option (Option Bytes) :=
  (fs.find p).map Node.view

def Node.isDirN : Node → Bool
  | .dir _ => true
  | .file _ => false

def Node.isFileN : Node → Bool
  | .dir _ => false
  | .file _ => true

def nodupKeysB : List (String × Node) → Bool
  | [] => true
  | c :: rest => !(rest.any (fun e => e.1 == c.1)) && nodupKeysB rest

mutual

/-- Well-formedness: every directory has pairwise distinct child names,
as real filesystems guarantee. -/
def Node.wfB : Node → Bool
  | .file _ => true
  | .dir cs => nodupKeysB cs && wfListB cs

def wfListB : List (String × Node) → Bool
  | [] => true
  | c :: rest => c.2.wfB && wfListB rest

end

-- `os.path.exists` / `os.path.isfile` / `os.path.isdir`

def Node.existsB (fs : Node) (p : FPath) : Bool := (fs.find p).isSome

def Node.isfileB (fs : Node) (p : FPath) : Bool :=
  match fs.find p with
  | some (.file _) => true
  | _ => false

def Node.isdirB (fs : Node) (p : FPath) : Bool :=
  match fs.find p with
  | some (.dir _) => true
  | _ => false

/-- `os.listdir`: the immediate child names of a directory. -/
def Node.listdir (fs : Node) (p : FPath) : Except Err (List String) :=
  match fs.find p with
  | none => .error .fileNotFound
  | some (.file _) => .error .notADirectory
  | some (.dir cs) => .ok (cs.map Prod.fst)

/-- Descend to the directory denoted by `p` and transform its list of
children; shared skeleton of the single-entry mutations below. -/
def Node.editAt : Node → FPath → (List (String × Node) → Except Err (List (String × Node))) → Except Err Node
  | .dir cs, [], f => (f cs).map Node.dir
  | .file _, [], _ => .error .notADirectory
  | .dir cs, x :: p, f => match lookupN x cs with
    | none => .error .fileNotFound
    | some c => (Node.editAt c p f).map (fun c2 => Node.dir (replaceN x c2 cs))
  | .file _, _ :: _, _ => .error .notADirectory

def removeEntry (x : String) (cs : List (String × Node)) : Except Err (List (String × Node)) :=
  match lookupN x cs with
  | some (.file _) => .ok (removeKeyN x cs)
  | some (.dir _) => .error .isADirectory
  | none => .error .fileNotFound

def rmtreeEntry (x : String) (cs : List (String × Node)) : Except Err (List (String × Node)) :=
  match lookupN x cs with
  | some (.dir _) => .ok (removeKeyN x cs)
  | some (.file _) => .error .notADirectory
  | none => .error .fileNotFound

def writeEntry (x : String) (b : Bytes) (cs : List (String × Node)) : Except Err (List (String × Node)) :=
  match lookupN x cs with
  | some (.dir _) => .error .isADirectory
  | some (.file _) => .ok (replaceN x (.file b) cs)
  | none => .ok (cs ++ [(x, .file b)])

/-- `os.remove`: delete the regular file denoted by the path. -/
def Node.removePath (fs : Node) (p : FPath) : Except Err Node :=
  match p.getLast? with
  | none => .error .fileNotFound
  | some x => fs.editAt p.dropLast (removeEntry x)

/-- `shutil.rmtree`: delete the directory denoted by the path with its
whole subtree. -/
def Node.rmtreePath (fs : Node) (p : FPath) : Except Err Node :=
  match p.getLast? with
  | none => .error .fileNotFound
  | some x => fs.editAt p.dropLast (rmtreeEntry x)

/-- Open a path for writing and replace (or create) its full content. -/
def Node.writeFile (fs : Node) (p : FPath) (b : Bytes) : Except Err Node :=
  match p.getLast? with
  | none => .error .isADirectory
  | some x => fs.editAt p.dropLast (writeEntry x b)

/-- `os.makedirs` with `exist_ok=True`: create the directory and all
missing intermediate segments; no error and no effect when the path is
already a directory; error when a segment exists as a file. -/
def Node.makedirs : Node → FPath → Except Err Node
  | .dir cs, [] => .ok (.dir cs)
  | .file _, [] => .error .fileExists
  | .dir cs, x :: p => match lookupN x cs with
    | some c => (Node.makedirs c p).map (fun c2 => Node.dir (replaceN x c2 cs))
    | none => (Node.makedirs (.dir []) p).map (fun c2 => Node.dir (cs ++ [(x, c2)]))
  | .file _, _ :: _ => .error .notADirectory

/-- `shutil.copy src dst`: read the full content of the source file and
write it to the destination; when the destination is an existing
directory the copy lands inside it under the source's base name. -/
def Node.shCopy (fs : Node) (src dst : FPath) : Except Err Node :=
  match fs.find src with
  | none => .error .fileNotFound
  | some (.dir _) => .error .isADirectory
  | some (.file b) =>
    let target := if fs.isdirB dst then dst ++ [(src.getLastD "")] else dst
    fs.writeFile target b

-- ## The hashlib collaborator

/-- `hashlib.algorithms_guaranteed`: always members of
`hashlib.algorithms_available` on every Python platform. -/
def hashlib_algorithms_guaranteed : List String :=
  ["md5", "sha1", "sha224", "sha256", "sha384", "sha512",
   "sha3_224", "sha3_256", "sha3_384", "sha3_512",
   "shake_128", "shake_256", "blake2b", "blake2s"]

/-- The algorithm names that exist as module-level constructor attributes
of `hashlib`, i.e. for which `getattr(hashlib, name)` succeeds. -/
def hashlib_module_attrs : List String := hashlib_algorithms_guaranteed

/-- The SHAKE constructors, whose `hexdigest` requires a length argument
and therefore fails when called with no arguments. -/
def shake_algs : List String := ["shake_128", "shake_256"]

/-- The configured algorithm can actually be used by `get_checksum`:
`getattr` finds it and a no-argument `hexdigest()` call works. -/
def algUsable (alg : String) : Bool :=
  hashlib_module_attrs.contains alg && !(shake_algs.contains alg)

/-- A family of content digests, one digest function per algorithm name;
stands for the pure mathematical hash functions behind `hashlib`. -/
abbrev HashFn := String → Bytes → String

-- ## The Synchronizer

structure Synchronizer where
  source : FPath
  replica : FPath
  logfile : String
  interval : Nat
  algorithm : String

/-- `Synchronizer.__init__`: store the configuration with the algorithm
name lowercased and fail with `ValueError` when the name is not in
`hashlib.algorithms_available` (passed in as `avail`, since the set is
platform dependent; it always includes `hashlib_algorithms_guaranteed`).
The algorithm is lowercased with `lowerStr`, the character-wise mapping
that `str.lower` performs, written so the kernel can evaluate it. -/
def lowerStr (s : String) : String := String.mk (s.data.map Char.toLower)

def Synchronizer.init (source replica : FPath) (logfile : String) (interval : Nat)
    (avail : List String) (algorithm : String) : Except Err Synchronizer :=
  let alg := lowerStr algorithm
  if avail.contains alg then
    .ok { source := source, replica := replica, logfile := logfile,
          interval := interval, algorithm := alg }
  else .error .valueError

/-- `Synchronizer.get_checksum`: open the file, read all of it, then
`getattr(hashlib, self.algorithm)(data).hexdigest()`.  Opening fails for
a missing path or a directory; `getattr` fails for algorithm names that
are not module attributes; the SHAKE constructors fail inside
`hexdigest()` because the length argument is missing. -/
def Synchronizer.get_checksum (S : Synchronizer) (H : HashFn) (fs : Node)
    (filepath : FPath) : Except Err String :=
  match fs.find filepath with
  | none => .error .fileNotFound
  | some (.dir _) => .error .isADirectory
  | some (.file data) =>
    if hashlib_module_attrs.contains S.algorithm then
      if shake_algs.contains S.algorithm then .error .typeError
      else .ok (H S.algorithm data)
    else .error .attributeError

-- ## One reconciliation pass

/-- The mutating filesystem operations the pass performs, in the order it
performs them; these correspond one to one to the `Created`, `Deleted`
and `Updated` log lines of the source. -/
inductive Event where
  | created (p : FPath)
  | deleted (p : FPath)
  | updated (src dst : FPath)
  deriving DecidableEq, Repr

/-- Result of a composite, possibly mutating step: on success the new
filesystem and the mutation events, on failure the raised error together
with the filesystem as already mutated when the exception was raised. -/
abbrev SRes := Except (Err × Node) (Node × List Event)

/-- The filesystem state after a step, whether it succeeded or raised. -/
def stateOf : SRes → Node
  | .ok (fs, _) => fs
  | .error (_, fs) => fs

def addEvents (ev : List Event) : SRes → SRes
  | .error e => .error e
  | .ok (fs, ev2) => .ok (fs, ev ++ ev2)

/-- `Synchronizer.create_replica_folder` (the `source_dir` argument is
accepted and unused, exactly as in the source). -/
def create_replica_folder (fs : Node) (source_dir replica_dir : FPath) : Except Err Node :=
  fs.makedirs replica_dir

/-- The loop body of `Synchronizer.delete_extra_replica_items`, iterating
over the snapshot of names returned by `os.listdir`. -/
def deleteLoop (replica_dir : FPath) (items : List String) : Node → List String → SRes
  | fs, [] => .ok (fs, [])
  | fs, item :: rest =>
    let replica_item := replica_dir ++ [item]
    if fs.isfileB replica_item && !(items.contains item) then
      match fs.removePath replica_item with
      | .error e => .error (e, fs)
      | .ok fs2 => addEvents [.deleted replica_item] (deleteLoop replica_dir items fs2 rest)
    else if fs.isdirB replica_item && !(items.contains item) then
      match fs.rmtreePath replica_item with
      | .error e => .error (e, fs)
      | .ok fs2 => addEvents [.deleted replica_dir] (deleteLoop replica_dir items fs2 rest)
    else deleteLoop replica_dir items fs rest

/-- `Synchronizer.delete_extra_replica_items`: delete every immediate
child of the replica directory whose name is not among `items`, as a
single file when it is a regular file, recursively when it is a
directory.  (The `Deleted` log event for a directory records
`replica_dir`, exactly as the source's line 61 does.) -/
def delete_extra_replica_items (fs : Node) (replica_dir : FPath) (items : List String) : SRes :=
  match fs.listdir replica_dir with
  | .error e => .error (e, fs)
  | .ok names => deleteLoop replica_dir items fs names

/-- `Synchronizer.copy_missing_files`: copy each source file into the
replica directory when no entry with its name exists there yet. -/
def copy_missing_files (fs : Node) (source_dir replica_dir : FPath) : List String → SRes
  | [] => .ok (fs, [])
  | file :: rest =>
    let source_file := source_dir ++ [file]
    let replica_file := replica_dir ++ [file]
    if !(fs.existsB replica_file) then
      match fs.shCopy source_file replica_file with
      | .error e => .error (e, fs)
      | .ok fs2 => addEvents [.created replica_file] (copy_missing_files fs2 source_dir replica_dir rest)
    else copy_missing_files fs source_dir replica_dir rest

/-- `Synchronizer.update_changed_files`: compare the two files'
checksums and, when they differ, `os.remove` the replica file and then
`shutil.copy` the source file over. -/
def Synchronizer.update_changed_files (S : Synchronizer) (H : HashFn) (fs : Node)
    (source_file replica_file : FPath) : SRes :=
  match S.get_checksum H fs source_file with
  | .error e => .error (e, fs)
  | .ok source_checksum =>
    match S.get_checksum H fs replica_file with
    | .error e => .error (e, fs)
    | .ok replica_checksum =>
      if source_checksum ≠ replica_checksum then
        match fs.removePath replica_file with
        | .error e => .error (e, fs)
        | .ok fs1 =>
          match fs1.shCopy source_file replica_file with
          | .error e => .error (e, fs1)
          | .ok fs2 => .ok (fs2, [.updated source_file replica_file])
      else .ok (fs, [])

/-- The per-file update loop at the end of `Synchronizer.sync`. -/
def updateLoop (S : Synchronizer) (H : HashFn) (root replica_dir : FPath) : Node → List String → SRes
  | fs, [] => .ok (fs, [])
  | fs, file :: rest =>
    match S.update_changed_files H fs (root ++ [file]) (replica_dir ++ [file]) with
    | .error e => .error e
    | .ok (fs2, ev) => addEvents ev (updateLoop S H root replica_dir fs2 rest)

mutual

/-- `os.walk(top)` with `topdown=True` over the subtree `n` located at
the relative path `rel` below the walk root: yield the directory itself
(its relative path, its subdirectory names, its file names), then
recurse into each subdirectory in listing order.  Yields nothing for a
non-directory. -/
def Node.walkNode : Node → FPath → List (FPath × List String × List String)
  | .file _, _ => []
  | .dir cs, rel =>
    (rel, (cs.filter (fun c => c.2.isDirN)).map Prod.fst,
          (cs.filter (fun c => c.2.isFileN)).map Prod.fst) :: walkChildren cs rel

def walkChildren : List (String × Node) → FPath → List (FPath × List String × List String)
  | [], _ => []
  | c :: rest, rel =>
    (if c.2.isDirN then Node.walkNode c.2 (rel ++ [c.1]) else []) ++ walkChildren rest rel

end

/-- The body of the `for root, dirs, files in os.walk(self.source)` loop
of `Synchronizer.sync`, for one yielded directory.  `entry.1` is the
directory's path relative to the source root (what
`os.path.relpath(root, self.source)` computes), so `root` is
`self.source ++ entry.1` and the replica directory is
`self.replica ++ entry.1`. -/
def Synchronizer.sync_step (S : Synchronizer) (H : HashFn) (fs : Node)
    (entry : FPath × List String × List String) : SRes :=
  let root := S.source ++ entry.1
  let replica_dir := S.replica ++ entry.1
  match create_replica_folder fs root replica_dir with
  | .error e => .error (e, fs)
  | .ok fs1 =>
    match delete_extra_replica_items fs1 replica_dir (entry.2.1 ++ entry.2.2) with
    | .error e => .error e
    | .ok (fs2, ev2) =>
      match copy_missing_files fs2 root replica_dir entry.2.2 with
      | .error e => .error e
      | .ok (fs3, ev3) =>
        match updateLoop S H root replica_dir fs3 entry.2.2 with
        | .error e => .error e
        | .ok (fs4, ev4) => .ok (fs4, ev2 ++ ev3 ++ ev4)

/-- Run the walk-loop bodies in order, threading the filesystem. -/
def Synchronizer.runPass (S : Synchronizer) (H : HashFn) :
    List (FPath × List String × List String) → Node → SRes
  | [], fs => .ok (fs, [])
  | entry :: rest, fs =>
    match S.sync_step H fs entry with
    | .error e => .error e
    | .ok (fs2, ev) => addEvents ev (S.runPass H rest fs2)

/-- `Synchronizer.sync`: one full pass.  `os.walk` yields nothing when
the source root does not exist or is not a directory. -/
def Synchronizer.sync (S : Synchronizer) (H : HashFn) (fs : Node) : SRes :=
  let walk := match fs.find S.source with
    | some n => n.walkNode []
    | none => []
  S.runPass H walk fs

/-- The `while True: sync.sync(); time.sleep(args.interval)` driver loop
of `main`, truncated to a budget of scheduled passes; returns how many
passes were actually started and the final outcome.  An exception
escaping `sync` propagates out of `main` uncaught, which this models as
stopping with the error. -/
def main_loop (S : Synchronizer) (H : HashFn) : Nat → Node → Nat × Except (Err × Node) Node
  | 0, fs => (0, .ok fs)
  | n + 1, fs =>
    match S.sync H fs with
    | .error e => (1, .error e)
    | .ok (fs2, _) =>
      let r := main_loop S H n fs2
      (r.1 + 1, r.2)

-- ## Failure-injection variant of the update step (for the atomicity analysis)

/-- `Synchronizer.update_changed_files` (source lines 85-90) with an
explicit failure-injection flag on the `shutil.copy` call: the pure
model above can only fail before mutating, while the real `shutil.copy`
can raise (source unreadable, disk full, permission denied) after
`os.remove` has already succeeded.  With `copy_raises = false` this is
exactly `update_changed_files`. -/
def Synchronizer.update_changed_files_fi (S : Synchronizer) (H : HashFn) (copy_raises : Bool)
    (fs : Node) (source_file replica_file : FPath) : SRes :=
  match S.get_checksum H fs source_file with
  | .error e => .error (e, fs)
  | .ok source_checksum =>
    match S.get_checksum H fs replica_file with
    | .error e => .error (e, fs)
    | .ok replica_checksum =>
      if source_checksum ≠ replica_checksum then
        match fs.removePath replica_file with
        | .error e => .error (e, fs)
        | .ok fs1 =>
          if copy_raises then .error (.ioError, fs1)
          else
            match fs1.shCopy source_file replica_file with
            | .error e => .error (e, fs1)
            | .ok fs2 => .ok (fs2, [.updated source_file replica_file])
      else .ok (fs, [])

-- ## Extended filesystem model with a third entry kind

/-- Like `Node`, but with a third kind of directory entry (`special`)
standing for anything that is neither a regular file nor a directory —
a broken symbolic link, a socket, a device file.  Used to analyse
`delete_extra_replica_items`, whose `os.path.isfile`/`os.path.isdir`
tests are both false for such entries. -/
inductive XNode where
  | file (content : Bytes)
  | dir (children : List (String × XNode))
  | special

def lookupX (x : String) : List (String × XNode) → Option XNode
  | [] => none
  | c :: rest => if c.1 = x then some c.2 else lookupX x rest

def removeKeyX (x : String) : List (String × XNode) → List (String × XNode)
  | [] => []
  | c :: rest => if c.1 = x then removeKeyX x rest else c :: removeKeyX x rest

def XNode.find : XNode → FPath → Option XNode
  | n, [] => some n
  | .file _, _ :: _ => none
  | .special, _ :: _ => none
  | .dir cs, x :: p => match lookupX x cs with
    | none => none
    | some c => c.find p

def XNode.isfileB (fs : XNode) (p : FPath) : Bool :=
  match fs.find p with
  | some (.file _) => true
  | _ => false

def XNode.isdirB (fs : XNode) (p : FPath) : Bool :=
  match fs.find p with
  | some (.dir _) => true
  | _ => false

def XNode.listdir (fs : XNode) (p : FPath) : Except Err (List String) :=
  match fs.find p with
  | some (.dir cs) => .ok (cs.map Prod.fst)
  | some _ => .error .notADirectory
  | none => .error .fileNotFound

def XNode.editAt : XNode → FPath → (List (String × XNode) → Except Err (List (String × XNode))) → Except Err XNode
  | .dir cs, [], f => (f cs).map XNode.dir
  | .file _, [], _ => .error .notADirectory
  | .special, [], _ => .error .notADirectory
  | .dir cs, x :: p, f => match lookupX x cs with
    | none => .error .fileNotFound
    | some c => (XNode.editAt c p f).map (fun c2 => XNode.dir ((cs.map (fun e => if e.1 = x then (x, c2) else e))))
  | .file _, _ :: _, _ => .error .notADirectory
  | .special, _ :: _, _ => .error .notADirectory

def removeEntryX (x : String) (cs : List (String × XNode)) : Except Err (List (String × XNode)) :=
  match lookupX x cs with
  | some (.file _) => .ok (removeKeyX x cs)
  | some _ => .error .isADirectory
  | none => .error .fileNotFound

def rmtreeEntryX (x : String) (cs : List (String × XNode)) : Except Err (List (String × XNode)) :=
  match lookupX x cs with
  | some (.dir _) => .ok (removeKeyX x cs)
  | some _ => .error .notADirectory
  | none => .error .fileNotFound

def XNode.removePath (fs : XNode) (p : FPath) : Except Err XNode :=
  match p.getLast? with
  | none => .error .fileNotFound
  | some x => fs.editAt p.dropLast (removeEntryX x)

def XNode.rmtreePath (fs : XNode) (p : FPath) : Except Err XNode :=
  match p.getLast? with
  | none => .error .fileNotFound
  | some x => fs.editAt p.dropLast (rmtreeEntryX x)

/-- The loop of `delete_extra_replica_items` over the extended model:
the source's `isfile`-then-`isdir` tests and deletions, one listdir name
at a time. -/
def deleteLoopX (replica_dir : FPath) (items : List String) : XNode → List String → Except (Err × XNode) XNode
  | fs, [] => .ok fs
  | fs, item :: rest =>
    let replica_item := replica_dir ++ [item]
    if fs.isfileB replica_item && !(items.contains item) then
      match fs.removePath replica_item with
      | .error e => .error (e, fs)
      | .ok fs2 => deleteLoopX replica_dir items fs2 rest
    else if fs.isdirB replica_item && !(items.contains item) then
      match fs.rmtreePath replica_item with
      | .error e => .error (e, fs)
      | .ok fs2 => deleteLoopX replica_dir items fs2 rest
    else deleteLoopX replica_dir items fs rest

/-- `Synchronizer.delete_extra_replica_items` over the extended model. -/
def delete_extra_replica_items_x (fs : XNode) (replica_dir : FPath) (items : List String) : Except (Err × XNode) XNode :=
  match fs.listdir replica_dir with
  | .error e => .error (e, fs)
  | .ok names => deleteLoopX replica_dir items fs names

/-- The filesystem carried by either outcome over the extended model. -/
def stateOfX : Except (Err × XNode) XNode → XNode
  | .ok fs => fs
  | .error (_, fs) => fs

-- ## Invariants used by the pass theorems

/-- Per-file relation established by one successful pass: the replica
file's content has the same digest as the source file's content, under
an algorithm that `get_checksum` can actually apply. -/
def FileRel (alg : String) (H : HashFn) (a b : Bytes) : Prop :=
  algUsable alg = true ∧ H alg a = H alg b

/-- The replica subtree rooted at `base` mirrors the tree `n`: same
relative paths with the same kinds, no extra entries, and each file's
content digest-equal to its source counterpart. -/
def MirrorAt (alg : String) (H : HashFn) (fs : Node) (base : FPath) (n : Node) : Prop :=
  ∀ q : FPath,
    (fs.find (base ++ q) = none ∧ n.find q = none) ∨
    (∃ csr css, fs.find (base ++ q) = some (.dir csr) ∧ n.find q = some (.dir css)) ∨
    (∃ a b, fs.find (base ++ q) = some (.file a) ∧ n.find q = some (.file b) ∧ FileRel alg H a b)

-- ## Concrete instances used by witnesses and counterexamples

/-- A concrete digest family: a prefix-free unary encoding of the byte
list, injective for every algorithm name (a legitimate idealised
instance of `HashFn`, where distinct contents have distinct digests). -/
def Hdemo : HashFn := fun _ b => String.mk (b.flatMap (fun k => 'S' :: List.replicate k 'I'))

def Sdemo : Synchronizer :=
  { source := ["src"], replica := ["rep"], logfile := "log", interval := 1, algorithm := "md5" }

/-- Source has `a` = [1]; replica root does not exist yet. -/
def fsDemo : Node := .dir [("src", .dir [("a", .file [1])])]

/-- The filesystem after one pass over `fsDemo`. -/
def fsDemo2 : Node :=
  .dir [("src", .dir [("a", .file [1])]), ("rep", .dir [("a", .file [1])])]

/-- Source directory is empty; the replica path exists as a file, so
`os.makedirs(replica_dir)` raises on the very first directory. -/
def fsErr : Node := .dir [("src", .dir []), ("rep", .file [0])]

/-- Source file `f`; the replica has a directory of the same name. -/
def fsShadow : Node := .dir [("src", .dir [("f", .file [1])]), ("rep", .dir [("f", .dir [])])]

/-- Source file `f` = [1] and replica file `f` = [2], both inside
existing roots; used for the update-step analyses. -/
def fsUpd : Node := .dir [("src", .dir [("f", .file [1])]), ("rep", .dir [("f", .file [2])])]

/-- `fsUpd` after `os.remove` of the replica file: the state the update
step exposes when `shutil.copy` fails after the removal. -/
def fsUpdGone : Node := .dir [("src", .dir [("f", .file [1])]), ("rep", .dir [])]

/-- Replica directory whose child `a` also exists in the source (by
name) while `b` does not; for the deletion-precision witness. -/
def fsDel : Node := .dir [("rep", .dir [("a", .file [5]), ("b", .dir [("z", .file [7])])])]

/-- The synchronizer that `__init__` accepts for algorithm
`"shake_128"`, a member of `hashlib.algorithms_guaranteed`. -/
def Sshake : Synchronizer :=
  { source := ["s"], replica := ["r"], logfile := "log", interval := 1,
    algorithm := "shake_128" }

/-- Replica directory containing a stale regular file, a stale
directory, a stale special entry, and a fresh entry named "keep". -/
def xfsDemo : XNode :=
  .dir [("rep", .dir [("stale", .file [7]), ("staledir", .dir [("y", .file [8])]),
                      ("weird", .special), ("keep", .file [9])])]

-- ## Path-order toolkit

theorem pathLe_refl (p : FPath) : PathLe p p := by
  simp [PathLe]

theorem pathLe_nil (p : FPath) : PathLe [] p := by
  simp [PathLe]

theorem pathLe_append (p r : FPath) : PathLe p (p ++ r) := by
  simp [PathLe, List.take_append_eq_append_take]

theorem pathLe_iff {p q : FPath} : PathLe p q ↔ ∃ r, q = p ++ r := by
  constructor
  · intro h
    refine ⟨q.drop p.length, ?_⟩
    conv_lhs => rw [← List.take_append_drop p.length q]
    rw [h]
  · rintro ⟨r, rfl⟩
    exact pathLe_append p r

theorem pathLe_length {p q : FPath} (h : PathLe p q) : p.length ≤ q.length := by
  rcases pathLe_iff.mp h with ⟨r, rfl⟩
  simp

theorem pathLe_trans {p q r : FPath} (h1 : PathLe p q) (h2 : PathLe q r) : PathLe p r := by
  rcases pathLe_iff.mp h1 with ⟨a, rfl⟩
  rcases pathLe_iff.mp h2 with ⟨b, rfl⟩
  simpa [List.append_assoc] using pathLe_append p (a ++ b)

theorem pathLe_antisymm {p q : FPath} (h1 : PathLe p q) (h2 : PathLe q p) : p = q := by
  have l1 := pathLe_length h1
  have l2 := pathLe_length h2
  have : q.length = p.length := le_antisymm l2 l1
  calc p = q.take p.length := h1.symm
    _ = q.take q.length := by rw [‹q.length = p.length›]
    _ = q := List.take_length q

theorem pathLe_cancel {b p q : FPath} : PathLe (b ++ p) (b ++ q) ↔ PathLe p q := by
  unfold PathLe
  rw [List.take_append_eq_append_take]
  simp only [List.length_append]
  rw [List.take_of_length_le (by omega), Nat.add_sub_cancel_left]
  constructor
  · intro h
    exact List.append_cancel_left h
  · intro h
    rw [h]

theorem pathLe_comparable {p q r : FPath} (h1 : PathLe p r) (h2 : PathLe q r) :
    PathLe p q ∨ PathLe q p := by
  rcases Nat.le_total p.length q.length with hle | hle
  · left
    unfold PathLe at *
    rw [← h2, List.take_take, Nat.min_eq_left hle, h1]
  · right
    unfold PathLe at *
    rw [← h1, List.take_take, Nat.min_eq_left hle, h2]

theorem pathDisjoint_extend {q b t : FPath} (h1 : ¬ PathLe q b) (h2 : ¬ PathLe b q)
    (h3 : PathLe b t) : ¬ PathLe q t ∧ ¬ PathLe t q := by
  constructor
  · intro h
    rcases pathLe_comparable h3 h with hc | hc
    · exact h2 hc
    · exact h1 hc
  · intro h
    exact h2 (pathLe_trans h3 h)

theorem pathLe_cons_iff {x y : String} {p q : FPath} :
    PathLe (x :: p) (y :: q) ↔ x = y ∧ PathLe p q := by
  unfold PathLe
  simp [List.take_cons, List.cons_eq_cons, eq_comm]

theorem pathLe_snoc_cons {b : FPath} {x y : String} {t : FPath}
    (h : PathLe (b ++ [x]) (b ++ y :: t)) : x = y := by
  have := pathLe_cancel.mp h
  rcases pathLe_iff.mp this with ⟨r, hr⟩
  simpa using ((List.cons_eq_cons.mp hr).1).symm

theorem pathLe_cons_snoc {b : FPath} {x y : String} {t : FPath}
    (h : PathLe (b ++ y :: t) (b ++ [x])) : y = x ∧ t = [] := by
  have := pathLe_cancel.mp h
  rcases pathLe_iff.mp this with ⟨r, hr⟩
  rw [List.cons_append] at hr
  rcases List.cons_eq_cons.mp hr.symm with ⟨h1, h2⟩
  exact ⟨h1, (List.append_eq_nil.mp h2).1⟩

theorem pathDisjoint_siblings {b : FPath} {x y : String} {t u : FPath} (hxy : x ≠ y) :
    ¬ PathLe (b ++ x :: t) (b ++ y :: u) ∧ ¬ PathLe (b ++ y :: u) (b ++ x :: t) := by
  constructor
  · intro h
    have := pathLe_cancel.mp h
    exact hxy (pathLe_cons_iff.mp this).1
  · intro h
    have := pathLe_cancel.mp h
    exact hxy ((pathLe_cons_iff.mp this).1).symm

theorem not_pathLe_of_length_lt {p q : FPath} (h : q.length < p.length) : ¬ PathLe p q := by
  intro hle
  exact absurd (pathLe_length hle) (by omega)

-- ## Directory-entry list lemmas

theorem lookupN_eq_none_iff {x : String} {cs : List (String × Node)} :
    lookupN x cs = none ↔ ∀ c ∈ cs, c.1 ≠ x := by
  induction cs with
  | nil => simp [lookupN]
  | cons c rest ih =>
    by_cases h : c.1 = x <;> simp [lookupN, h, ih]

theorem lookupN_mem {x : String} {cs : List (String × Node)} {m : Node}
    (h : lookupN x cs = some m) : (x, m) ∈ cs := by
  induction cs with
  | nil => simp [lookupN] at h
  | cons c rest ih =>
    obtain ⟨c1, c2⟩ := c
    simp only [lookupN] at h
    by_cases hc : c1 = x
    · subst hc
      rw [if_pos rfl] at h
      injection h with h2
      subst h2
      exact List.mem_cons_self _ _
    · rw [if_neg hc] at h
      exact List.mem_cons_of_mem _ (ih h)

theorem mem_lookupN {x : String} {m : Node} {cs : List (String × Node)}
    (hnd : nodupKeysB cs = true) (hm : (x, m) ∈ cs) : lookupN x cs = some m := by
  induction cs with
  | nil => simp at hm
  | cons c rest ih =>
    simp only [nodupKeysB, Bool.and_eq_true, Bool.not_eq_true'] at hnd
    rcases List.mem_cons.mp hm with heq | hmem
    · rw [← heq]
      simp [lookupN]
    · have hne : c.1 ≠ x := by
        intro hcx
        have : rest.any (fun e => e.1 == c.1) = true :=
          List.any_eq_true.mpr ⟨(x, m), hmem, by simp [hcx]⟩
        rw [this] at hnd
        exact absurd hnd.1 (by simp)
      simp [lookupN, hne, ih hnd.2 hmem]

theorem lookupN_isSome_iff {x : String} {cs : List (String × Node)} :
    (lookupN x cs).isSome = true ↔ ∃ c ∈ cs, c.1 = x := by
  induction cs with
  | nil => simp [lookupN]
  | cons c rest ih =>
    by_cases h : c.1 = x <;> simp [lookupN, h, ih]

theorem lookupN_replaceN_self {x : String} {m : Node} {cs : List (String × Node)} :
    lookupN x (replaceN x m cs) = (lookupN x cs).map (fun _ => m) := by
  induction cs with
  | nil => simp [lookupN, replaceN]
  | cons c rest ih =>
    obtain ⟨c1, c2⟩ := c
    by_cases h : c1 = x
    · simp [replaceN, lookupN, h, ih]
    · simp [replaceN, lookupN, h, ih]

theorem lookupN_replaceN_ne {x y : String} {m : Node} {cs : List (String × Node)}
    (h : y ≠ x) : lookupN y (replaceN x m cs) = lookupN y cs := by
  induction cs with
  | nil => rfl
  | cons c rest ih =>
    obtain ⟨c1, c2⟩ := c
    by_cases hc : c1 = x
    · simp [replaceN, lookupN, hc, Ne.symm h, ih]
    · simp [replaceN, lookupN, hc, ih]

theorem lookupN_removeKeyN_self {x : String} {cs : List (String × Node)} :
    lookupN x (removeKeyN x cs) = none := by
  induction cs with
  | nil => rfl
  | cons c rest ih =>
    by_cases h : c.1 = x
    · simp only [removeKeyN, if_pos h, ih]
    · simp only [removeKeyN, if_neg h, lookupN, if_neg h, ih]

theorem lookupN_removeKeyN_ne {x y : String} {cs : List (String × Node)}
    (h : y ≠ x) : lookupN y (removeKeyN x cs) = lookupN y cs := by
  induction cs with
  | nil => rfl
  | cons c rest ih =>
    obtain ⟨c1, c2⟩ := c
    by_cases hc : c1 = x
    · simp [removeKeyN, lookupN, hc, Ne.symm h, ih]
    · simp [removeKeyN, lookupN, hc, ih]

theorem lookupN_append_single_self {x : String} {m : Node} {cs : List (String × Node)}
    (h : lookupN x cs = none) : lookupN x (cs ++ [(x, m)]) = some m := by
  induction cs with
  | nil => simp [lookupN]
  | cons c rest ih =>
    simp only [lookupN] at h
    by_cases hc : c.1 = x
    · rw [if_pos hc] at h
      cases h
    · rw [if_neg hc] at h
      simp only [List.cons_append, lookupN, if_neg hc]
      exact ih h

theorem lookupN_append_single_ne {x y : String} {m : Node} {cs : List (String × Node)}
    (h : y ≠ x) : lookupN y (cs ++ [(x, m)]) = lookupN y cs := by
  induction cs with
  | nil => simp [lookupN, if_neg (fun he : x = y => h he.symm)]
  | cons c rest ih =>
    by_cases hc : c.1 = y
    · simp [lookupN, hc]
    · simp [lookupN, hc, ih]

theorem map_fst_replaceN {x : String} {m : Node} {cs : List (String × Node)} :
    (replaceN x m cs).map Prod.fst = cs.map Prod.fst := by
  induction cs with
  | nil => rfl
  | cons c rest ih =>
    by_cases h : c.1 = x <;> simp [replaceN, h, ih]

theorem any_key_removeKeyN {x k : String} {cs : List (String × Node)}
    (h : (removeKeyN x cs).any (fun e => e.1 == k) = true) :
    cs.any (fun e => e.1 == k) = true := by
  induction cs with
  | nil =>
    rw [removeKeyN] at h
    exact h
  | cons c rest ih =>
    by_cases hc : c.1 = x
    · rw [removeKeyN, if_pos hc] at h
      simp only [List.any_cons]
      rw [ih h]
      simp
    · rw [removeKeyN, if_neg hc] at h
      simp only [List.any_cons] at h ⊢
      rcases Bool.or_eq_true_iff.mp h with h1 | h2
      · rw [h1]
        simp
      · rw [ih h2]
        simp

theorem any_key_replaceN {x k : String} {m : Node} {cs : List (String × Node)} :
    (replaceN x m cs).any (fun e => e.1 == k) = cs.any (fun e => e.1 == k) := by
  induction cs with
  | nil => rfl
  | cons c rest ih =>
    by_cases hc : c.1 = x
    · simp [replaceN, hc, ih]
    · simp [replaceN, hc, ih]

theorem nodupKeysB_replaceN {x : String} {m : Node} {cs : List (String × Node)} :
    nodupKeysB (replaceN x m cs) = nodupKeysB cs := by
  induction cs with
  | nil => rfl
  | cons c rest ih =>
    by_cases hc : c.1 = x
    · simp [replaceN, nodupKeysB, hc, ih, any_key_replaceN]
    · simp [replaceN, nodupKeysB, hc, ih, any_key_replaceN]

theorem nodupKeysB_removeKeyN {x : String} {cs : List (String × Node)}
    (h : nodupKeysB cs = true) : nodupKeysB (removeKeyN x cs) = true := by
  induction cs with
  | nil => rfl
  | cons c rest ih =>
    simp only [nodupKeysB, Bool.and_eq_true, Bool.not_eq_true'] at h
    by_cases hc : c.1 = x
    · rw [removeKeyN, if_pos hc]
      exact ih h.2
    · rw [removeKeyN, if_neg hc]
      simp only [nodupKeysB, Bool.and_eq_true, Bool.not_eq_true']
      refine ⟨?_, ih h.2⟩
      cases hany : (removeKeyN x rest).any (fun e => e.1 == c.1)
      · rfl
      · rw [any_key_removeKeyN hany] at h
        exact absurd h.1 (by simp)

theorem nodupKeysB_append_single {x : String} {m : Node} {cs : List (String × Node)}
    (hnd : nodupKeysB cs = true) (hl : lookupN x cs = none) :
    nodupKeysB (cs ++ [(x, m)]) = true := by
  induction cs with
  | nil => simp [nodupKeysB]
  | cons c rest ih =>
    simp only [nodupKeysB, Bool.and_eq_true, Bool.not_eq_true'] at hnd
    simp only [lookupN] at hl
    have hcx : ¬ c.1 = x := by
      intro h
      rw [if_pos h] at hl
      cases hl
    rw [if_neg hcx] at hl
    simp only [List.cons_append, nodupKeysB, Bool.and_eq_true, Bool.not_eq_true']
    refine ⟨?_, ih hnd.2 hl⟩
    show ((rest ++ [(x, m)]).any fun e => e.1 == c.1) = false
    rw [List.any_append]
    simp only [hnd.1, List.any_cons, List.any_nil]
    simp
    intro he
    exact hcx he.symm

theorem wfListB_mem {cs : List (String × Node)} {c : String × Node}
    (h : wfListB cs = true) (hm : c ∈ cs) : c.2.wfB = true := by
  induction cs with
  | nil => simp at hm
  | cons d rest ih =>
    rw [wfListB, Bool.and_eq_true] at h
    rcases List.mem_cons.mp hm with heq | hmem
    · rw [heq]; exact h.1
    · exact ih h.2 hmem

theorem wfListB_replaceN {x : String} {m : Node} {cs : List (String × Node)}
    (h : wfListB cs = true) (hm : m.wfB = true) : wfListB (replaceN x m cs) = true := by
  induction cs with
  | nil => rfl
  | cons c rest ih =>
    rw [wfListB, Bool.and_eq_true] at h
    by_cases hc : c.1 = x
    · simp [replaceN, hc, wfListB, hm, ih h.2]
    · simp [replaceN, hc, wfListB, h.1, ih h.2]

theorem wfListB_removeKeyN {x : String} {cs : List (String × Node)}
    (h : wfListB cs = true) : wfListB (removeKeyN x cs) = true := by
  induction cs with
  | nil => rfl
  | cons c rest ih =>
    rw [wfListB, Bool.and_eq_true] at h
    by_cases hc : c.1 = x
    · rw [removeKeyN, if_pos hc]
      exact ih h.2
    · rw [removeKeyN, if_neg hc, wfListB, Bool.and_eq_true]
      exact ⟨h.1, ih h.2⟩

theorem wfListB_append_single {x : String} {m : Node} {cs : List (String × Node)}
    (h : wfListB cs = true) (hm : m.wfB = true) : wfListB (cs ++ [(x, m)]) = true := by
  induction cs with
  | nil => simp [wfListB, hm]
  | cons c rest ih =>
    rw [wfListB, Bool.and_eq_true] at h
    rw [List.cons_append, wfListB, Bool.and_eq_true]
    exact ⟨h.1, ih h.2⟩

theorem wfB_dir_iff {cs : List (String × Node)} :
    Node.wfB (.dir cs) = true ↔ nodupKeysB cs = true ∧ wfListB cs = true := by
  rw [Node.wfB, Bool.and_eq_true]

-- ## Resolution lemmas

theorem Node.find_append (n : Node) (p q : FPath) :
    n.find (p ++ q) = (n.find p).bind (fun m => m.find q) := by
  induction p generalizing n with
  | nil => simp [Node.find]
  | cons x p ih =>
    cases n with
    | file b => rfl
    | dir cs =>
      rw [List.cons_append]
      show (match lookupN x cs with
            | none => none
            | some c => c.find (p ++ q)) =
           ((match lookupN x cs with
            | none => none
            | some c => c.find p) : Option Node).bind (fun m => m.find q)
      cases lookupN x cs with
      | none => rfl
      | some c => exact ih c

theorem find_wfB {fs m : Node} {p : FPath} (h : fs.wfB = true)
    (hf : fs.find p = some m) : m.wfB = true := by
  induction p generalizing fs with
  | nil =>
    rw [Node.find] at hf
    injection hf with h2
    rw [← h2]
    exact h
  | cons x p ih =>
    cases fs with
    | file b => cases hf
    | dir cs =>
      rw [Node.find] at hf
      cases hl : lookupN x cs with
      | none => rw [hl] at hf; cases hf
      | some c =>
        rw [hl] at hf
        have hwc : c.wfB = true :=
          wfListB_mem (wfB_dir_iff.mp h).2 (lookupN_mem hl)
        exact ih hwc hf

-- ## editAt characterisation

theorem editAt_ok_find {fs fs2 : Node} {p : FPath}
    {f : List (String × Node) → Except Err (List (String × Node))}
    (h : fs.editAt p f = .ok fs2) :
    ∃ cs cs2, fs.find p = some (.dir cs) ∧ f cs = .ok cs2 ∧
      ∀ q, fs2.find (p ++ q) = Node.find (.dir cs2) q := by
  induction p generalizing fs fs2 with
  | nil =>
    cases fs with
    | file b => cases h
    | dir cs =>
      have hm : Except.map Node.dir (f cs) = .ok fs2 := h
      cases hfc : f cs with
      | error e => rw [hfc] at hm; cases hm
      | ok cs2 =>
        rw [hfc] at hm
        injection hm with h2
        exact ⟨cs, cs2, rfl, hfc, fun q => by rw [← h2]; rfl⟩
  | cons x p ih =>
    cases fs with
    | file b => cases h
    | dir cs =>
      cases hl : lookupN x cs with
      | none =>
        rw [Node.editAt, hl] at h
        exact Except.noConfusion h
      | some c =>
        rw [Node.editAt, hl] at h
        have hm : Except.map (fun c2 => Node.dir (replaceN x c2 cs)) (c.editAt p f) = .ok fs2 := h
        cases hec : c.editAt p f with
        | error e => rw [hec] at hm; cases hm
        | ok c2 =>
          rw [hec] at hm
          injection hm with h2
          rcases ih hec with ⟨cs1, cs2, hfind, hok, hall⟩
          refine ⟨cs1, cs2, ?_, hok, ?_⟩
          · rw [Node.find, hl]
            exact hfind
          · intro q
            rw [← h2, List.cons_append, Node.find]
            have hlr : lookupN x (replaceN x c2 cs) = some c2 := by
              rw [lookupN_replaceN_self, hl]
              rfl
            rw [hlr]
            exact hall q

theorem editAt_frame {fs fs2 : Node} {p : FPath}
    {f : List (String × Node) → Except Err (List (String × Node))}
    (h : fs.editAt p f = .ok fs2) :
    ∀ q, ¬ PathLe q p → ¬ PathLe p q → fs2.find q = fs.find q := by
  induction p generalizing fs fs2 with
  | nil =>
    intro q _ hp
    exact absurd (pathLe_nil q) hp
  | cons x p ih =>
    intro q hq hp
    cases fs with
    | file b => cases h
    | dir cs =>
      cases hl : lookupN x cs with
      | none =>
        rw [Node.editAt, hl] at h
        exact Except.noConfusion h
      | some c =>
        rw [Node.editAt, hl] at h
        have hm : Except.map (fun c2 => Node.dir (replaceN x c2 cs)) (c.editAt p f) = .ok fs2 := h
        cases hec : c.editAt p f with
        | error e => rw [hec] at hm; cases hm
        | ok c2 =>
          rw [hec] at hm
          injection hm with h2
          cases q with
          | nil => exact absurd (pathLe_nil (x :: p)) hq
          | cons y q =>
            rw [← h2, Node.find, Node.find]
            by_cases hyx : y = x
            · subst hyx
              have hlr : lookupN y (replaceN y c2 cs) = some c2 := by
                rw [lookupN_replaceN_self, hl]
                rfl
              rw [hlr, hl]
              exact ih hec q (fun hle => hq (pathLe_cons_iff.mpr ⟨rfl, hle⟩))
                (fun hle => hp (pathLe_cons_iff.mpr ⟨rfl, hle⟩))
            · rw [lookupN_replaceN_ne hyx]

theorem editAt_view_above {fs fs2 : Node} {p : FPath}
    {f : List (String × Node) → Except Err (List (String × Node))}
    (h : fs.editAt p f = .ok fs2) :
    ∀ q, PathLe q p → q ≠ p → viewAt fs2 q = viewAt fs q := by
  induction p generalizing fs fs2 with
  | nil =>
    intro q hq hne
    exact absurd (pathLe_antisymm hq (pathLe_nil q)) hne
  | cons x p ih =>
    intro q hq hne
    cases fs with
    | file b => cases h
    | dir cs =>
      cases hl : lookupN x cs with
      | none =>
        rw [Node.editAt, hl] at h
        exact Except.noConfusion h
      | some c =>
        rw [Node.editAt, hl] at h
        have hm : Except.map (fun c2 => Node.dir (replaceN x c2 cs)) (c.editAt p f) = .ok fs2 := h
        cases hec : c.editAt p f with
        | error e => rw [hec] at hm; cases hm
        | ok c2 =>
          rw [hec] at hm
          injection hm with h2
          cases q with
          | nil => rw [← h2]; rfl
          | cons y q =>
            rcases pathLe_cons_iff.mp hq with ⟨hyx, hle⟩
            subst hyx
            have hqp : q ≠ p := fun he => hne (by rw [he])
            rw [← h2]
            unfold viewAt
            rw [Node.find, Node.find]
            have hlr : lookupN y (replaceN y c2 cs) = some c2 := by
              rw [lookupN_replaceN_self, hl]
              rfl
            rw [hlr, hl]
            exact ih hec q hle hqp

theorem editAt_wfB {fs fs2 : Node} {p : FPath}
    {f : List (String × Node) → Except Err (List (String × Node))}
    (h : fs.editAt p f = .ok fs2) (hwf : fs.wfB = true)
    (hf : ∀ cs cs2, nodupKeysB cs = true → wfListB cs = true → f cs = .ok cs2 →
          nodupKeysB cs2 = true ∧ wfListB cs2 = true) :
    fs2.wfB = true := by
  induction p generalizing fs fs2 with
  | nil =>
    cases fs with
    | file b => cases h
    | dir cs =>
      have hm : Except.map Node.dir (f cs) = .ok fs2 := h
      cases hfc : f cs with
      | error e => rw [hfc] at hm; cases hm
      | ok cs2 =>
        rw [hfc] at hm
        injection hm with h2
        rcases wfB_dir_iff.mp hwf with ⟨hnd, hwl⟩
        rw [← h2, wfB_dir_iff]
        exact hf cs cs2 hnd hwl hfc
  | cons x p ih =>
    cases fs with
    | file b => cases h
    | dir cs =>
      cases hl : lookupN x cs with
      | none =>
        rw [Node.editAt, hl] at h
        exact Except.noConfusion h
      | some c =>
        rw [Node.editAt, hl] at h
        have hm : Except.map (fun c2 => Node.dir (replaceN x c2 cs)) (c.editAt p f) = .ok fs2 := h
        cases hec : c.editAt p f with
        | error e => rw [hec] at hm; cases hm
        | ok c2 =>
          rw [hec] at hm
          injection hm with h2
          rcases wfB_dir_iff.mp hwf with ⟨hnd, hwl⟩
          have hwc : c.wfB = true := wfListB_mem hwl (lookupN_mem hl)
          have hwc2 : c2.wfB = true := ih hec hwc
          rw [← h2, wfB_dir_iff, nodupKeysB_replaceN]
          exact ⟨hnd, wfListB_replaceN hwl hwc2⟩

-- ## Entry-level operation lemmas

theorem replaceN_eq_of_none {x : String} {m : Node} {cs : List (String × Node)}
    (h : lookupN x cs = none) : replaceN x m cs = cs := by
  induction cs with
  | nil => rfl
  | cons c rest ih =>
    simp only [lookupN] at h
    by_cases hc : c.1 = x
    · rw [if_pos hc] at h
      cases h
    · rw [if_neg hc] at h
      rw [replaceN, if_neg hc, ih h]

theorem replaceN_self_eq {x : String} {c : Node} {cs : List (String × Node)}
    (hnd : nodupKeysB cs = true) (h : lookupN x cs = some c) : replaceN x c cs = cs := by
  induction cs with
  | nil => rfl
  | cons d rest ih =>
    simp only [nodupKeysB, Bool.and_eq_true, Bool.not_eq_true'] at hnd
    simp only [lookupN] at h
    by_cases hd : d.1 = x
    · rw [if_pos hd] at h
      injection h with h2
      have hrest : lookupN x rest = none := by
        rw [lookupN_eq_none_iff]
        intro e he hex
        have : rest.any (fun e => e.1 == d.1) = true :=
          List.any_eq_true.mpr ⟨e, he, by simp [hex, hd]⟩
        rw [this] at hnd
        exact absurd hnd.1 (by simp)
      rw [replaceN, if_pos hd, replaceN_eq_of_none hrest]
      have : (x, c) = d := by
        rw [← hd, ← h2]
      rw [this]
    · rw [if_neg hd] at h
      rw [replaceN, if_neg hd, ih hnd.2 h]

theorem removeEntry_ok {x : String} {cs cs2 : List (String × Node)}
    (h : removeEntry x cs = .ok cs2) :
    cs2 = removeKeyN x cs ∧ ∃ b, lookupN x cs = some (.file b) := by
  unfold removeEntry at h
  cases hl : lookupN x cs with
  | none => rw [hl] at h; cases h
  | some m =>
    cases m with
    | file b =>
      rw [hl] at h
      injection h with h2
      exact ⟨h2.symm, b, rfl⟩
    | dir cs1 => rw [hl] at h; cases h

theorem rmtreeEntry_ok {x : String} {cs cs2 : List (String × Node)}
    (h : rmtreeEntry x cs = .ok cs2) :
    cs2 = removeKeyN x cs ∧ ∃ ds, lookupN x cs = some (.dir ds) := by
  unfold rmtreeEntry at h
  cases hl : lookupN x cs with
  | none => rw [hl] at h; cases h
  | some m =>
    cases m with
    | dir ds =>
      rw [hl] at h
      injection h with h2
      exact ⟨h2.symm, ds, rfl⟩
    | file b => rw [hl] at h; cases h

theorem writeEntry_ok {x : String} {b : Bytes} {cs cs2 : List (String × Node)}
    (h : writeEntry x b cs = .ok cs2) :
    (∃ bb, lookupN x cs = some (.file bb) ∧ cs2 = replaceN x (.file b) cs) ∨
    (lookupN x cs = none ∧ cs2 = cs ++ [(x, .file b)]) := by
  unfold writeEntry at h
  cases hl : lookupN x cs with
  | none =>
    rw [hl] at h
    injection h with h2
    exact Or.inr ⟨rfl, h2.symm⟩
  | some m =>
    cases m with
    | file bb =>
      rw [hl] at h
      injection h with h2
      exact Or.inl ⟨bb, rfl, h2.symm⟩
    | dir ds => rw [hl] at h; cases h

theorem removeEntry_wfT {x : String} :
    ∀ cs cs2, nodupKeysB cs = true → wfListB cs = true → removeEntry x cs = .ok cs2 →
      nodupKeysB cs2 = true ∧ wfListB cs2 = true := by
  intro cs cs2 hnd hwl h
  rcases removeEntry_ok h with ⟨h2, _⟩
  rw [h2]
  exact ⟨nodupKeysB_removeKeyN hnd, wfListB_removeKeyN hwl⟩

theorem rmtreeEntry_wfT {x : String} :
    ∀ cs cs2, nodupKeysB cs = true → wfListB cs = true → rmtreeEntry x cs = .ok cs2 →
      nodupKeysB cs2 = true ∧ wfListB cs2 = true := by
  intro cs cs2 hnd hwl h
  rcases rmtreeEntry_ok h with ⟨h2, _⟩
  rw [h2]
  exact ⟨nodupKeysB_removeKeyN hnd, wfListB_removeKeyN hwl⟩

theorem writeEntry_wfT {x : String} {b : Bytes} :
    ∀ cs cs2, nodupKeysB cs = true → wfListB cs = true → writeEntry x b cs = .ok cs2 →
      nodupKeysB cs2 = true ∧ wfListB cs2 = true := by
  intro cs cs2 hnd hwl h
  rcases writeEntry_ok h with ⟨bb, _, h2⟩ | ⟨hl, h2⟩
  · rw [h2, nodupKeysB_replaceN]
    exact ⟨hnd, wfListB_replaceN hwl rfl⟩
  · rw [h2]
    exact ⟨nodupKeysB_append_single hnd hl, wfListB_append_single hwl rfl⟩

theorem removePath_snoc (fs : Node) (base : FPath) (x : String) :
    fs.removePath (base ++ [x]) = fs.editAt base (removeEntry x) := by
  rw [Node.removePath, List.getLast?_concat, List.dropLast_concat]

theorem rmtreePath_snoc (fs : Node) (base : FPath) (x : String) :
    fs.rmtreePath (base ++ [x]) = fs.editAt base (rmtreeEntry x) := by
  rw [Node.rmtreePath, List.getLast?_concat, List.dropLast_concat]

theorem writeFile_snoc (fs : Node) (base : FPath) (x : String) (b : Bytes) :
    fs.writeFile (base ++ [x]) b = fs.editAt base (writeEntry x b) := by
  rw [Node.writeFile, List.getLast?_concat, List.dropLast_concat]

-- ## makedirs characterisation

theorem makedirs_not_file {fs fs2 : Node} {t : FPath} (h : fs.makedirs t = .ok fs2) :
    ∀ b, fs.find t ≠ some (.file b) := by
  induction t generalizing fs fs2 with
  | nil =>
    cases fs with
    | file b => exact Except.noConfusion h
    | dir cs => intro b hb; cases hb
  | cons x p ih =>
    cases fs with
    | file b => exact Except.noConfusion h
    | dir cs =>
      rw [Node.makedirs] at h
      cases hl : lookupN x cs with
      | some c =>
        rw [hl] at h
        have hm : Except.map (fun c2 => Node.dir (replaceN x c2 cs)) (c.makedirs p) = .ok fs2 := h
        cases hec : c.makedirs p with
        | error e => rw [hec] at hm; cases hm
        | ok c2 =>
          intro b hb
          rw [Node.find, hl] at hb
          exact ih hec b hb
      | none =>
        intro b hb
        rw [Node.find, hl] at hb
        cases hb

theorem makedirs_frame {fs fs2 : Node} {t : FPath} (h : fs.makedirs t = .ok fs2) :
    ∀ q, ¬ PathLe q t → ¬ PathLe t q → fs2.find q = fs.find q := by
  induction t generalizing fs fs2 with
  | nil =>
    intro q _ hp
    exact absurd (pathLe_nil q) hp
  | cons x p ih =>
    intro q hq hp
    cases fs with
    | file b => exact Except.noConfusion h
    | dir cs =>
      rw [Node.makedirs] at h
      cases q with
      | nil => exact absurd (pathLe_nil (x :: p)) hq
      | cons y q =>
        cases hl : lookupN x cs with
        | some c =>
          rw [hl] at h
          have hm : Except.map (fun c2 => Node.dir (replaceN x c2 cs)) (c.makedirs p) = .ok fs2 := h
          cases hec : c.makedirs p with
          | error e => rw [hec] at hm; cases hm
          | ok c2 =>
            rw [hec] at hm
            injection hm with h2
            rw [← h2, Node.find, Node.find]
            by_cases hyx : y = x
            · subst hyx
              have hlr : lookupN y (replaceN y c2 cs) = some c2 := by
                rw [lookupN_replaceN_self, hl]
                rfl
              rw [hlr, hl]
              exact ih hec q (fun hle => hq (pathLe_cons_iff.mpr ⟨rfl, hle⟩))
                (fun hle => hp (pathLe_cons_iff.mpr ⟨rfl, hle⟩))
            · rw [lookupN_replaceN_ne hyx]
        | none =>
          rw [hl] at h
          have hm : Except.map (fun c2 => Node.dir (cs ++ [(x, c2)])) (Node.makedirs (.dir []) p) = .ok fs2 := h
          cases hec : Node.makedirs (.dir []) p with
          | error e => rw [hec] at hm; cases hm
          | ok c2 =>
            rw [hec] at hm
            injection hm with h2
            rw [← h2, Node.find, Node.find]
            by_cases hyx : y = x
            · subst hyx
              rw [lookupN_append_single_self hl, hl]
              have hq2 : c2.find q = Node.find (.dir []) q :=
                ih hec q (fun hle => hq (pathLe_cons_iff.mpr ⟨rfl, hle⟩))
                  (fun hle => hp (pathLe_cons_iff.mpr ⟨rfl, hle⟩))
              show c2.find q = (none : Option Node)
              cases q with
              | nil => exact absurd (pathLe_cons_iff.mpr ⟨rfl, pathLe_nil p⟩) hq
              | cons z q => rw [hq2]; rfl
            · rw [lookupN_append_single_ne hyx]

theorem makedirs_view {fs fs2 : Node} {t : FPath} (h : fs.makedirs t = .ok fs2) :
    ∀ q, PathLe q t →
      viewAt fs2 q = viewAt fs q ∨ (viewAt fs q = none ∧ viewAt fs2 q = some none) := by
  induction t generalizing fs fs2 with
  | nil =>
    intro q hq
    cases fs with
    | file b => exact Except.noConfusion h
    | dir cs =>
      injection h with h2
      rw [← h2]
      exact Or.inl rfl
  | cons x p ih =>
    intro q hq
    cases fs with
    | file b => exact Except.noConfusion h
    | dir cs =>
      rw [Node.makedirs] at h
      cases q with
      | nil =>
        left
        cases hl : lookupN x cs with
        | some c =>
          rw [hl] at h
          have hm : Except.map (fun c2 => Node.dir (replaceN x c2 cs)) (c.makedirs p) = .ok fs2 := h
          cases hec : c.makedirs p with
          | error e => rw [hec] at hm; cases hm
          | ok c2 =>
            rw [hec] at hm
            injection hm with h2
            rw [← h2]
            rfl
        | none =>
          rw [hl] at h
          have hm : Except.map (fun c2 => Node.dir (cs ++ [(x, c2)])) (Node.makedirs (.dir []) p) = .ok fs2 := h
          cases hec : Node.makedirs (.dir []) p with
          | error e => rw [hec] at hm; cases hm
          | ok c2 =>
            rw [hec] at hm
            injection hm with h2
            rw [← h2]
            rfl
      | cons y q =>
        rcases pathLe_cons_iff.mp hq with ⟨hyx, hle⟩
        subst hyx
        cases hl : lookupN y cs with
        | some c =>
          rw [hl] at h
          have hm : Except.map (fun c2 => Node.dir (replaceN y c2 cs)) (c.makedirs p) = .ok fs2 := h
          cases hec : c.makedirs p with
          | error e => rw [hec] at hm; cases hm
          | ok c2 =>
            rw [hec] at hm
            injection hm with h2
            have hv2 : viewAt fs2 (y :: q) = viewAt c2 q := by
              rw [← h2]
              unfold viewAt
              rw [Node.find]
              have hlr : lookupN y (replaceN y c2 cs) = some c2 := by
                rw [lookupN_replaceN_self, hl]
                rfl
              rw [hlr]
            have hv1 : viewAt (Node.dir cs) (y :: q) = viewAt c q := by
              unfold viewAt
              rw [Node.find, hl]
            rw [hv2, hv1]
            exact ih hec q hle
        | none =>
          rw [hl] at h
          have hm : Except.map (fun c2 => Node.dir (cs ++ [(y, c2)])) (Node.makedirs (.dir []) p) = .ok fs2 := h
          cases hec : Node.makedirs (.dir []) p with
          | error e => rw [hec] at hm; cases hm
          | ok c2 =>
            rw [hec] at hm
            injection hm with h2
            have hv2 : viewAt fs2 (y :: q) = viewAt c2 q := by
              rw [← h2]
              unfold viewAt
              rw [Node.find, lookupN_append_single_self hl]
            have hv1 : viewAt (Node.dir cs) (y :: q) = none := by
              unfold viewAt
              rw [Node.find, hl]
              rfl
            rw [hv2, hv1]
            rcases ih hec q hle with heq | ⟨hn, hc⟩
            · cases q with
              | nil => exact Or.inr ⟨rfl, by rw [heq]; rfl⟩
              | cons z q =>
                left
                rw [heq]
                unfold viewAt
                rw [Node.find]
                rfl
            · exact Or.inr ⟨rfl, hc⟩

theorem makedirs_dir {fs fs2 : Node} {t : FPath} (h : fs.makedirs t = .ok fs2) :
    ∃ cs2, fs2.find t = some (.dir cs2) ∧ (fs.find t = some (.dir cs2) ∨ cs2 = []) := by
  induction t generalizing fs fs2 with
  | nil =>
    cases fs with
    | file b => exact Except.noConfusion h
    | dir cs =>
      injection h with h2
      exact ⟨cs, by rw [← h2]; rfl, Or.inl rfl⟩
  | cons x p ih =>
    cases fs with
    | file b => exact Except.noConfusion h
    | dir cs =>
      rw [Node.makedirs] at h
      cases hl : lookupN x cs with
      | some c =>
        rw [hl] at h
        have hm : Except.map (fun c2 => Node.dir (replaceN x c2 cs)) (c.makedirs p) = .ok fs2 := h
        cases hec : c.makedirs p with
        | error e => rw [hec] at hm; cases hm
        | ok c2 =>
          rw [hec] at hm
          injection hm with h2
          rcases ih hec with ⟨cs2, hfind, hdisj⟩
          refine ⟨cs2, ?_, ?_⟩
          · rw [← h2, Node.find]
            have hlr : lookupN x (replaceN x c2 cs) = some c2 := by
              rw [lookupN_replaceN_self, hl]
              rfl
            rw [hlr]
            exact hfind
          · rcases hdisj with hA | hB
            · left
              rw [Node.find, hl]
              exact hA
            · exact Or.inr hB
      | none =>
        rw [hl] at h
        have hm : Except.map (fun c2 => Node.dir (cs ++ [(x, c2)])) (Node.makedirs (.dir []) p) = .ok fs2 := h
        cases hec : Node.makedirs (.dir []) p with
        | error e => rw [hec] at hm; cases hm
        | ok c2 =>
          rw [hec] at hm
          injection hm with h2
          rcases ih hec with ⟨cs2, hfind, hdisj⟩
          refine ⟨cs2, ?_, Or.inr ?_⟩
          · rw [← h2, Node.find, lookupN_append_single_self hl]
            exact hfind
          · rcases hdisj with hA | hB
            · cases p with
              | nil =>
                rw [Node.find] at hA
                injection hA with h3
                injection h3 with h4
                exact h4.symm
              | cons z p =>
                rw [Node.find] at hA
                cases hA
            · exact hB

theorem makedirs_wfB {fs fs2 : Node} {t : FPath} (h : fs.makedirs t = .ok fs2)
    (hwf : fs.wfB = true) : fs2.wfB = true := by
  induction t generalizing fs fs2 with
  | nil =>
    cases fs with
    | file b => exact Except.noConfusion h
    | dir cs =>
      injection h with h2
      rw [← h2]
      exact hwf
  | cons x p ih =>
    cases fs with
    | file b => exact Except.noConfusion h
    | dir cs =>
      rw [Node.makedirs] at h
      rcases wfB_dir_iff.mp hwf with ⟨hnd, hwl⟩
      cases hl : lookupN x cs with
      | some c =>
        rw [hl] at h
        have hm : Except.map (fun c2 => Node.dir (replaceN x c2 cs)) (c.makedirs p) = .ok fs2 := h
        cases hec : c.makedirs p with
        | error e => rw [hec] at hm; cases hm
        | ok c2 =>
          rw [hec] at hm
          injection hm with h2
          have hwc2 : c2.wfB = true := ih hec (wfListB_mem hwl (lookupN_mem hl))
          rw [← h2, wfB_dir_iff, nodupKeysB_replaceN]
          exact ⟨hnd, wfListB_replaceN hwl hwc2⟩
      | none =>
        rw [hl] at h
        have hm : Except.map (fun c2 => Node.dir (cs ++ [(x, c2)])) (Node.makedirs (.dir []) p) = .ok fs2 := h
        cases hec : Node.makedirs (.dir []) p with
        | error e => rw [hec] at hm; cases hm
        | ok c2 =>
          rw [hec] at hm
          injection hm with h2
          have hwc2 : c2.wfB = true := ih hec rfl
          rw [← h2, wfB_dir_iff]
          exact ⟨nodupKeysB_append_single hnd hl, wfListB_append_single hwl hwc2⟩

theorem makedirs_id {fs : Node} {t : FPath} {cs : List (String × Node)}
    (hwf : fs.wfB = true) (hd : fs.find t = some (.dir cs)) : fs.makedirs t = .ok fs := by
  induction t generalizing fs cs with
  | nil =>
    rw [Node.find] at hd
    injection hd with h2
    rw [h2]
    rfl
  | cons x p ih =>
    cases fs with
    | file b => cases hd
    | dir ds =>
      rw [Node.find] at hd
      cases hl : lookupN x ds with
      | none => rw [hl] at hd; cases hd
      | some c =>
        rw [hl] at hd
        have hwc : c.wfB = true :=
          wfListB_mem (wfB_dir_iff.mp hwf).2 (lookupN_mem hl)
        have hcp : c.makedirs p = .ok c := ih hwc hd
        rw [Node.makedirs, hl]
        show Except.map (fun c2 => Node.dir (replaceN x c2 ds)) (c.makedirs p) = Except.ok (Node.dir ds)
        rw [hcp]
        show Except.ok (Node.dir (replaceN x c ds)) = Except.ok (Node.dir ds)
        rw [replaceN_self_eq (wfB_dir_iff.mp hwf).1 hl]

-- ## Glue lemmas

theorem find_child {fs : Node} {base : FPath} {cs : List (String × Node)}
    (h : fs.find base = some (.dir cs)) (x : String) :
    fs.find (base ++ [x]) = lookupN x cs := by
  rw [Node.find_append, h]
  show Node.find (.dir cs) [x] = lookupN x cs
  rw [Node.find]
  cases hl : lookupN x cs with
  | none => rfl
  | some c => cases c <;> rfl

theorem find_deep {fs : Node} {base : FPath} {m : Node}
    (h : fs.find base = some m) (q : FPath) :
    fs.find (base ++ q) = m.find q := by
  rw [Node.find_append, h]
  rfl

theorem find_deep_none {fs : Node} {base : FPath}
    (h : fs.find base = none) (q : FPath) :
    fs.find (base ++ q) = none := by
  rw [Node.find_append, h]
  rfl

theorem isfileB_iff {fs : Node} {p : FPath} :
    fs.isfileB p = true ↔ ∃ b, fs.find p = some (.file b) := by
  unfold Node.isfileB
  cases h : fs.find p with
  | none => simp
  | some m => cases m <;> simp

theorem isdirB_iff {fs : Node} {p : FPath} :
    fs.isdirB p = true ↔ ∃ cs, fs.find p = some (.dir cs) := by
  unfold Node.isdirB
  cases h : fs.find p with
  | none => simp
  | some m => cases m <;> simp

theorem existsB_iff {fs : Node} {p : FPath} :
    fs.existsB p = true ↔ ∃ m, fs.find p = some m := by
  unfold Node.existsB
  cases h : fs.find p <;> simp

theorem find_none_of_not_file_dir {fs : Node} {p : FPath}
    (h1 : fs.isfileB p = false) (h2 : fs.isdirB p = false) : fs.find p = none := by
  cases h : fs.find p with
  | none => rfl
  | some m =>
    cases m with
    | file b => unfold Node.isfileB at h1; rw [h] at h1; cases h1
    | dir cs => unfold Node.isdirB at h2; rw [h] at h2; cases h2

theorem contains_iff {l : List String} {x : String} :
    l.contains x = true ↔ x ∈ l := by
  induction l with
  | nil => simp
  | cons a l ih => simp [List.contains]

theorem editAt_ok_exists {fs : Node} {p : FPath} {cs cs2 : List (String × Node)}
    {f : List (String × Node) → Except Err (List (String × Node))}
    (hd : fs.find p = some (.dir cs)) (hf : f cs = .ok cs2) :
    ∃ fs2, fs.editAt p f = .ok fs2 := by
  induction p generalizing fs cs with
  | nil =>
    cases fs with
    | file b => cases hd
    | dir ds =>
      rw [Node.find] at hd
      injection hd with h2
      injection h2 with h3
      rw [← h3] at hf
      refine ⟨.dir cs2, ?_⟩
      show Except.map Node.dir (f ds) = .ok (.dir cs2)
      rw [hf]
      rfl
  | cons x p ih =>
    cases fs with
    | file b => cases hd
    | dir ds =>
      rw [Node.find] at hd
      cases hl : lookupN x ds with
      | none => rw [hl] at hd; cases hd
      | some c =>
        rw [hl] at hd
        rcases ih hd hf with ⟨c2, hc2⟩
        refine ⟨.dir (replaceN x c2 ds), ?_⟩
        rw [Node.editAt, hl]
        show Except.map (fun c2 => Node.dir (replaceN x c2 ds)) (c.editAt p f) = _
        rw [hc2]
        rfl

theorem get_checksum_ok {S : Synchronizer} {H : HashFn} {fs : Node} {p : FPath} {b : Bytes}
    (ha : algUsable S.algorithm = true) (hf : fs.find p = some (.file b)) :
    S.get_checksum H fs p = .ok (H S.algorithm b) := by
  unfold algUsable at ha
  rw [Bool.and_eq_true, Bool.not_eq_true'] at ha
  unfold Synchronizer.get_checksum
  rw [hf]
  show (if hashlib_module_attrs.contains S.algorithm then _ else _) = _
  rw [if_pos ha.1, if_neg (by rw [ha.2]; exact Bool.false_ne_true)]

-- ## Stale-entry removal: per-step and loop characterisation

theorem bool_neg {b : Bool} (h : b = false) : ¬ (b = true) := by
  rw [h]
  exact Bool.false_ne_true

theorem deleteChild_step {fs fs' : Node} {rdir : FPath} {x : String}
    {ds : List (String × Node)}
    {g : List (String × Node) → Except Err (List (String × Node))}
    (hwf : fs.wfB = true) (hdir : fs.find rdir = some (.dir ds))
    (hed : fs.editAt rdir g = .ok fs') (hg : g ds = .ok (removeKeyN x ds))
    (hgwf : ∀ cs cs2, nodupKeysB cs = true → wfListB cs = true → g cs = .ok cs2 →
            nodupKeysB cs2 = true ∧ wfListB cs2 = true) :
    fs'.wfB = true ∧ fs'.find rdir = some (.dir (removeKeyN x ds)) ∧
    (∀ q, ¬ PathLe q rdir → ¬ PathLe rdir q → fs'.find q = fs.find q) ∧
    (∀ q, PathLe q rdir → viewAt fs' q = viewAt fs q) ∧
    (∀ y t, y ≠ x → fs'.find (rdir ++ y :: t) = fs.find (rdir ++ y :: t)) ∧
    fs'.find (rdir ++ [x]) = none := by
  rcases editAt_ok_find hed with ⟨cs, cs2, hfind, hok, hall⟩
  rw [hdir] at hfind
  injection hfind with hfind
  injection hfind with hfind
  subst hfind
  rw [hg] at hok
  injection hok with hok
  subst hok
  have hrdir : fs'.find rdir = some (.dir (removeKeyN x ds)) := by
    have := hall []
    rw [List.append_nil] at this
    exact this
  refine ⟨editAt_wfB hed hwf hgwf, hrdir, editAt_frame hed, ?_, ?_, ?_⟩
  · intro q hq
    by_cases hqe : q = rdir
    · subst hqe
      unfold viewAt
      rw [hrdir, hdir]
      rfl
    · exact editAt_view_above hed q hq hqe
  · intro y t hy
    rw [hall (y :: t), find_deep hdir (y :: t)]
    show Node.find (.dir (removeKeyN x ds)) (y :: t) = Node.find (.dir ds) (y :: t)
    rw [Node.find, Node.find, lookupN_removeKeyN_ne hy]
  · rw [hall [x]]
    show Node.find (.dir (removeKeyN x ds)) [x] = none
    rw [Node.find, lookupN_removeKeyN_self]

theorem deleteLoop_spec {rdir : FPath} {items : List String} :
    ∀ (names : List String) (fs : Node) (ds : List (String × Node)),
    fs.wfB = true → fs.find rdir = some (.dir ds) →
    ∃ fs2 ev, deleteLoop rdir items fs names = .ok (fs2, ev) ∧
      fs2.wfB = true ∧
      (∃ ds2, fs2.find rdir = some (.dir ds2)) ∧
      (∀ q, ¬ PathLe q rdir → ¬ PathLe rdir q → fs2.find q = fs.find q) ∧
      (∀ q, PathLe q rdir → viewAt fs2 q = viewAt fs q) ∧
      (∀ x t, (¬ x ∈ names ∨ x ∈ items) → fs2.find (rdir ++ x :: t) = fs.find (rdir ++ x :: t)) ∧
      (∀ x, x ∈ names → ¬ x ∈ items → fs2.find (rdir ++ [x]) = none) := by
  intro names
  induction names with
  | nil =>
    intro fs ds hwf hdir
    exact ⟨fs, [], rfl, hwf, ⟨ds, hdir⟩, fun q _ _ => rfl, fun q _ => rfl,
      fun x t _ => rfl, fun x hx => absurd hx (List.not_mem_nil x)⟩
  | cons x rest ih =>
    intro fs ds hwf hdir
    cases hmem : items.contains x with
    | true =>
      have hxitems : x ∈ items := contains_iff.mp hmem
      have hc1 : (fs.isfileB (rdir ++ [x]) && !(items.contains x)) = false := by
        rw [hmem]
        simp
      have hc2 : (fs.isdirB (rdir ++ [x]) && !(items.contains x)) = false := by
        rw [hmem]
        simp
      rcases ih fs ds hwf hdir with ⟨fs2, ev, hrun, hwf2, hds2, hfr, hva, hk3, hk5⟩
      refine ⟨fs2, ev, ?_, hwf2, hds2, hfr, hva, ?_, ?_⟩
      · simp only [deleteLoop]
        rw [if_neg (bool_neg hc1), if_neg (bool_neg hc2)]
        exact hrun
      · intro y t hy
        apply hk3
        rcases hy with hy | hy
        · exact Or.inl (fun hmemr => hy (List.mem_cons_of_mem x hmemr))
        · exact Or.inr hy
      · intro y hy hyn
        rcases List.mem_cons.mp hy with rfl | hyr
        · exact absurd hxitems hyn
        · exact hk5 y hyr hyn
    | false =>
      have hxitems : ¬ x ∈ items := fun hx => by
        rw [contains_iff.mpr hx] at hmem
        cases hmem
      cases hfile : fs.isfileB (rdir ++ [x]) with
      | true =>
        -- delete as a single file
        rcases isfileB_iff.mp hfile with ⟨b, hfb⟩
        have hlx : lookupN x ds = some (.file b) := by
          rw [← find_child hdir x]
          exact hfb
        have hrem : removeEntry x ds = .ok (removeKeyN x ds) := by
          unfold removeEntry
          rw [hlx]
        rcases editAt_ok_exists hdir hrem with ⟨fs1, hed⟩
        rcases deleteChild_step hwf hdir hed hrem (fun cs cs2 => removeEntry_wfT cs cs2)
          with ⟨hwf1, hdir1, hfr1, hva1, hne1, hgone1⟩
        rcases ih fs1 (removeKeyN x ds) hwf1 hdir1 with
          ⟨fs2, ev, hrun, hwf2, hds2, hfr, hva, hk3, hk5⟩
        have hc1 : (fs.isfileB (rdir ++ [x]) && !(items.contains x)) = true := by
          rw [hfile, hmem]
          rfl
        refine ⟨fs2, Event.deleted (rdir ++ [x]) :: ev, ?_, hwf2, hds2, ?_, ?_, ?_, ?_⟩
        · simp only [deleteLoop]
          rw [if_pos hc1]
          rw [removePath_snoc, hed]
          show addEvents [Event.deleted (rdir ++ [x])] (deleteLoop rdir items fs1 rest) = _
          rw [hrun]
          rfl
        · intro q hq hp
          rw [hfr q hq hp, hfr1 q hq hp]
        · intro q hq
          rw [hva q hq, hva1 q hq]
        · intro y t hy
          have hyx : y ≠ x := by
            rcases hy with hy | hy
            · intro he
              exact hy (by rw [he]; exact List.mem_cons_self x rest)
            · intro he
              exact hxitems (he ▸ hy)
          have hyr : ¬ y ∈ rest ∨ y ∈ items := by
            rcases hy with hy | hy
            · exact Or.inl (fun hr => hy (List.mem_cons_of_mem x hr))
            · exact Or.inr hy
          rw [hk3 y t hyr, hne1 y t hyx]
        · intro y hy hyn
          rcases List.mem_cons.mp hy with rfl | hyr
          · by_cases hyrest : y ∈ rest
            · exact hk5 y hyrest hyn
            · have := hk3 y [] (Or.inl hyrest)
              rw [this]
              exact hgone1
          · exact hk5 y hyr hyn
      | false =>
        cases hdirx : fs.isdirB (rdir ++ [x]) with
        | true =>
          -- delete recursively
          rcases isdirB_iff.mp hdirx with ⟨bs, hfb⟩
          have hlx : lookupN x ds = some (.dir bs) := by
            rw [← find_child hdir x]
            exact hfb
          have hrem : rmtreeEntry x ds = .ok (removeKeyN x ds) := by
            unfold rmtreeEntry
            rw [hlx]
          rcases editAt_ok_exists hdir hrem with ⟨fs1, hed⟩
          rcases deleteChild_step hwf hdir hed hrem (fun cs cs2 => rmtreeEntry_wfT cs cs2)
            with ⟨hwf1, hdir1, hfr1, hva1, hne1, hgone1⟩
          rcases ih fs1 (removeKeyN x ds) hwf1 hdir1 with
            ⟨fs2, ev, hrun, hwf2, hds2, hfr, hva, hk3, hk5⟩
          have hc1 : (fs.isfileB (rdir ++ [x]) && !(items.contains x)) = false := by
            rw [hfile]
            rfl
          have hc2 : (fs.isdirB (rdir ++ [x]) && !(items.contains x)) = true := by
            rw [hdirx, hmem]
            rfl
          refine ⟨fs2, Event.deleted rdir :: ev, ?_, hwf2, hds2, ?_, ?_, ?_, ?_⟩
          · simp only [deleteLoop]
            rw [if_neg (bool_neg hc1), if_pos hc2]
            rw [rmtreePath_snoc, hed]
            show addEvents [Event.deleted rdir] (deleteLoop rdir items fs1 rest) = _
            rw [hrun]
            rfl
          · intro q hq hp
            rw [hfr q hq hp, hfr1 q hq hp]
          · intro q hq
            rw [hva q hq, hva1 q hq]
          · intro y t hy
            have hyx : y ≠ x := by
              rcases hy with hy | hy
              · intro he
                exact hy (by rw [he]; exact List.mem_cons_self x rest)
              · intro he
                exact hxitems (he ▸ hy)
            have hyr : ¬ y ∈ rest ∨ y ∈ items := by
              rcases hy with hy | hy
              · exact Or.inl (fun hr => hy (List.mem_cons_of_mem x hr))
              · exact Or.inr hy
            rw [hk3 y t hyr, hne1 y t hyx]
          · intro y hy hyn
            rcases List.mem_cons.mp hy with rfl | hyr
            · by_cases hyrest : y ∈ rest
              · exact hk5 y hyrest hyn
              · have := hk3 y [] (Or.inl hyrest)
                rw [this]
                exact hgone1
            · exact hk5 y hyr hyn
        | false =>
          -- neither a file nor a directory here: nothing exists, skip
          have hnone : fs.find (rdir ++ [x]) = none := find_none_of_not_file_dir hfile hdirx
          have hc1 : (fs.isfileB (rdir ++ [x]) && !(items.contains x)) = false := by
            rw [hfile]
            rfl
          have hc2 : (fs.isdirB (rdir ++ [x]) && !(items.contains x)) = false := by
            rw [hdirx]
            rfl
          rcases ih fs ds hwf hdir with ⟨fs2, ev, hrun, hwf2, hds2, hfr, hva, hk3, hk5⟩
          refine ⟨fs2, ev, ?_, hwf2, hds2, hfr, hva, ?_, ?_⟩
          · simp only [deleteLoop]
            rw [if_neg (bool_neg hc1), if_neg (bool_neg hc2)]
            exact hrun
          · intro y t hy
            apply hk3
            rcases hy with hy | hy
            · exact Or.inl (fun hmemr => hy (List.mem_cons_of_mem x hmemr))
            · exact Or.inr hy
          · intro y hy hyn
            rcases List.mem_cons.mp hy with rfl | hyr
            · by_cases hyrest : y ∈ rest
              · exact hk5 y hyrest hyn
              · have := hk3 y [] (Or.inl hyrest)
                rw [this]
                exact hnone
            · exact hk5 y hyr hyn

theorem existsB_false {fs : Node} {p : FPath} (h : fs.existsB p = false) : fs.find p = none := by
  unfold Node.existsB at h
  cases hf : fs.find p with
  | none => rfl
  | some m => rw [hf] at h; cases h

theorem mem_keys_of_lookupN {x : String} {cs : List (String × Node)}
    (h : ¬ lookupN x cs = none) : ∃ c ∈ cs, c.1 = x := by
  cases hl : lookupN x cs with
  | none => exact absurd hl h
  | some m => exact ⟨(x, m), lookupN_mem hl, rfl⟩

theorem delete_extra_spec {fs : Node} {rdir : FPath} {items : List String}
    {ds : List (String × Node)}
    (hwf : fs.wfB = true) (hdir : fs.find rdir = some (.dir ds)) :
    ∃ fs2 ev, delete_extra_replica_items fs rdir items = .ok (fs2, ev) ∧
      fs2.wfB = true ∧
      (∃ ds2, fs2.find rdir = some (.dir ds2)) ∧
      (∀ q, ¬ PathLe q rdir → ¬ PathLe rdir q → fs2.find q = fs.find q) ∧
      (∀ q, PathLe q rdir → viewAt fs2 q = viewAt fs q) ∧
      (∀ x t, (x ∈ items ∨ lookupN x ds = none) →
        fs2.find (rdir ++ x :: t) = fs.find (rdir ++ x :: t)) ∧
      (∀ x, ¬ x ∈ items → fs2.find (rdir ++ [x]) = none) := by
  rcases deleteLoop_spec (ds.map Prod.fst) fs ds hwf hdir with
    ⟨fs2, ev, hrun, hwf2, hds2, hfr, hva, hk3, hk5⟩
  have hld : fs.listdir rdir = .ok (ds.map Prod.fst) := by
    unfold Node.listdir
    rw [hdir]
  refine ⟨fs2, ev, ?_, hwf2, hds2, hfr, hva, ?_, ?_⟩
  · unfold delete_extra_replica_items
    rw [hld]
    exact hrun
  · intro x t hx
    rcases hx with hx | hx
    · exact hk3 x t (Or.inr hx)
    · refine hk3 x t (Or.inl ?_)
      intro hmem
      rcases List.mem_map.mp hmem with ⟨c, hc, hcx⟩
      rw [lookupN_eq_none_iff] at hx
      exact hx c hc hcx
  · intro x hx
    by_cases hmem : x ∈ ds.map Prod.fst
    · exact hk5 x hmem hx
    · have hnone : lookupN x ds = none := by
        rw [lookupN_eq_none_iff]
        intro c hc hcx
        exact hmem (List.mem_map.mpr ⟨c, hc, hcx⟩)
      have : fs2.find (rdir ++ [x]) = fs.find (rdir ++ [x]) := hk3 x [] (Or.inl hmem)
      rw [this, find_child hdir, hnone]

theorem deleteLoop_noop {rdir : FPath} {items : List String} :
    ∀ (names : List String) (fs : Node), (∀ x ∈ names, x ∈ items) →
    deleteLoop rdir items fs names = .ok (fs, []) := by
  intro names
  induction names with
  | nil => intro fs _; rfl
  | cons x rest ih =>
    intro fs h
    have hmem : items.contains x = true := contains_iff.mpr (h x (List.mem_cons_self x rest))
    have hc1 : (fs.isfileB (rdir ++ [x]) && !(items.contains x)) = false := by
      rw [hmem]
      simp
    have hc2 : (fs.isdirB (rdir ++ [x]) && !(items.contains x)) = false := by
      rw [hmem]
      simp
    simp only [deleteLoop]
    rw [if_neg (bool_neg hc1), if_neg (bool_neg hc2)]
    exact ih fs (fun y hy => h y (List.mem_cons_of_mem x hy))

theorem delete_extra_noop {fs : Node} {rdir : FPath} {items : List String}
    {ds : List (String × Node)}
    (hdir : fs.find rdir = some (.dir ds)) (h : ∀ c ∈ ds, c.1 ∈ items) :
    delete_extra_replica_items fs rdir items = .ok (fs, []) := by
  have hld : fs.listdir rdir = .ok (ds.map Prod.fst) := by
    unfold Node.listdir
    rw [hdir]
  unfold delete_extra_replica_items
  rw [hld]
  apply deleteLoop_noop
  intro x hx
  rcases List.mem_map.mp hx with ⟨c, hc, hcx⟩
  rw [← hcx]
  exact h c hc

-- ## Missing-file copying: loop characterisation

theorem disjoint_child_left {sdir rdir : FPath} (hsd : PathDisjoint sdir rdir) (f : String) :
    ¬ PathLe (sdir ++ [f]) rdir ∧ ¬ PathLe rdir (sdir ++ [f]) := by
  have := pathDisjoint_extend hsd.2 hsd.1 (pathLe_append sdir [f])
  exact ⟨this.2, this.1⟩

theorem copy_missing_spec {sdir rdir : FPath} (hsd : PathDisjoint sdir rdir) :
    ∀ (files : List String) (fs fs3 : Node) (ev : List Event),
    fs.wfB = true → files.Nodup →
    copy_missing_files fs sdir rdir files = .ok (fs3, ev) →
    fs3.wfB = true ∧
    (∀ q, ¬ PathLe q rdir → ¬ PathLe rdir q → fs3.find q = fs.find q) ∧
    (∀ q, PathLe q rdir → viewAt fs3 q = viewAt fs q) ∧
    (∀ x t, ¬ x ∈ files → fs3.find (rdir ++ x :: t) = fs.find (rdir ++ x :: t)) ∧
    (∀ f ∈ files,
      (fs.existsB (rdir ++ [f]) = true → ∀ t, fs3.find (rdir ++ f :: t) = fs.find (rdir ++ f :: t)) ∧
      (fs.existsB (rdir ++ [f]) = false →
        ∃ b, fs.find (sdir ++ [f]) = some (.file b) ∧ fs3.find (rdir ++ [f]) = some (.file b))) := by
  intro files
  induction files with
  | nil =>
    intro fs fs3 ev hwf _ h
    injection h with h2
    injection h2 with h3 h4
    subst h3
    exact ⟨hwf, fun _ _ _ => rfl, fun _ _ => rfl, fun _ _ _ => rfl, fun f hf => absurd hf (List.not_mem_nil f)⟩
  | cons f rest ih =>
    intro fs fs3 ev hwf hnd h
    have hndr : rest.Nodup := (List.nodup_cons.mp hnd).2
    have hfr : ¬ f ∈ rest := (List.nodup_cons.mp hnd).1
    cases hex : fs.existsB (rdir ++ [f]) with
    | true =>
      -- skip: the replica entry already exists
      rw [copy_missing_files, if_neg (by rw [hex]; simp)] at h
      rcases ih fs fs3 ev hwf hndr h with ⟨hwf3, hfr3, hva3, hk3, hk4⟩
      refine ⟨hwf3, hfr3, hva3, ?_, ?_⟩
      · intro x t hx
        exact hk3 x t (fun hxr => hx (List.mem_cons_of_mem f hxr))
      · intro g hg
        rcases List.mem_cons.mp hg with rfl | hgr
        · exact ⟨fun _ t => hk3 g t hfr, fun hne => by rw [hne] at hex; cases hex⟩
        · exact hk4 g hgr
    | false =>
      have hnone : fs.find (rdir ++ [f]) = none := existsB_false hex
      rw [copy_missing_files, if_pos (by rw [hex]; rfl)] at h
      cases hcp : fs.shCopy (sdir ++ [f]) (rdir ++ [f]) with
      | error e =>
        rw [hcp] at h
        exact absurd h (by intro hh; cases hh)
      | ok fs1 =>
        rw [hcp] at h
        have h2 : addEvents [Event.created (rdir ++ [f])] (copy_missing_files fs1 sdir rdir rest) = .ok (fs3, ev) := h
        cases hrest : copy_missing_files fs1 sdir rdir rest with
        | error e =>
          rw [hrest] at h2
          cases h2
        | ok pr =>
          obtain ⟨fs3x, evr⟩ := pr
          rw [hrest] at h2
          injection h2 with h3
          injection h3 with h4 h5
          subst h4
          -- characterise the copy itself
          unfold Node.shCopy at hcp
          cases hsf : fs.find (sdir ++ [f]) with
          | none => rw [hsf] at hcp; cases hcp
          | some m =>
            cases m with
            | dir cs => rw [hsf] at hcp; cases hcp
            | file b =>
              rw [hsf] at hcp
              have hdst : fs.isdirB (rdir ++ [f]) = false := by
                unfold Node.isdirB
                rw [hnone]
              rw [hdst] at hcp
              have hwr : fs.writeFile (rdir ++ [f]) b = .ok fs1 := by
                have : (if false = true then (sdir ++ [f]) ++ [(sdir ++ [f]).getLastD ""] else rdir ++ [f]) = rdir ++ [f] := by
                  rw [if_neg (by exact Bool.false_ne_true)]
                rw [← this]
                exact hcp
              rw [writeFile_snoc] at hwr
              rcases editAt_ok_find hwr with ⟨cs, cs2, hfind, hok, hall⟩
              have hlf : lookupN f cs = none := by
                rw [← find_child hfind f]
                exact hnone
              rcases writeEntry_ok hok with ⟨bb, hbb, _⟩ | ⟨_, hcs2⟩
              · rw [hlf] at hbb; cases hbb
              · subst hcs2
                have hwf1 : fs1.wfB = true :=
                  editAt_wfB hwr hwf (fun a a2 => writeEntry_wfT a a2)
                have hfind1 : fs1.find (rdir ++ [f]) = some (.file b) := by
                  rw [hall [f]]
                  show Node.find (.dir (cs ++ [(f, .file b)])) [f] = some (.file b)
                  rw [Node.find, lookupN_append_single_self hlf]
                  rfl
                have hne1 : ∀ y t, y ≠ f → fs1.find (rdir ++ y :: t) = fs.find (rdir ++ y :: t) := by
                  intro y t hy
                  rw [hall (y :: t), find_deep hfind (y :: t)]
                  show Node.find (.dir (cs ++ [(f, .file b)])) (y :: t) = Node.find (.dir cs) (y :: t)
                  rw [Node.find, Node.find, lookupN_append_single_ne hy]
                have hva1 : ∀ q, PathLe q rdir → viewAt fs1 q = viewAt fs q := by
                  intro q hq
                  by_cases hqe : q = rdir
                  · subst hqe
                    have h1 : fs1.find q = some (.dir (cs ++ [(f, .file b)])) := by
                      have := hall []
                      rw [List.append_nil] at this
                      exact this
                    unfold viewAt
                    rw [hfind, h1]
                    rfl
                  · exact editAt_view_above hwr q hq hqe
                have hsrcpres : ∀ p, ¬ PathLe p rdir → ¬ PathLe rdir p → fs1.find p = fs.find p :=
                  fun p h1 h2 => editAt_frame hwr p h1 h2
                rcases ih fs1 fs3x evr hwf1 hndr hrest with ⟨hwf3, hfr3, hva3, hk3, hk4⟩
                refine ⟨hwf3, ?_, ?_, ?_, ?_⟩
                · intro q h1 h2
                  rw [hfr3 q h1 h2, hsrcpres q h1 h2]
                · intro q hq
                  rw [hva3 q hq, hva1 q hq]
                · intro x t hx
                  have hxf : x ≠ f := fun he => hx (by rw [he]; exact List.mem_cons_self f rest)
                  have hxr : ¬ x ∈ rest := fun hr => hx (List.mem_cons_of_mem f hr)
                  rw [hk3 x t hxr, hne1 x t hxf]
                · intro g hg
                  rcases List.mem_cons.mp hg with rfl | hgr
                  · constructor
                    · intro htr
                      rw [htr] at hex
                      cases hex
                    · intro _
                      refine ⟨b, hsf, ?_⟩
                      have hpres : fs3x.find (rdir ++ g :: []) = fs1.find (rdir ++ g :: []) :=
                        hk3 g [] hfr
                      rw [hpres]
                      exact hfind1
                  · rcases hk4 g hgr with ⟨hgex, hgnew⟩
                    have hsg : fs1.find (sdir ++ [g]) = fs.find (sdir ++ [g]) := by
                      rcases disjoint_child_left hsd g with ⟨d1, d2⟩
                      exact hsrcpres (sdir ++ [g]) d1 d2
                    have hgf : g ≠ f := fun he => hfr (he ▸ hgr)
                    have hrex : fs1.existsB (rdir ++ [g]) = fs.existsB (rdir ++ [g]) := by
                      unfold Node.existsB
                      rw [hne1 g [] hgf]
                    constructor
                    · intro hext t
                      rw [hrex] at hgex
                      rw [hgex hext t, hne1 g t hgf]
                    · intro hnex
                      rw [hrex] at hgnew
                      rcases hgnew hnex with ⟨bg, hbg1, hbg2⟩
                      rw [hsg] at hbg1
                      exact ⟨bg, hbg1, hbg2⟩

theorem copy_missing_noop {sdir rdir : FPath} :
    ∀ (files : List String) (fs : Node), (∀ f ∈ files, fs.existsB (rdir ++ [f]) = true) →
    copy_missing_files fs sdir rdir files = .ok (fs, []) := by
  intro files
  induction files with
  | nil => intro fs _; rfl
  | cons f rest ih =>
    intro fs h
    rw [copy_missing_files, if_neg (by rw [h f (List.mem_cons_self f rest)]; simp)]
    exact ih fs (fun g hg => h g (List.mem_cons_of_mem f hg))

-- ## Content reconciliation: per-file and loop characterisation

theorem get_checksum_ok_inv {S : Synchronizer} {H : HashFn} {fs : Node} {p : FPath} {d : String}
    (h : S.get_checksum H fs p = .ok d) :
    ∃ b, fs.find p = some (.file b) ∧ algUsable S.algorithm = true ∧ d = H S.algorithm b := by
  unfold Synchronizer.get_checksum at h
  split at h
  · cases h
  · cases h
  · rename_i data heq
    split at h
    · split at h
      · cases h
      · rename_i hat hsh
        injection h with h2
        refine ⟨data, heq, ?_, h2.symm⟩
        unfold algUsable
        rw [hat, Bool.not_eq_true' .. |>.mpr ?_]
        · rfl
        · exact Bool.not_eq_true _ ▸ hsh
    · cases h

theorem update_changed_ok {S : Synchronizer} {H : HashFn} {fs fs2 : Node}
    {sf rf : FPath} {ev : List Event}
    (hd1 : ¬ PathLe sf rf) (hd2 : ¬ PathLe rf sf)
    (h : S.update_changed_files H fs sf rf = .ok (fs2, ev)) :
    ∃ b a, fs.find sf = some (.file b) ∧ fs.find rf = some (.file a) ∧
      algUsable S.algorithm = true ∧
      (∃ a2, fs2.find rf = some (.file a2) ∧ H S.algorithm a2 = H S.algorithm b) ∧
      (∀ q, ¬ PathLe q rf → ¬ PathLe rf q → fs2.find q = fs.find q) ∧
      (∀ q, PathLe q rf → q ≠ rf → viewAt fs2 q = viewAt fs q) ∧
      (fs.wfB = true → fs2.wfB = true) := by
  unfold Synchronizer.update_changed_files at h
  split at h
  · cases h
  · rename_i sc hsc
    split at h
    · cases h
    · rename_i rc hrc
      rcases get_checksum_ok_inv hsc with ⟨b, hsb, halg, hscv⟩
      rcases get_checksum_ok_inv hrc with ⟨a, hra, _, hrcv⟩
      split at h
      · rename_i hne
        -- the replica file is removed and then re-copied from the source
        have hrfne : rf ≠ [] := by
          intro hrfe
          rw [hrfe] at hd2
          exact hd2 (pathLe_nil sf)
        rcases List.eq_nil_or_concat rf with hrfe | ⟨base, x, hbase⟩
        · exact absurd hrfe hrfne
        · rw [List.concat_eq_append] at hbase
          subst hbase
          split at h
          · cases h
          · rename_i fs1 hrm
            rw [removePath_snoc] at hrm
            rcases editAt_ok_find hrm with ⟨cs, cs2, hfind, hok, hall⟩
            rcases removeEntry_ok hok with ⟨hcs2, a3, hla⟩
            subst hcs2
            have hgone : fs1.find (base ++ [x]) = none := by
              rw [hall [x]]
              show Node.find (.dir (removeKeyN x cs)) [x] = none
              rw [Node.find, lookupN_removeKeyN_self]
            split at h
            · cases h
            · rename_i fs2x hcp
              injection h with h2
              injection h2 with h3 h4
              subst h3
              -- the source file is untouched by the removal
              have hsfpres : fs1.find sf = fs.find sf := by
                by_cases hbs : PathLe base sf
                · rcases pathLe_iff.mp hbs with ⟨t, hst⟩
                  cases t with
                  | nil =>
                    rw [List.append_nil] at hst
                    subst hst
                    rw [hsb] at hfind
                    injection hfind with hf2
                    cases hf2
                  | cons y t =>
                    subst hst
                    have hyx : y ≠ x := by
                      intro he
                      subst he
                      cases t with
                      | nil => exact hd2 (pathLe_refl _)
                      | cons z t => exact hd2 (pathLe_iff.mpr ⟨z :: t, by simp⟩)
                    rw [hall (y :: t), find_deep hfind (y :: t)]
                    show Node.find (.dir (removeKeyN x cs)) (y :: t) = Node.find (.dir cs) (y :: t)
                    rw [Node.find, Node.find, lookupN_removeKeyN_ne hyx]
                · have hsb2 : ¬ PathLe sf base := by
                    intro hle
                    exact hd1 (pathLe_trans hle (pathLe_append base [x]))
                  exact editAt_frame hrm sf hsb2 hbs
              unfold Node.shCopy at hcp
              rw [hsfpres, hsb] at hcp
              have hdst : fs1.isdirB (base ++ [x]) = false := by
                unfold Node.isdirB
                rw [hgone]
              rw [hdst] at hcp
              have hwr : fs1.writeFile (base ++ [x]) b = .ok fs2x := by
                have hift : (if false = true then sf ++ [sf.getLastD ""] else base ++ [x]) = base ++ [x] := by
                  rw [if_neg (by exact Bool.false_ne_true)]
                rw [← hift]
                exact hcp
              rw [writeFile_snoc] at hwr
              rcases editAt_ok_find hwr with ⟨ds, ds2, hfind2, hok2, hall2⟩
              have hfind2e : fs1.find base = some (.dir (removeKeyN x cs)) := by
                have h7 := hall []
                rw [List.append_nil] at h7
                exact h7
              rw [hfind2e] at hfind2
              injection hfind2 with hfind2
              injection hfind2 with hfind2
              subst hfind2
              have hlx2 : lookupN x (removeKeyN x cs) = none := lookupN_removeKeyN_self
              rcases writeEntry_ok hok2 with ⟨bb, hbb, _⟩ | ⟨_, hds2⟩
              · rw [hlx2] at hbb; cases hbb
              · subst hds2
                refine ⟨b, a, hsb, hra, halg, ?_, ?_, ?_, ?_⟩
                · refine ⟨b, ?_, rfl⟩
                  rw [hall2 [x]]
                  show Node.find (.dir (removeKeyN x cs ++ [(x, .file b)])) [x] = some (.file b)
                  rw [Node.find, lookupN_append_single_self hlx2]
                  rfl
                · intro q h1 h2
                  have hq1 : fs1.find q = fs.find q := by
                    by_cases hbq : PathLe base q
                    · rcases pathLe_iff.mp hbq with ⟨t, hqt⟩
                      cases t with
                      | nil =>
                        rw [List.append_nil] at hqt
                        subst hqt
                        exact absurd (pathLe_append q [x]) h1
                      | cons y t =>
                        subst hqt
                        have hyx : y ≠ x := by
                          intro he
                          subst he
                          cases t with
                          | nil => exact absurd (pathLe_refl _) h1
                          | cons z t => exact absurd (pathLe_iff.mpr ⟨z :: t, by simp⟩) h2
                        rw [hall (y :: t), find_deep hfind (y :: t)]
                        show Node.find (.dir (removeKeyN x cs)) (y :: t) = Node.find (.dir cs) (y :: t)
                        rw [Node.find, Node.find, lookupN_removeKeyN_ne hyx]
                    · have hqb : ¬ PathLe q base := by
                        intro hle
                        exact h1 (pathLe_trans hle (pathLe_append base [x]))
                      exact editAt_frame hrm q hqb hbq
                  have hq2 : fs2x.find q = fs1.find q := by
                    by_cases hbq : PathLe base q
                    · rcases pathLe_iff.mp hbq with ⟨t, hqt⟩
                      cases t with
                      | nil =>
                        rw [List.append_nil] at hqt
                        subst hqt
                        exact absurd (pathLe_append q [x]) h1
                      | cons y t =>
                        subst hqt
                        have hyx : y ≠ x := by
                          intro he
                          subst he
                          cases t with
                          | nil => exact absurd (pathLe_refl _) h1
                          | cons z t => exact absurd (pathLe_iff.mpr ⟨z :: t, by simp⟩) h2
                        rw [hall2 (y :: t), hall (y :: t)]
                        show Node.find (.dir (removeKeyN x cs ++ [(x, .file b)])) (y :: t) =
                          Node.find (.dir (removeKeyN x cs)) (y :: t)
                        rw [Node.find, Node.find, lookupN_append_single_ne hyx]
                    · have hqb : ¬ PathLe q base := by
                        intro hle
                        exact h1 (pathLe_trans hle (pathLe_append base [x]))
                      exact editAt_frame hwr q hqb hbq
                  rw [hq2, hq1]
                · intro q hq hqe
                  have hqb : PathLe q base := by
                    rcases pathLe_iff.mp hq with ⟨t, hqt⟩
                    rcases List.eq_nil_or_concat t with rfl | ⟨t2, z, hts⟩
                    · rw [List.append_nil] at hqt
                      exact absurd hqt.symm hqe
                    · rw [List.concat_eq_append] at hts
                      subst hts
                      have h5 : (q ++ t2) ++ [z] = base ++ [x] := by
                        rw [List.append_assoc]
                        exact hqt.symm
                      have h6 : q ++ t2 = base := (List.append_inj' h5 rfl).1
                      rw [← h6]
                      exact pathLe_append q t2
                  have hv1 : viewAt fs1 q = viewAt fs q := by
                    by_cases hqe2 : q = base
                    · subst hqe2
                      unfold viewAt
                      rw [hfind, hfind2e]
                      rfl
                    · exact editAt_view_above hrm q hqb hqe2
                  have hv2 : viewAt fs2x q = viewAt fs1 q := by
                    by_cases hqe2 : q = base
                    · subst hqe2
                      unfold viewAt
                      rw [hfind2e]
                      have h6 : fs2x.find q = some (.dir (removeKeyN x cs ++ [(x, .file b)])) := by
                        have h7 := hall2 []
                        rw [List.append_nil] at h7
                        exact h7
                      rw [h6]
                      rfl
                    · exact editAt_view_above hwr q hqb hqe2
                  rw [hv2, hv1]
                · intro hwf
                  have hwf1 : fs1.wfB = true :=
                    editAt_wfB hrm hwf (fun u u2 => removeEntry_wfT u u2)
                  exact editAt_wfB hwr hwf1 (fun u u2 => writeEntry_wfT u u2)
      · rename_i hne
        injection h with h2
        injection h2 with h3 h4
        subst h3
        push_neg at hne
        refine ⟨b, a, hsb, hra, halg, ⟨a, hra, ?_⟩, fun q _ _ => rfl, fun q _ _ => rfl, fun hw => hw⟩
        rw [← hscv, ← hrcv, hne]

theorem update_changed_noop {S : Synchronizer} {H : HashFn} {fs : Node} {sf rf : FPath}
    {b a : Bytes}
    (halg : algUsable S.algorithm = true)
    (hsb : fs.find sf = some (.file b)) (hra : fs.find rf = some (.file a))
    (heq : H S.algorithm b = H S.algorithm a) :
    S.update_changed_files H fs sf rf = .ok (fs, []) := by
  unfold Synchronizer.update_changed_files
  rw [get_checksum_ok halg hsb, get_checksum_ok halg hra]
  show (if H S.algorithm b ≠ H S.algorithm a then _ else _) = _
  rw [if_neg (fun hc => hc heq)]

theorem disjoint_children {sdir rdir : FPath} (hsd : PathDisjoint sdir rdir) (f g : String) :
    ¬ PathLe (sdir ++ [f]) (rdir ++ [g]) ∧ ¬ PathLe (rdir ++ [g]) (sdir ++ [f]) := by
  constructor
  · intro hle
    have h1 : PathLe sdir (rdir ++ [g]) := pathLe_trans (pathLe_append sdir [f]) hle
    rcases pathLe_comparable h1 (pathLe_append rdir [g]) with hc | hc
    · exact hsd.1 hc
    · exact hsd.2 hc
  · intro hle
    have h1 : PathLe rdir (sdir ++ [f]) := pathLe_trans (pathLe_append rdir [g]) hle
    rcases pathLe_comparable h1 (pathLe_append sdir [f]) with hc | hc
    · exact hsd.2 hc
    · exact hsd.1 hc

theorem updateLoop_spec {S : Synchronizer} {H : HashFn} {sdir rdir : FPath}
    (hsd : PathDisjoint sdir rdir) :
    ∀ (files : List String) (fs fs4 : Node) (ev : List Event),
    fs.wfB = true → files.Nodup →
    updateLoop S H sdir rdir fs files = .ok (fs4, ev) →
    fs4.wfB = true ∧
    (∀ q, ¬ PathLe q rdir → ¬ PathLe rdir q → fs4.find q = fs.find q) ∧
    (∀ q, PathLe q rdir → viewAt fs4 q = viewAt fs q) ∧
    (∀ x t, ¬ x ∈ files → fs4.find (rdir ++ x :: t) = fs.find (rdir ++ x :: t)) ∧
    (∀ f ∈ files, ∃ b a2, fs.find (sdir ++ [f]) = some (.file b) ∧
      fs4.find (rdir ++ [f]) = some (.file a2) ∧ algUsable S.algorithm = true ∧
      H S.algorithm a2 = H S.algorithm b) := by
  intro files
  induction files with
  | nil =>
    intro fs fs4 ev hwf _ h
    injection h with h2
    injection h2 with h3 h4
    subst h3
    exact ⟨hwf, fun _ _ _ => rfl, fun _ _ => rfl, fun _ _ _ => rfl,
      fun f hf => absurd hf (List.not_mem_nil f)⟩
  | cons f rest ih =>
    intro fs fs4 ev hwf hnd h
    have hndr : rest.Nodup := (List.nodup_cons.mp hnd).2
    have hfnr : ¬ f ∈ rest := (List.nodup_cons.mp hnd).1
    rw [updateLoop] at h
    cases hupd : S.update_changed_files H fs (sdir ++ [f]) (rdir ++ [f]) with
    | error e =>
      rw [hupd] at h
      exact absurd h (by intro hh; cases hh)
    | ok pr =>
      obtain ⟨fs1, ev1⟩ := pr
      rw [hupd] at h
      have h2 : addEvents ev1 (updateLoop S H sdir rdir fs1 rest) = .ok (fs4, ev) := h
      cases hrest : updateLoop S H sdir rdir fs1 rest with
      | error e =>
        rw [hrest] at h2
        exact absurd h2 (by intro hh; cases hh)
      | ok pr2 =>
        obtain ⟨fs4x, evr⟩ := pr2
        rw [hrest] at h2
        have h3 : (Except.ok (fs4x, ev1 ++ evr) : SRes) = Except.ok (fs4, ev) := h2
        injection h3 with h4
        injection h4 with h5 h6
        subst h5
        rcases disjoint_children hsd f f with ⟨hd1, hd2⟩
        rcases update_changed_ok hd1 hd2 hupd with
          ⟨b, a, hsb, hra, halg, ⟨a2, hra2, hh⟩, hfrm, hview, hwfi⟩
        have hwf1 : fs1.wfB = true := hwfi hwf
        rcases ih fs1 fs4x evr hwf1 hndr hrest with ⟨hwf4, hfr4, hva4, hk4, hl4⟩
        have hrfq : ∀ q, ¬ PathLe q rdir → ¬ PathLe rdir q →
            ¬ PathLe q (rdir ++ [f]) ∧ ¬ PathLe (rdir ++ [f]) q := by
          intro q h1 h2
          have := pathDisjoint_extend h1 h2 (pathLe_append rdir [f])
          exact this
        refine ⟨hwf4, ?_, ?_, ?_, ?_⟩
        · intro q h1 h2
          rcases hrfq q h1 h2 with ⟨h3, h4⟩
          rw [hfr4 q h1 h2, hfrm q h3 h4]
        · intro q hq
          have h3 : PathLe q (rdir ++ [f]) := pathLe_trans hq (pathLe_append rdir [f])
          have h4 : q ≠ rdir ++ [f] := by
            intro he
            rw [he] at hq
            have := pathLe_length hq
            simp at this
          rw [hva4 q hq, hview q h3 h4]
        · intro x t hx
          have hxf : x ≠ f := fun he => hx (by rw [he]; exact List.mem_cons_self f rest)
          rcases pathDisjoint_siblings (b := rdir) (t := t) (u := []) hxf with ⟨h5, h6⟩
          have hxr : ¬ x ∈ rest := fun hr => hx (List.mem_cons_of_mem f hr)
          rw [hk4 x t hxr, hfrm (rdir ++ x :: t) h5 h6]
        · intro g hg
          rcases List.mem_cons.mp hg with rfl | hgr
          · refine ⟨b, a2, hsb, ?_, halg, hh⟩
            have h7 : fs4x.find (rdir ++ g :: []) = fs1.find (rdir ++ g :: []) := hk4 g [] hfnr
            rw [h7]
            exact hra2
          · rcases hl4 g hgr with ⟨bg, ag, hgs, hgr2, hga, hgh⟩
            refine ⟨bg, ag, ?_, hgr2, hga, hgh⟩
            rcases disjoint_children hsd g f with ⟨h8, h9⟩
            rw [← hgs, hfrm (sdir ++ [g]) h8 h9]

theorem updateLoop_noop {S : Synchronizer} {H : HashFn} {sdir rdir : FPath} :
    ∀ (files : List String) (fs : Node),
    (∀ f ∈ files, ∃ b a, fs.find (sdir ++ [f]) = some (.file b) ∧
      fs.find (rdir ++ [f]) = some (.file a) ∧ algUsable S.algorithm = true ∧
      H S.algorithm b = H S.algorithm a) →
    updateLoop S H sdir rdir fs files = .ok (fs, []) := by
  intro files
  induction files with
  | nil => intro fs _; rfl
  | cons f rest ih =>
    intro fs h
    rcases h f (List.mem_cons_self f rest) with ⟨b, a, hsb, hra, halg, heq⟩
    rw [updateLoop, update_changed_noop halg hsb hra heq]
    show addEvents [] (updateLoop S H sdir rdir fs rest) = .ok (fs, [])
    rw [ih fs (fun g hg => h g (List.mem_cons_of_mem f hg))]
    rfl

-- ## One directory body: the four phases composed

theorem viewAt_dir {fs : Node} {p : FPath} :
    viewAt fs p = some none ↔ ∃ cs, fs.find p = some (.dir cs) := by
  unfold viewAt
  cases h : fs.find p with
  | none => simp
  | some m => cases m <;> simp [Node.view]

theorem disjoint_extends {a b : FPath} (hab : PathDisjoint a b) {p q : FPath}
    (hp : PathLe a p) (hq : PathLe b q) : ¬ PathLe p q ∧ ¬ PathLe q p := by
  constructor
  · intro hle
    have h1 : PathLe a q := pathLe_trans hp hle
    rcases pathLe_comparable h1 hq with hc | hc
    · exact hab.1 hc
    · exact hab.2 hc
  · intro hle
    have h1 : PathLe b p := pathLe_trans hq hle
    rcases pathLe_comparable h1 hp with hc | hc
    · exact hab.2 hc
    · exact hab.1 hc

theorem nodupKeysB_nodup {cs : List (String × Node)} (h : nodupKeysB cs = true) :
    (cs.map Prod.fst).Nodup := by
  induction cs with
  | nil => simp
  | cons c rest ih =>
    simp only [nodupKeysB, Bool.and_eq_true, Bool.not_eq_true'] at h
    simp only [List.map_cons, List.nodup_cons]
    refine ⟨?_, ih h.2⟩
    intro hmem
    rcases List.mem_map.mp hmem with ⟨e, he, hex⟩
    have : rest.any (fun e => e.1 == c.1) = true :=
      List.any_eq_true.mpr ⟨e, he, by simp [hex]⟩
    rw [this] at h
    exact absurd h.1 (by simp)

theorem filter_keys_nodup {cs : List (String × Node)} {p : String × Node → Bool}
    (h : nodupKeysB cs = true) : ((cs.filter p).map Prod.fst).Nodup := by
  have hsub : List.Sublist ((cs.filter p).map Prod.fst) (cs.map Prod.fst) :=
    (List.filter_sublist cs).map Prod.fst
  exact hsub.nodup (nodupKeysB_nodup h)

theorem mem_items_iff {cs : List (String × Node)} {x : String} :
    x ∈ ((cs.filter (fun c => c.2.isDirN)).map Prod.fst ++
         (cs.filter (fun c => c.2.isFileN)).map Prod.fst) ↔ ∃ c ∈ cs, c.1 = x := by
  constructor
  · intro h
    rcases List.mem_append.mp h with h | h
    · rcases List.mem_map.mp h with ⟨c, hc, hcx⟩
      exact ⟨c, (List.mem_filter.mp hc).1, hcx⟩
    · rcases List.mem_map.mp h with ⟨c, hc, hcx⟩
      exact ⟨c, (List.mem_filter.mp hc).1, hcx⟩
  · rintro ⟨c, hc, hcx⟩
    cases hk : c.2 with
    | dir ds =>
      refine List.mem_append.mpr (Or.inl (List.mem_map.mpr ⟨c, List.mem_filter.mpr ⟨hc, ?_⟩, hcx⟩))
      rw [hk]
      rfl
    | file b =>
      refine List.mem_append.mpr (Or.inr (List.mem_map.mpr ⟨c, List.mem_filter.mpr ⟨hc, ?_⟩, hcx⟩))
      rw [hk]
      rfl

theorem sync_step_eq (S : Synchronizer) (H : HashFn) (fs : Node) (rel : FPath)
    (dn fn : List String) :
    S.sync_step H fs (rel, dn, fn) =
      (match fs.makedirs (S.replica ++ rel) with
       | .error e => .error (e, fs)
       | .ok fs1 =>
         match delete_extra_replica_items fs1 (S.replica ++ rel) (dn ++ fn) with
         | .error e => .error e
         | .ok (fs2, ev2) =>
           match copy_missing_files fs2 (S.source ++ rel) (S.replica ++ rel) fn with
           | .error e => .error e
           | .ok (fs3, ev3) =>
             match updateLoop S H (S.source ++ rel) (S.replica ++ rel) fs3 fn with
             | .error e => .error e
             | .ok (fs4, ev4) => .ok (fs4, ev2 ++ ev3 ++ ev4)) := rfl

theorem sync_step_spec {S : Synchronizer} {H : HashFn} {fs fs2 : Node}
    {rel : FPath} {cs : List (String × Node)} {ev : List Event}
    (hsd : PathDisjoint S.source S.replica)
    (hwf : fs.wfB = true)
    (hsrc : fs.find (S.source ++ rel) = some (.dir cs))
    (hndk : nodupKeysB cs = true)
    (h : S.sync_step H fs (rel, (cs.filter (fun c => c.2.isDirN)).map Prod.fst,
          (cs.filter (fun c => c.2.isFileN)).map Prod.fst) = .ok (fs2, ev)) :
    fs2.wfB = true ∧
    (∃ ds2, fs2.find (S.replica ++ rel) = some (.dir ds2)) ∧
    (∀ q, ¬ PathLe q (S.replica ++ rel) → ¬ PathLe (S.replica ++ rel) q →
       fs2.find q = fs.find q) ∧
    (∀ q, PathLe q (S.replica ++ rel) → q ≠ S.replica ++ rel →
       viewAt fs2 q = viewAt fs q ∨ (viewAt fs q = none ∧ viewAt fs2 q = some none)) ∧
    (∀ c ∈ cs, ∀ bb, c.2 = Node.file bb →
       ∃ a2, fs2.find (S.replica ++ rel ++ [c.1]) = some (.file a2) ∧
         algUsable S.algorithm = true ∧ H S.algorithm a2 = H S.algorithm bb) ∧
    (∀ x, lookupN x cs = none → fs2.find (S.replica ++ rel ++ [x]) = none) := by
  have hdisjrel : PathDisjoint (S.source ++ rel) (S.replica ++ rel) := by
    rcases disjoint_extends hsd (pathLe_append S.source rel) (pathLe_append S.replica rel) with ⟨h1, h2⟩
    exact ⟨h1, h2⟩
  rw [sync_step_eq] at h
  split at h
  · cases h
  · rename_i fs1 hmk
    rcases makedirs_dir hmk with ⟨ds1, hdir1, _⟩
    have hwf1 : fs1.wfB = true := makedirs_wfB hmk hwf
    split at h
    · cases h
    · rename_i fs2d ev2 hdel
      rcases delete_extra_spec hwf1 hdir1 with
        ⟨fs2x, evx, hdelx, hwf2, ⟨ds2x, hdir2⟩, hfr2, hva2, hk32, hk52⟩
      rw [hdelx] at hdel
      injection hdel with hdel
      injection hdel with hdel1 hdel2
      subst hdel1
      subst hdel2
      split at h
      · cases h
      · rename_i fs3 ev3 hcp
        have hnodfn : ((cs.filter (fun c => c.2.isFileN)).map Prod.fst).Nodup :=
          filter_keys_nodup hndk
        rcases copy_missing_spec hdisjrel _ fs2x fs3 ev3 hwf2 hnodfn hcp with
          ⟨hwf3, hfr3, hva3, hk33, hk43⟩
        split at h
        · cases h
        · rename_i fs4 ev4 hupd
          rcases updateLoop_spec hdisjrel _ fs3 fs4 ev4 hwf3 hnodfn hupd with
            ⟨hwf4, hfr4, hva4, hk44, hl44⟩
          injection h with h2
          injection h2 with h3 h4
          subst h3
          have hdir3 : ∃ ds3, fs3.find (S.replica ++ rel) = some (.dir ds3) := by
            have := hva3 (S.replica ++ rel) (pathLe_refl _)
            rw [viewAt_dir.mpr ⟨ds2x, hdir2⟩] at this
            exact viewAt_dir.mp this
          have hdir4 : ∃ ds4, fs4.find (S.replica ++ rel) = some (.dir ds4) := by
            rcases hdir3 with ⟨ds3, hdir3⟩
            have := hva4 (S.replica ++ rel) (pathLe_refl _)
            rw [viewAt_dir.mpr ⟨ds3, hdir3⟩] at this
            exact viewAt_dir.mp this
          refine ⟨hwf4, hdir4, ?_, ?_, ?_, ?_⟩
          · -- frame outside the replica directory
            intro q h1 h2
            rw [hfr4 q h1 h2, hfr3 q h1 h2, hfr2 q h1 h2,
              makedirs_frame hmk q h1 h2]
          · -- ancestors: unchanged or created as a directory
            intro q hq hne
            have hub : PathLe q (S.replica ++ rel) := hq
            rcases makedirs_view hmk q hub with hA | ⟨hB1, hB2⟩
            · left
              rw [hva4 q hub, hva3 q hub, hva2 q hub, hA]
            · right
              refine ⟨hB1, ?_⟩
              rw [hva4 q hub, hva3 q hub, hva2 q hub, hB2]
          · -- every source file child ends up digest-equal in the replica
            intro c hc bb hcf
            have hfmem : c.1 ∈ (cs.filter (fun c => c.2.isFileN)).map Prod.fst := by
              refine List.mem_map.mpr ⟨c, List.mem_filter.mpr ⟨hc, ?_⟩, rfl⟩
              rw [hcf]
              rfl
            rcases hl44 c.1 hfmem with ⟨b, a2, hsrc3, hrepl4, halg, hh⟩
            have hsfq : ¬ PathLe (S.source ++ rel ++ [c.1]) (S.replica ++ rel) ∧
                ¬ PathLe (S.replica ++ rel) (S.source ++ rel ++ [c.1]) := by
              rcases disjoint_extends hsd
                (pathLe_trans (pathLe_append S.source rel) (pathLe_append (S.source ++ rel) [c.1]))
                (pathLe_append S.replica rel) with ⟨h1, h2⟩
              exact ⟨h1, h2⟩
            have hsrc0 : fs.find (S.source ++ rel ++ [c.1]) = some (.file bb) := by
              rw [find_child hsrc c.1]
              have : c = (c.1, c.2) := rfl
              have hm : (c.1, Node.file bb) ∈ cs := by
                rw [← hcf]
                exact hc
              exact mem_lookupN hndk hm
            have hsrc3e : fs3.find (S.source ++ rel ++ [c.1]) = some (.file bb) := by
              rw [hfr3 _ hsfq.1 hsfq.2, hfr2 _ hsfq.1 hsfq.2,
                makedirs_frame hmk _ hsfq.1 hsfq.2]
              exact hsrc0
            rw [hsrc3] at hsrc3e
            injection hsrc3e with hsrc3e
            injection hsrc3e with hsrc3e
            subst hsrc3e
            exact ⟨a2, hrepl4, halg, hh⟩
          · -- entries with no source counterpart are gone
            intro x hlx
            have hxitems : ¬ x ∈ ((cs.filter (fun c => c.2.isDirN)).map Prod.fst ++
                (cs.filter (fun c => c.2.isFileN)).map Prod.fst) := by
              intro hmem
              rcases mem_items_iff.mp hmem with ⟨c, hc, hcx⟩
              rw [lookupN_eq_none_iff] at hlx
              exact hlx c hc hcx
            have hxfn : ¬ x ∈ (cs.filter (fun c => c.2.isFileN)).map Prod.fst := by
              intro hmem
              exact hxitems (List.mem_append.mpr (Or.inr hmem))
            have h1 : fs2x.find (S.replica ++ rel ++ [x]) = none := hk52 x hxitems
            have h2 : fs3.find (S.replica ++ rel ++ x :: []) = fs2x.find (S.replica ++ rel ++ x :: []) :=
              hk33 x [] hxfn
            have h9 : fs4.find (S.replica ++ rel ++ x :: []) = fs3.find (S.replica ++ rel ++ x :: []) :=
              hk44 x [] hxfn
            rw [List.append_assoc] at h1 ⊢
            rw [List.append_assoc] at h2 h9
            show fs4.find (S.replica ++ (rel ++ x :: [])) = none
            have hsc : (rel ++ [x] : FPath) = rel ++ x :: [] := rfl
            rw [hsc] at h1
            rw [h9, h2, h1]

-- ## Composing walk segments

theorem snoc_append (A : FPath) (s : String) (q : FPath) :
    (A ++ [s]) ++ q = A ++ s :: q := by
  rw [List.append_assoc]
  rfl

theorem runPass_append_ok {S : Synchronizer} {H : HashFn} {l1 l2 : List (FPath × List String × List String)}
    {fs fs2 : Node} {ev : List Event}
    (h : S.runPass H (l1 ++ l2) fs = .ok (fs2, ev)) :
    ∃ g ev1 ev2, S.runPass H l1 fs = .ok (g, ev1) ∧
      S.runPass H l2 g = .ok (fs2, ev2) ∧ ev = ev1 ++ ev2 := by
  induction l1 generalizing fs ev with
  | nil =>
    exact ⟨fs, [], ev, rfl, h, rfl⟩
  | cons e l1 ih =>
    rw [List.cons_append, Synchronizer.runPass] at h
    cases hstep : S.sync_step H fs e with
    | error er =>
      rw [hstep] at h
      cases h
    | ok pr =>
      obtain ⟨g0, ev0⟩ := pr
      rw [hstep] at h
      have h2 : addEvents ev0 (S.runPass H (l1 ++ l2) g0) = .ok (fs2, ev) := h
      cases hrun : S.runPass H (l1 ++ l2) g0 with
      | error er =>
        rw [hrun] at h2
        cases h2
      | ok pr2 =>
        obtain ⟨fs2x, evx⟩ := pr2
        rw [hrun] at h2
        have h3 : (Except.ok (fs2x, ev0 ++ evx) : SRes) = Except.ok (fs2, ev) := h2
        injection h3 with h4
        injection h4 with h5 h6
        subst h5
        subst h6
        rcases ih hrun with ⟨g, ev1, ev2, hA, hB, hC⟩
        refine ⟨g, ev0 ++ ev1, ev2, ?_, hB, ?_⟩
        · rw [Synchronizer.runPass, hstep]
          have hgoal : addEvents ev0 (S.runPass H l1 g0) = (Except.ok (g, ev0 ++ ev1) : SRes) := by
            rw [hA]
            rfl
          exact hgoal
        · rw [hC, List.append_assoc]

theorem mirrorAt_congr {alg : String} {H : HashFn} {fs fs2 n : Node} {base : FPath}
    (hm : MirrorAt alg H fs base n)
    (hp : ∀ q, fs2.find (base ++ q) = fs.find (base ++ q)) : MirrorAt alg H fs2 base n := by
  intro q
  rw [hp q]
  exact hm q

theorem mirrorAt_child {alg : String} {H : HashFn} {fs : Node} {base : FPath}
    {cs : List (String × Node)} (hnd : nodupKeysB cs = true)
    (hm : MirrorAt alg H fs base (.dir cs)) {c : String × Node} (hc : c ∈ cs) :
    MirrorAt alg H fs (base ++ [c.1]) c.2 := by
  intro q
  have h1 := hm (c.1 :: q)
  rw [snoc_append]
  have h2 : Node.find (.dir cs) (c.1 :: q) = c.2.find q := by
    rw [Node.find]
    have hl : lookupN c.1 cs = some c.2 := mem_lookupN hnd hc
    rw [hl]
  rw [h2] at h1
  exact h1

-- ## The main pass induction

theorem pass_induction (S : Synchronizer) (H : HashFn)
    (hsd : PathDisjoint S.source S.replica) :
    ∀ k : Nat,
    (∀ (es : List (String × Node)) (rel : FPath) (fs fs2 : Node) (ev : List Event),
      sizeOf es ≤ k →
      nodupKeysB es = true → wfListB es = true →
      fs.wfB = true →
      (∀ c ∈ es, fs.find (S.source ++ rel ++ [c.1]) = some c.2) →
      S.runPass H (walkChildren es rel) fs = .ok (fs2, ev) →
      fs2.wfB = true ∧
      (∀ q, (∀ c ∈ es, c.2.isDirN = true →
          ¬ PathLe q (S.replica ++ rel ++ [c.1]) ∧ ¬ PathLe (S.replica ++ rel ++ [c.1]) q) →
        fs2.find q = fs.find q) ∧
      (∀ q, PathLe q (S.replica ++ rel) →
        viewAt fs2 q = viewAt fs q ∨ (viewAt fs q = none ∧ viewAt fs2 q = some none)) ∧
      (∀ c ∈ es, c.2.isDirN = true → MirrorAt S.algorithm H fs2 (S.replica ++ rel ++ [c.1]) c.2)) ∧
    (∀ (cs : List (String × Node)) (rel : FPath) (fs fs2 : Node) (ev : List Event),
      sizeOf cs ≤ k →
      Node.wfB (.dir cs) = true →
      fs.wfB = true →
      fs.find (S.source ++ rel) = some (.dir cs) →
      S.runPass H (Node.walkNode (.dir cs) rel) fs = .ok (fs2, ev) →
      fs2.wfB = true ∧
      (∀ q, ¬ PathLe q (S.replica ++ rel) → ¬ PathLe (S.replica ++ rel) q →
        fs2.find q = fs.find q) ∧
      (∀ q, PathLe q (S.replica ++ rel) → q ≠ S.replica ++ rel →
        viewAt fs2 q = viewAt fs q ∨ (viewAt fs q = none ∧ viewAt fs2 q = some none)) ∧
      MirrorAt S.algorithm H fs2 (S.replica ++ rel) (.dir cs)) := by
  intro k
  induction k with
  | zero =>
    constructor
    · intro es rel fs fs2 ev hsz
      exfalso
      cases es with
      | nil => simp at hsz
      | cons c r =>
        simp only [List.cons.sizeOf_spec] at hsz
        omega
    · intro cs rel fs fs2 ev hsz
      exfalso
      cases cs with
      | nil => simp at hsz
      | cons c r =>
        simp only [List.cons.sizeOf_spec] at hsz
        omega
  | succ k ih =>
    have hchild : ∀ (es : List (String × Node)) (rel : FPath) (fs fs2 : Node) (ev : List Event),
        sizeOf es ≤ k + 1 →
        nodupKeysB es = true → wfListB es = true →
        fs.wfB = true →
        (∀ c ∈ es, fs.find (S.source ++ rel ++ [c.1]) = some c.2) →
        S.runPass H (walkChildren es rel) fs = .ok (fs2, ev) →
        fs2.wfB = true ∧
        (∀ q, (∀ c ∈ es, c.2.isDirN = true →
            ¬ PathLe q (S.replica ++ rel ++ [c.1]) ∧ ¬ PathLe (S.replica ++ rel ++ [c.1]) q) →
          fs2.find q = fs.find q) ∧
        (∀ q, PathLe q (S.replica ++ rel) →
          viewAt fs2 q = viewAt fs q ∨ (viewAt fs q = none ∧ viewAt fs2 q = some none)) ∧
        (∀ c ∈ es, c.2.isDirN = true → MirrorAt S.algorithm H fs2 (S.replica ++ rel ++ [c.1]) c.2) := by
      intro es rel fs fs2 ev hsz hnd hwl hwf hsrces hrun
      cases es with
      | nil =>
        injection hrun with h2
        injection h2 with h3 h4
        subst h3
        exact ⟨hwf, fun q _ => rfl, fun q _ => Or.inl rfl,
          fun c hc => absurd hc (List.not_mem_nil c)⟩
      | cons hd rest =>
        obtain ⟨s, c⟩ := hd
        have hszr : sizeOf rest ≤ k := by
          simp only [List.cons.sizeOf_spec, Prod.mk.sizeOf_spec] at hsz
          have h1 : 0 < sizeOf c := by
            cases c <;> simp
          omega
        have hndr : nodupKeysB rest = true := by
          rw [nodupKeysB, Bool.and_eq_true] at hnd
          exact hnd.2
        have hwlr : wfListB rest = true := by
          rw [wfListB, Bool.and_eq_true] at hwl
          exact hwl.2
        have hwfc : c.wfB = true := by
          rw [wfListB, Bool.and_eq_true] at hwl
          exact hwl.1
        have hsnotin : ∀ c2 ∈ rest, c2.1 ≠ s := by
          rw [nodupKeysB, Bool.and_eq_true, Bool.not_eq_true'] at hnd
          intro c2 hc2 he
          have : rest.any (fun e => e.1 == s) = true :=
            List.any_eq_true.mpr ⟨c2, hc2, by simp [he]⟩
          rw [this] at hnd
          exact absurd hnd.1 (by simp)
        rw [walkChildren] at hrun
        rcases runPass_append_ok hrun with ⟨g, ev1, ev2, hrun1, hrun2, hev⟩
        cases hdc : c.isDirN with
        | false =>
          rw [hdc] at hrun1
          rw [if_neg (by exact Bool.false_ne_true)] at hrun1
          have hg : g = fs := by
            have h4 : (Except.ok (fs, []) : SRes) = .ok (g, ev1) := hrun1
            injection h4 with h5
            injection h5 with h6 h7
            exact h6.symm
          subst hg
          rcases ih.1 rest rel g fs2 ev2 hszr hndr hwlr hwf
            (fun c2 hc2 => hsrces c2 (List.mem_cons_of_mem _ hc2)) hrun2 with
            ⟨hwf2, hfr2, hva2, hm2⟩
          refine ⟨hwf2, ?_, hva2, ?_⟩
          · intro q hq
            exact hfr2 q (fun c2 hc2 hd2 => hq c2 (List.mem_cons_of_mem _ hc2) hd2)
          · intro c2 hc2 hd2
            rcases List.mem_cons.mp hc2 with heq | hc2r
            · exfalso
              have : c.isDirN = true := by
                have h9 : c2.2 = c := by rw [heq]
                rw [← h9]
                exact hd2
              rw [hdc] at this
              cases this
            · exact hm2 c2 hc2r hd2
        | true =>
          rw [hdc] at hrun1
          rw [if_pos rfl] at hrun1
          cases c with
          | file b =>
            simp [Node.isDirN] at hdc
          | dir ds =>
            have hszd : sizeOf ds ≤ k := by
              simp only [List.cons.sizeOf_spec, Prod.mk.sizeOf_spec,
                Node.dir.sizeOf_spec] at hsz
              omega
            have hwfd : Node.wfB (.dir ds) = true := hwfc
            have hsrc1 : fs.find (S.source ++ (rel ++ [s])) = some (.dir ds) := by
              rw [← List.append_assoc]
              exact hsrces (s, Node.dir ds) (List.mem_cons_self _ _)
            have hrun1e : S.runPass H (Node.walkNode (.dir ds) (rel ++ [s])) fs =
                .ok (g, ev1) := hrun1
            rcases ih.2 ds (rel ++ [s]) fs g ev1 hszd hwfd hwf hsrc1 hrun1e with
              ⟨hwfg, hfrg, hvag, hmg⟩
            have hsrcg : ∀ c2 ∈ rest, g.find (S.source ++ rel ++ [c2.1]) = some c2.2 := by
              intro c2 hc2
              rcases disjoint_extends hsd
                (pathLe_trans (pathLe_append S.source rel) (pathLe_append _ [c2.1]))
                (pathLe_append S.replica (rel ++ [s])) with ⟨h1, h2⟩
              rw [hfrg _ h1 h2]
              exact hsrces c2 (List.mem_cons_of_mem _ hc2)
            rcases ih.1 rest rel g fs2 ev2 hszr hndr hwlr hwfg hsrcg hrun2 with
              ⟨hwf2, hfr2, hva2, hm2⟩
            have hrelrw : S.replica ++ (rel ++ [s]) = S.replica ++ rel ++ [s] :=
              (List.append_assoc S.replica rel [s]).symm
            refine ⟨hwf2, ?_, ?_, ?_⟩
            · -- frame
              intro q hq
              have hqs := hq (s, Node.dir ds) (List.mem_cons_self _ _) rfl
              rw [hfr2 q (fun c2 hc2 hd2 => hq c2 (List.mem_cons_of_mem _ hc2) hd2)]
              rw [hfrg q (by rw [hrelrw]; exact hqs.1) (by rw [hrelrw]; exact hqs.2)]
            · -- ancestors of the parent replica directory
              intro q hq
              have hq1 : PathLe q (S.replica ++ (rel ++ [s])) := by
                rw [hrelrw]
                exact pathLe_trans hq (pathLe_append _ [s])
              have hq2 : q ≠ S.replica ++ (rel ++ [s]) := by
                intro he
                have := pathLe_length hq
                rw [he, hrelrw] at this
                simp at this
              rcases hvag q hq1 hq2 with hA | ⟨hB1, hB2⟩
              · rcases hva2 q hq with hC | ⟨hD1, hD2⟩
                · exact Or.inl (by rw [hC, hA])
                · exact Or.inr ⟨by rw [← hA]; exact hD1, hD2⟩
              · rcases hva2 q hq with hC | ⟨hD1, hD2⟩
                · exact Or.inr ⟨hB1, by rw [hC]; exact hB2⟩
                · exact Or.inr ⟨hB1, hD2⟩
            · -- mirrors
              intro c2 hc2 hd2
              rcases List.mem_cons.mp hc2 with heq | hc2r
              · -- the head child: established by its own run, preserved by the rest
                have hc2s : c2.1 = s := by rw [heq]
                have hc2c : c2.2 = Node.dir ds := by rw [heq]
                rw [hc2s, hc2c]
                have hmg2 : MirrorAt S.algorithm H g (S.replica ++ rel ++ [s]) (.dir ds) := by
                  rw [← hrelrw]
                  exact hmg
                apply mirrorAt_congr hmg2
                intro q
                apply hfr2
                intro c3 hc3 hd3
                have hne : s ≠ c3.1 := fun he => hsnotin c3 hc3 he.symm
                have h5 := pathDisjoint_siblings (b := S.replica ++ rel) (t := q) (u := []) hne
                constructor
                · intro hle
                  rw [snoc_append] at hle
                  exact h5.1 hle
                · intro hle
                  rw [snoc_append] at hle
                  exact h5.2 hle
              · exact hm2 c2 hc2r hd2
    refine ⟨hchild, ?_⟩
    intro cs rel fs fs2 ev hsz hwfn hwf hsrc hrun
    rw [Node.walkNode] at hrun
    rw [Synchronizer.runPass] at hrun
    rcases wfB_dir_iff.mp hwfn with ⟨hndk, hwl⟩
    cases hstep : S.sync_step H fs (rel, (cs.filter (fun c => c.2.isDirN)).map Prod.fst,
        (cs.filter (fun c => c.2.isFileN)).map Prod.fst) with
    | error er =>
      rw [hstep] at hrun
      cases hrun
    | ok pr =>
      obtain ⟨g, ev1⟩ := pr
      rw [hstep] at hrun
      have h2 : addEvents ev1 (S.runPass H (walkChildren cs rel) g) = .ok (fs2, ev) := hrun
      cases hrest : S.runPass H (walkChildren cs rel) g with
      | error er =>
        rw [hrest] at h2
        cases h2
      | ok pr2 =>
        obtain ⟨fs2x, evx⟩ := pr2
        rw [hrest] at h2
        have h3 : (Except.ok (fs2x, ev1 ++ evx) : SRes) = Except.ok (fs2, ev) := h2
        injection h3 with h4
        injection h4 with h5 h6
        subst h5
        rcases sync_step_spec hsd hwf hsrc hndk hstep with
          ⟨hwfg, ⟨dsg, hdirg⟩, hfrg, hvag, hfileg, hjunkg⟩
        have hsrcg : ∀ c ∈ cs, g.find (S.source ++ rel ++ [c.1]) = some c.2 := by
          intro c hc
          rcases disjoint_extends hsd
            (pathLe_trans (pathLe_append S.source rel) (pathLe_append _ [c.1]))
            (pathLe_append S.replica rel) with ⟨h7, h8⟩
          rw [hfrg _ h7 h8, find_child hsrc c.1]
          exact mem_lookupN hndk hc
        rcases hchild cs rel g fs2x evx (by omega) hndk hwl hwfg hsrcg hrest with
          ⟨hwf2, hfr2, hva2, hm2⟩
        have hsibsafe : ∀ (x : String) (t : FPath), lookupN x cs = none ∨
            (∃ m, lookupN x cs = some m ∧ m.isDirN = false) →
            fs2x.find (S.replica ++ rel ++ x :: t) = g.find (S.replica ++ rel ++ x :: t) := by
          intro x t hx
          apply hfr2
          intro c3 hc3 hd3
          have hne : x ≠ c3.1 := by
            intro he
            have hl3 : lookupN c3.1 cs = some c3.2 := mem_lookupN hndk hc3
            rcases hx with hx | ⟨m, hm, hmd⟩
            · rw [he] at hx
              rw [hx] at hl3
              cases hl3
            · rw [he] at hm
              rw [hm] at hl3
              injection hl3 with hl4
              rw [hl4] at hmd
              rw [hd3] at hmd
              cases hmd
          exact pathDisjoint_siblings (b := S.replica ++ rel) (t := t) (u := ([] : FPath)) hne
        refine ⟨hwf2, ?_, ?_, ?_⟩
        · -- frame
          intro q h7 h8
          have hfr2q : fs2x.find q = g.find q := by
            apply hfr2
            intro c3 hc3 hd3
            exact pathDisjoint_extend h7 h8 (pathLe_append _ [c3.1])
          rw [hfr2q, hfrg q h7 h8]
        · -- ancestors
          intro q hq hne
          rcases hvag q hq hne with hA | ⟨hB1, hB2⟩
          · rcases hva2 q hq with hC | ⟨hD1, hD2⟩
            · exact Or.inl (by rw [hC, hA])
            · exact Or.inr ⟨by rw [← hA]; exact hD1, hD2⟩
          · rcases hva2 q hq with hC | ⟨hD1, hD2⟩
            · exact Or.inr ⟨hB1, by rw [hC]; exact hB2⟩
            · exact Or.inr ⟨hB1, hD2⟩
        · -- the mirror at this directory
          intro q
          cases q with
          | nil =>
            refine Or.inr (Or.inl ?_)
            have hdir2 : viewAt fs2x (S.replica ++ rel) = some none := by
              rcases hva2 (S.replica ++ rel) (pathLe_refl _) with hC | ⟨hD1, hD2⟩
              · rw [hC]
                exact viewAt_dir.mpr ⟨dsg, hdirg⟩
              · exact hD2
            rcases viewAt_dir.mp hdir2 with ⟨ds2, hds2⟩
            refine ⟨ds2, cs, ?_, rfl⟩
            rw [List.append_nil]
            exact hds2
          | cons x t =>
            cases hlx : lookupN x cs with
            | none =>
              refine Or.inl ⟨?_, ?_⟩
              · have h7 : fs2x.find (S.replica ++ rel ++ [x]) = none := by
                  have h8 := hsibsafe x [] (Or.inl hlx)
                  have h9 : (S.replica ++ rel ++ [x] : FPath) = S.replica ++ rel ++ x :: [] := rfl
                  rw [h9, h8]
                  exact hjunkg x hlx
                rw [← snoc_append]
                exact find_deep_none h7 t
              · rw [Node.find, hlx]
            | some m =>
              have hcm : (x, m) ∈ cs := lookupN_mem hlx
              cases m with
              | dir ds =>
                have hmir := hm2 (x, Node.dir ds) hcm rfl
                have h7 := hmir t
                have h8 : (S.replica ++ rel ++ [x]) ++ t = S.replica ++ rel ++ x :: t :=
                  snoc_append _ x t
                rw [h8] at h7
                have h9 : Node.find (.dir cs) (x :: t) = Node.find (.dir ds) t := by
                  rw [Node.find, hlx]
                rw [h9]
                exact h7
              | file bb =>
                rcases hfileg (x, Node.file bb) hcm bb rfl with ⟨a2, hga, halg, hha⟩
                have hpres : ∀ t2, fs2x.find (S.replica ++ rel ++ x :: t2) =
                    g.find (S.replica ++ rel ++ x :: t2) := by
                  intro t2
                  exact hsibsafe x t2 (Or.inr ⟨.file bb, hlx, rfl⟩)
                cases t with
                | nil =>
                  refine Or.inr (Or.inr ⟨a2, bb, ?_, ?_, halg, hha⟩)
                  · have h9 : (S.replica ++ rel ++ [x] : FPath) = S.replica ++ rel ++ x :: [] := rfl
                    rw [hpres []]
                    rw [h9] at hga
                    exact hga
                  · rw [Node.find, hlx]
                    rfl
                | cons z t2 =>
                  refine Or.inl ⟨?_, ?_⟩
                  · rw [hpres (z :: t2)]
                    have h9 : (S.replica ++ rel ++ x :: z :: t2 : FPath) =
                        (S.replica ++ rel ++ [x]) ++ (z :: t2) := (snoc_append _ x (z :: t2)).symm
                    rw [h9]
                    exact find_deep hga (z :: t2)
                  · rw [Node.find, hlx]
                    rfl

-- ## The second pass is a no-op

theorem runPass_append_build {S : Synchronizer} {H : HashFn}
    {l1 l2 : List (FPath × List String × List String)} {fs g fs2 : Node}
    {ev1 ev2 : List Event}
    (h1 : S.runPass H l1 fs = .ok (g, ev1)) (h2 : S.runPass H l2 g = .ok (fs2, ev2)) :
    S.runPass H (l1 ++ l2) fs = .ok (fs2, ev1 ++ ev2) := by
  induction l1 generalizing fs ev1 with
  | nil =>
    injection h1 with h3
    injection h3 with h4 h5
    subst h4
    subst h5
    rw [List.nil_append, h2]
    rfl
  | cons e l1 ih =>
    rw [Synchronizer.runPass] at h1
    cases hstep : S.sync_step H fs e with
    | error er =>
      rw [hstep] at h1
      cases h1
    | ok pr =>
      obtain ⟨g0, ev0⟩ := pr
      rw [hstep] at h1
      have h3 : addEvents ev0 (S.runPass H l1 g0) = .ok (g, ev1) := h1
      cases hrun : S.runPass H l1 g0 with
      | error er =>
        rw [hrun] at h3
        cases h3
      | ok pr2 =>
        obtain ⟨gx, evx⟩ := pr2
        rw [hrun] at h3
        have h4 : (Except.ok (gx, ev0 ++ evx) : SRes) = Except.ok (g, ev1) := h3
        injection h4 with h5
        injection h5 with h6 h7
        subst h6
        rw [List.cons_append, Synchronizer.runPass, hstep]
        have hgoal : addEvents ev0 (S.runPass H (l1 ++ l2) g0) =
            (Except.ok (fs2, ev1 ++ ev2) : SRes) := by
          rw [ih hrun, ← h7]
          show Except.ok (fs2, ev0 ++ (evx ++ ev2)) = (Except.ok (fs2, ev0 ++ evx ++ ev2) : SRes)
          rw [List.append_assoc]
        exact hgoal

theorem noop_induction (S : Synchronizer) (H : HashFn)
    (hsd : PathDisjoint S.source S.replica) :
    ∀ k : Nat,
    (∀ (es : List (String × Node)) (rel : FPath) (fs : Node),
      sizeOf es ≤ k →
      nodupKeysB es = true → wfListB es = true →
      fs.wfB = true →
      (∀ c ∈ es, fs.find (S.source ++ rel ++ [c.1]) = some c.2) →
      (∀ c ∈ es, c.2.isDirN = true → MirrorAt S.algorithm H fs (S.replica ++ rel ++ [c.1]) c.2) →
      S.runPass H (walkChildren es rel) fs = .ok (fs, [])) ∧
    (∀ (cs : List (String × Node)) (rel : FPath) (fs : Node),
      sizeOf cs ≤ k →
      Node.wfB (.dir cs) = true →
      fs.wfB = true →
      fs.find (S.source ++ rel) = some (.dir cs) →
      MirrorAt S.algorithm H fs (S.replica ++ rel) (.dir cs) →
      S.runPass H (Node.walkNode (.dir cs) rel) fs = .ok (fs, [])) := by
  intro k
  induction k with
  | zero =>
    constructor
    · intro es rel fs hsz
      exfalso
      cases es with
      | nil => simp at hsz
      | cons c r =>
        simp only [List.cons.sizeOf_spec] at hsz
        omega
    · intro cs rel fs hsz
      exfalso
      cases cs with
      | nil => simp at hsz
      | cons c r =>
        simp only [List.cons.sizeOf_spec] at hsz
        omega
  | succ k ih =>
    have hchild : ∀ (es : List (String × Node)) (rel : FPath) (fs : Node),
        sizeOf es ≤ k + 1 →
        nodupKeysB es = true → wfListB es = true →
        fs.wfB = true →
        (∀ c ∈ es, fs.find (S.source ++ rel ++ [c.1]) = some c.2) →
        (∀ c ∈ es, c.2.isDirN = true → MirrorAt S.algorithm H fs (S.replica ++ rel ++ [c.1]) c.2) →
        S.runPass H (walkChildren es rel) fs = .ok (fs, []) := by
      intro es rel fs hsz hnd hwl hwf hsrces hmes
      cases es with
      | nil => rfl
      | cons hd rest =>
        obtain ⟨s, c⟩ := hd
        have hszr : sizeOf rest ≤ k := by
          simp only [List.cons.sizeOf_spec, Prod.mk.sizeOf_spec] at hsz
          have h1 : 0 < sizeOf c := by
            cases c <;> simp
          omega
        have hndr : nodupKeysB rest = true := by
          rw [nodupKeysB, Bool.and_eq_true] at hnd
          exact hnd.2
        have hwlr : wfListB rest = true := by
          rw [wfListB, Bool.and_eq_true] at hwl
          exact hwl.2
        have hwfc : c.wfB = true := by
          rw [wfListB, Bool.and_eq_true] at hwl
          exact hwl.1
        have hrest : S.runPass H (walkChildren rest rel) fs = .ok (fs, []) :=
          ih.1 rest rel fs hszr hndr hwlr hwf
            (fun c2 hc2 => hsrces c2 (List.mem_cons_of_mem _ hc2))
            (fun c2 hc2 hd2 => hmes c2 (List.mem_cons_of_mem _ hc2) hd2)
        rw [walkChildren]
        cases c with
        | file b =>
          rw [if_neg (show ¬ ((s, Node.file b).2.isDirN = true) from by simp [Node.isDirN])]
          rw [List.nil_append]
          exact hrest
        | dir ds =>
          rw [if_pos (show (s, Node.dir ds).2.isDirN = true from rfl)]
          have hszd : sizeOf ds ≤ k := by
            simp only [List.cons.sizeOf_spec, Prod.mk.sizeOf_spec,
              Node.dir.sizeOf_spec] at hsz
            omega
          have hsrc1 : fs.find (S.source ++ (rel ++ [s])) = some (.dir ds) := by
            rw [← List.append_assoc]
            exact hsrces (s, Node.dir ds) (List.mem_cons_self _ _)
          have hm1 : MirrorAt S.algorithm H fs (S.replica ++ (rel ++ [s])) (.dir ds) := by
            rw [← List.append_assoc]
            exact hmes (s, Node.dir ds) (List.mem_cons_self _ _) rfl
          have hnode : S.runPass H (Node.walkNode (.dir ds) (rel ++ [s])) fs = .ok (fs, []) :=
            ih.2 ds (rel ++ [s]) fs hszd hwfc hwf hsrc1 hm1
          have := runPass_append_build hnode hrest
          rw [List.nil_append] at this
          exact this
    refine ⟨hchild, ?_⟩
    intro cs rel fs hsz hwfn hwf hsrc hmir
    rcases wfB_dir_iff.mp hwfn with ⟨hndk, hwl⟩
    -- the replica directory already exists and mirrors the source directory
    have hdir : ∃ ds2, fs.find (S.replica ++ rel) = some (.dir ds2) := by
      rcases hmir [] with ⟨h1, h2⟩ | ⟨csr, css, h1, h2⟩ | ⟨a, b, h1, h2, h3⟩
      · rw [Node.find] at h2
        cases h2
      · rw [List.append_nil] at h1
        exact ⟨csr, h1⟩
      · rw [Node.find] at h2
        cases h2
    rcases hdir with ⟨ds2, hdir⟩
    -- step 1: makedirs is the identity
    have hmk : fs.makedirs (S.replica ++ rel) = .ok fs := makedirs_id hwf hdir
    -- step 2: every replica child name appears among the source items
    have hdel : delete_extra_replica_items fs (S.replica ++ rel)
        ((cs.filter (fun c => c.2.isDirN)).map Prod.fst ++
         (cs.filter (fun c => c.2.isFileN)).map Prod.fst) = .ok (fs, []) := by
      apply delete_extra_noop hdir
      intro c hc
      rw [mem_items_iff]
      have hlds : (lookupN c.1 ds2).isSome = true :=
        lookupN_isSome_iff.mpr ⟨c, hc, rfl⟩
      have hfind : fs.find (S.replica ++ rel ++ [c.1]) = lookupN c.1 ds2 :=
        find_child hdir c.1
      rcases hmir [c.1] with ⟨h1, h2⟩ | ⟨csr, css, h1, h2⟩ | ⟨a, b, h1, h2, h3⟩
      · rw [hfind] at h1
        rw [h1] at hlds
        cases hlds
      · have hnn : ¬ lookupN c.1 cs = none := by
          intro hnone
          rw [Node.find, hnone] at h2
          cases h2
        exact mem_keys_of_lookupN hnn
      · have hnn : ¬ lookupN c.1 cs = none := by
          intro hnone
          rw [Node.find, hnone] at h2
          cases h2
        exact mem_keys_of_lookupN hnn
    -- step 3: no file is missing
    have hcpy : copy_missing_files fs (S.source ++ rel) (S.replica ++ rel)
        ((cs.filter (fun c => c.2.isFileN)).map Prod.fst) = .ok (fs, []) := by
      apply copy_missing_noop
      intro f hf
      rcases List.mem_map.mp hf with ⟨c, hcf, hcx⟩
      rcases List.mem_filter.mp hcf with ⟨hc, hcfile⟩
      cases hcn : c.2 with
      | dir ds => rw [hcn] at hcfile; cases hcfile
      | file bb =>
        have hmem : (f, Node.file bb) ∈ cs := by
          rw [← hcx, ← hcn]
          exact hc
        have hlc : lookupN f cs = some (.file bb) := mem_lookupN hndk hmem
        rcases hmir [f] with ⟨h1, h2⟩ | ⟨csr, css, h1, h2⟩ | ⟨a, b, h1, h2, h3⟩
        · rw [Node.find, hlc] at h2
          have h2e : (some (Node.file bb) : Option Node) = none := h2
          cases h2e
        · rw [Node.find, hlc] at h2
          have h2e : (some (Node.file bb) : Option Node) = some (.dir css) := h2
          injection h2e with h2f
          cases h2f
        · rw [Node.existsB, h1]
          rfl
    -- step 4: all checksums agree
    have hupd : updateLoop S H (S.source ++ rel) (S.replica ++ rel) fs
        ((cs.filter (fun c => c.2.isFileN)).map Prod.fst) = .ok (fs, []) := by
      apply updateLoop_noop
      intro f hf
      rcases List.mem_map.mp hf with ⟨c, hcf, hcx⟩
      rcases List.mem_filter.mp hcf with ⟨hc, hcfile⟩
      cases hcn : c.2 with
      | dir ds => rw [hcn] at hcfile; cases hcfile
      | file bb =>
        have hmem : (f, Node.file bb) ∈ cs := by
          rw [← hcx, ← hcn]
          exact hc
        have hlc : lookupN f cs = some (.file bb) := mem_lookupN hndk hmem
        have hsf : fs.find ((S.source ++ rel) ++ [f]) = some (.file bb) := by
          rw [find_child hsrc f]
          exact hlc
        rcases hmir [f] with ⟨h1, h2⟩ | ⟨csr, css, h1, h2⟩ | ⟨a, b, h1, h2, h3⟩
        · rw [Node.find, hlc] at h2
          have h2e : (some (Node.file bb) : Option Node) = none := h2
          cases h2e
        · rw [Node.find, hlc] at h2
          have h2e : (some (Node.file bb) : Option Node) = some (.dir css) := h2
          injection h2e with h2f
          cases h2f
        · rw [Node.find, hlc] at h2
          have h2e : (some (Node.file bb) : Option Node) = some (.file b) := h2
          injection h2e with h2f
          injection h2f with h2g
          refine ⟨bb, a, hsf, h1, h3.1, ?_⟩
          rw [h2g]
          exact h3.2.symm
    -- assemble the pass
    have hstep : S.sync_step H fs (rel,
        (cs.filter (fun c => c.2.isDirN)).map Prod.fst,
        (cs.filter (fun c => c.2.isFileN)).map Prod.fst) = .ok (fs, []) := by
      simp only [sync_step_eq, hmk, hdel, hcpy, hupd]
      rfl
    have hch : S.runPass H (walkChildren cs rel) fs = .ok (fs, []) :=
      hchild cs rel fs (by omega) hndk hwl hwf
        (fun c hc => by rw [find_child hsrc c.1]; exact mem_lookupN hndk hc)
        (fun c hc _ => mirrorAt_child hndk hmir hc)
    rw [Node.walkNode, Synchronizer.runPass, hstep]
    have hgoal : addEvents [] (S.runPass H (walkChildren cs rel) fs) =
        (Except.ok (fs, []) : SRes) := by
      rw [hch]
      rfl
    exact hgoal

-- ## What any pass, successful or aborted, can touch

theorem stateOf_addEvents (ev : List Event) (r : SRes) :
    stateOf (addEvents ev r) = stateOf r := by
  cases r with
  | error e => rfl
  | ok pr => cases pr; rfl

theorem pathLe_dropLast_self (p : FPath) : PathLe p.dropLast p := by
  rcases List.eq_nil_or_concat p with rfl | ⟨p2, z, hp⟩
  · exact pathLe_refl []
  · rw [List.concat_eq_append] at hp
    subst hp
    rw [List.dropLast_concat]
    exact pathLe_append p2 [z]

theorem editAt_stateFrame {fs fs2 : Node} {p : FPath} {B : FPath}
    {f : List (String × Node) → Except Err (List (String × Node))}
    (h : fs.editAt p f = .ok fs2) (hB : PathLe B p) :
    ∀ q, ¬ PathLe q B → ¬ PathLe B q → fs2.find q = fs.find q := by
  intro q h1 h2
  rcases pathDisjoint_extend h1 h2 hB with ⟨h3, h4⟩
  exact editAt_frame h q h3 h4

theorem removePath_stateFrame {fs fs2 : Node} {p B : FPath}
    (h : fs.removePath p = .ok fs2) (hB : PathLe B p.dropLast) :
    ∀ q, ¬ PathLe q B → ¬ PathLe B q → fs2.find q = fs.find q := by
  unfold Node.removePath at h
  split at h
  · cases h
  · rename_i x hx
    exact editAt_stateFrame h hB

theorem rmtreePath_stateFrame {fs fs2 : Node} {p B : FPath}
    (h : fs.rmtreePath p = .ok fs2) (hB : PathLe B p.dropLast) :
    ∀ q, ¬ PathLe q B → ¬ PathLe B q → fs2.find q = fs.find q := by
  unfold Node.rmtreePath at h
  split at h
  · cases h
  · rename_i x hx
    exact editAt_stateFrame h hB

theorem writeFile_stateFrame {fs fs2 : Node} {p B : FPath} {b : Bytes}
    (h : fs.writeFile p b = .ok fs2) (hB : PathLe B p.dropLast) :
    ∀ q, ¬ PathLe q B → ¬ PathLe B q → fs2.find q = fs.find q := by
  unfold Node.writeFile at h
  split at h
  · cases h
  · rename_i x hx
    exact editAt_stateFrame h hB

theorem shCopy_stateFrame {fs fs2 : Node} {src dst B : FPath}
    (h : fs.shCopy src dst = .ok fs2) (hB : PathLe B dst.dropLast) :
    ∀ q, ¬ PathLe q B → ¬ PathLe B q → fs2.find q = fs.find q := by
  unfold Node.shCopy at h
  split at h
  · cases h
  · cases h
  · rename_i b hb
    cases hd : fs.isdirB dst with
    | false =>
      rw [hd] at h
      have h2 : fs.writeFile dst b = .ok fs2 := by
        have hif : (if false = true then dst ++ [src.getLastD ""] else dst) = dst := by
          rw [if_neg (by exact Bool.false_ne_true)]
        rw [← hif]
        exact h
      exact writeFile_stateFrame h2 hB
    | true =>
      rw [hd] at h
      have h2 : fs.writeFile (dst ++ [src.getLastD ""]) b = .ok fs2 := by
        have hif : (if true = true then dst ++ [src.getLastD ""] else dst) = dst ++ [src.getLastD ""] := by
          rw [if_pos rfl]
        rw [← hif]
        exact h
      have hB2 : PathLe B (dst ++ [src.getLastD ""]).dropLast := by
        rw [List.dropLast_concat]
        exact pathLe_trans hB (pathLe_dropLast_self dst)
      exact writeFile_stateFrame h2 hB2

theorem deleteLoop_stateFrame {rdir : FPath} {items : List String} :
    ∀ (names : List String) (fs : Node) (q : FPath),
    ¬ PathLe q rdir → ¬ PathLe rdir q →
    (stateOf (deleteLoop rdir items fs names)).find q = fs.find q := by
  intro names
  induction names with
  | nil => intro fs q _ _; rfl
  | cons x rest ih =>
    intro fs q h1 h2
    have hdl : PathLe rdir (rdir ++ [x]).dropLast := by
      rw [List.dropLast_concat]
      exact pathLe_refl rdir
    rw [deleteLoop]
    split
    · split
      · rfl
      · rename_i fs1 hrm
        rw [stateOf_addEvents]
        rw [ih fs1 q h1 h2]
        exact removePath_stateFrame hrm hdl q h1 h2
    · split
      · split
        · rfl
        · rename_i fs1 hrm
          rw [stateOf_addEvents]
          rw [ih fs1 q h1 h2]
          exact rmtreePath_stateFrame hrm hdl q h1 h2
      · exact ih fs q h1 h2

theorem delete_extra_stateFrame {fs : Node} {rdir : FPath} {items : List String}
    {q : FPath} (h1 : ¬ PathLe q rdir) (h2 : ¬ PathLe rdir q) :
    (stateOf (delete_extra_replica_items fs rdir items)).find q = fs.find q := by
  unfold delete_extra_replica_items
  split
  · rfl
  · exact deleteLoop_stateFrame _ fs q h1 h2

theorem copy_missing_stateFrame {sdir rdir : FPath} :
    ∀ (files : List String) (fs : Node) (q : FPath),
    ¬ PathLe q rdir → ¬ PathLe rdir q →
    (stateOf (copy_missing_files fs sdir rdir files)).find q = fs.find q := by
  intro files
  induction files with
  | nil => intro fs q _ _; rfl
  | cons f rest ih =>
    intro fs q h1 h2
    have hdl : PathLe rdir (rdir ++ [f]).dropLast := by
      rw [List.dropLast_concat]
      exact pathLe_refl rdir
    rw [copy_missing_files]
    split
    · split
      · rfl
      · rename_i fs1 hcp
        rw [stateOf_addEvents]
        rw [ih fs1 q h1 h2]
        exact shCopy_stateFrame hcp hdl q h1 h2
    · exact ih fs q h1 h2

theorem update_changed_stateFrame {S : Synchronizer} {H : HashFn} {fs : Node}
    {sf rf B : FPath} (hB : PathLe B rf.dropLast) {q : FPath}
    (h1 : ¬ PathLe q B) (h2 : ¬ PathLe B q) :
    (stateOf (S.update_changed_files H fs sf rf)).find q = fs.find q := by
  unfold Synchronizer.update_changed_files
  split
  · rfl
  · split
    · rfl
    · split
      · split
        · rfl
        · rename_i fs1 hrm
          have hfr1 : fs1.find q = fs.find q := removePath_stateFrame hrm hB q h1 h2
          split
          · rw [stateOf]
            exact hfr1
          · rename_i fs2 hcp
            rw [stateOf]
            have hB2 : PathLe B rf.dropLast := hB
            have hdl : PathLe B rf := pathLe_trans hB (pathLe_dropLast_self rf)
            rw [shCopy_stateFrame hcp hB q h1 h2]
            exact hfr1
      · rfl

theorem updateLoop_stateFrame {S : Synchronizer} {H : HashFn} {sdir rdir : FPath} :
    ∀ (files : List String) (fs : Node) (q : FPath),
    ¬ PathLe q rdir → ¬ PathLe rdir q →
    (stateOf (updateLoop S H sdir rdir fs files)).find q = fs.find q := by
  intro files
  induction files with
  | nil => intro fs q _ _; rfl
  | cons f rest ih =>
    intro fs q h1 h2
    have hdl : PathLe rdir (rdir ++ [f]).dropLast := by
      rw [List.dropLast_concat]
      exact pathLe_refl rdir
    rw [updateLoop]
    have hstep := @update_changed_stateFrame S H fs (sdir ++ [f]) (rdir ++ [f]) rdir
      hdl q h1 h2
    split
    · rename_i e hupd
      rw [hupd, stateOf] at hstep
      rw [stateOf]
      exact hstep
    · rename_i fs1 ev1 hupd
      rw [hupd, stateOf] at hstep
      rw [stateOf_addEvents, ih fs1 q h1 h2]
      exact hstep

theorem sync_step_stateFrame {S : Synchronizer} {H : HashFn} {fs : Node}
    {entry : FPath × List String × List String} {q : FPath}
    (h1 : ¬ PathLe q S.replica) (h2 : ¬ PathLe S.replica q) :
    (stateOf (S.sync_step H fs entry)).find q = fs.find q := by
  obtain ⟨rel, dn, fn⟩ := entry
  rcases pathDisjoint_extend h1 h2 (pathLe_append S.replica rel) with ⟨h3, h4⟩
  rw [sync_step_eq]
  split
  · rfl
  · rename_i fs1 hmk
    have hf1 : fs1.find q = fs.find q := makedirs_frame hmk q h3 h4
    have hdel := @delete_extra_stateFrame fs1 (S.replica ++ rel) (dn ++ fn) q h3 h4
    split
    · rename_i e hde
      rw [hde, stateOf] at hdel
      rw [stateOf, hdel]
      exact hf1
    · rename_i fs2 ev2 hde
      rw [hde, stateOf] at hdel
      have hcpy := @copy_missing_stateFrame (S.source ++ rel)
        (S.replica ++ rel) fn fs2 q h3 h4
      split
      · rename_i e hcp
        rw [hcp, stateOf] at hcpy
        rw [stateOf, hcpy, hdel]
        exact hf1
      · rename_i fs3 ev3 hcp
        rw [hcp, stateOf] at hcpy
        have hupdf := @updateLoop_stateFrame S H (S.source ++ rel)
          (S.replica ++ rel) fn fs3 q h3 h4
        split
        · rename_i e hup
          rw [hup, stateOf] at hupdf
          rw [stateOf, hupdf, hcpy, hdel]
          exact hf1
        · rename_i fs4 ev4 hup
          rw [hup, stateOf] at hupdf
          rw [stateOf, hupdf, hcpy, hdel]
          exact hf1

theorem runPass_stateFrame {S : Synchronizer} {H : HashFn} :
    ∀ (l : List (FPath × List String × List String)) (fs : Node) (q : FPath),
    ¬ PathLe q S.replica → ¬ PathLe S.replica q →
    (stateOf (S.runPass H l fs)).find q = fs.find q := by
  intro l
  induction l with
  | nil => intro fs q _ _; rfl
  | cons e rest ih =>
    intro fs q h1 h2
    rw [Synchronizer.runPass]
    have hstep := @sync_step_stateFrame S H fs e q h1 h2
    split
    · rename_i er hst
      rw [hst, stateOf] at hstep
      rw [stateOf]
      exact hstep
    · rename_i fs1 ev1 hst
      rw [hst, stateOf] at hstep
      rw [stateOf_addEvents, ih fs1 q h1 h2]
      exact hstep

theorem sync_stateFrame {S : Synchronizer} {H : HashFn} {fs : Node} {q : FPath}
    (h1 : ¬ PathLe q S.replica) (h2 : ¬ PathLe S.replica q) :
    (stateOf (S.sync H fs)).find q = fs.find q := by
  unfold Synchronizer.sync
  exact runPass_stateFrame _ fs q h1 h2

-- ## Top-level corollaries for one full pass

theorem sync_post (S : Synchronizer) (H : HashFn)
    (hsd : PathDisjoint S.source S.replica)
    {fs fs2 : Node} {cs : List (String × Node)} {ev : List Event}
    (hT : fs.find S.source = some (.dir cs))
    (hTw : Node.wfB (.dir cs) = true)
    (hwf : fs.wfB = true)
    (h : S.sync H fs = .ok (fs2, ev)) :
    fs2.wfB = true ∧
    (∀ q, ¬ PathLe q S.replica → ¬ PathLe S.replica q → fs2.find q = fs.find q) ∧
    MirrorAt S.algorithm H fs2 S.replica (.dir cs) := by
  have h2 : S.runPass H (Node.walkNode (.dir cs) []) fs = .ok (fs2, ev) := by
    have h1 : S.runPass H
        (match fs.find S.source with | some n => n.walkNode [] | none => []) fs
        = .ok (fs2, ev) := h
    rw [hT] at h1
    exact h1
  have hsrc0 : fs.find (S.source ++ []) = some (.dir cs) := by
    rw [List.append_nil]
    exact hT
  have hmain := (pass_induction S H hsd (sizeOf cs)).2 cs [] fs fs2 ev
    (Nat.le_refl _) hTw hwf hsrc0 h2
  obtain ⟨hwf2, hframe, _, hM⟩ := hmain
  refine ⟨hwf2, ?_, ?_⟩
  · intro q hq1 hq2
    apply hframe q
    · rw [List.append_nil]
      exact hq1
    · rw [List.append_nil]
      exact hq2
  · rw [List.append_nil] at hM
    exact hM

theorem sync_noop (S : Synchronizer) (H : HashFn)
    (hsd : PathDisjoint S.source S.replica)
    {fs : Node} {cs : List (String × Node)}
    (hT : fs.find S.source = some (.dir cs))
    (hTw : Node.wfB (.dir cs) = true)
    (hwf : fs.wfB = true)
    (hM : MirrorAt S.algorithm H fs S.replica (.dir cs)) :
    S.sync H fs = .ok (fs, []) := by
  have hsrc0 : fs.find (S.source ++ []) = some (.dir cs) := by
    rw [List.append_nil]
    exact hT
  have hM0 : MirrorAt S.algorithm H fs (S.replica ++ []) (.dir cs) := by
    rw [List.append_nil]
    exact hM
  have hrun := (noop_induction S H hsd (sizeOf cs)).2 cs [] fs
    (Nat.le_refl _) hTw hwf hsrc0 hM0
  show S.runPass H
      (match fs.find S.source with | some n => n.walkNode [] | none => []) fs
      = .ok (fs, [])
  rw [hT]
  exact hrun

theorem sync_second_pass (S : Synchronizer) (H : HashFn)
    (hsd : PathDisjoint S.source S.replica)
    {fs fs2 : Node} {cs : List (String × Node)} {ev : List Event}
    (hT : fs.find S.source = some (.dir cs))
    (hTw : Node.wfB (.dir cs) = true)
    (hwf : fs.wfB = true)
    (h : S.sync H fs = .ok (fs2, ev)) :
    S.sync H fs2 = .ok (fs2, []) := by
  obtain ⟨hwf2, hframe, hM⟩ := sync_post S H hsd hT hTw hwf h
  have hT2 : fs2.find S.source = some (.dir cs) := by
    rw [hframe S.source hsd.1 hsd.2]
    exact hT
  exact sync_noop S H hsd hT2 hTw hwf2 hM

-- ## Top-down walk order

theorem walk_td : ∀ k : Nat,
    (∀ (n : Node) (rel : FPath), sizeOf n ≤ k → n.wfB = true →
      List.Pairwise (fun a b => PathLe a.1 b.1 ∨ PathDisjoint a.1 b.1) (n.walkNode rel) ∧
      (∀ e ∈ n.walkNode rel, PathLe rel e.1)) ∧
    (∀ (cs : List (String × Node)) (rel : FPath), sizeOf cs ≤ k →
      nodupKeysB cs = true → wfListB cs = true →
      List.Pairwise (fun a b => PathLe a.1 b.1 ∨ PathDisjoint a.1 b.1) (walkChildren cs rel) ∧
      (∀ e ∈ walkChildren cs rel, ∃ c ∈ cs, c.2.isDirN = true ∧ PathLe (rel ++ [c.1]) e.1)) := by
  intro k
  induction k with
  | zero =>
    constructor
    · intro n rel hsz
      exfalso
      cases n <;> simp at hsz
    · intro cs rel hsz
      exfalso
      cases cs with
      | nil => simp at hsz
      | cons c r =>
        simp only [List.cons.sizeOf_spec] at hsz
        omega
  | succ k ih =>
    constructor
    · intro n rel hsz hwf
      cases n with
      | file b =>
        constructor
        · exact List.Pairwise.nil
        · intro e he
          cases he
      | dir cs =>
        have hszc : sizeOf cs ≤ k := by
          simp only [Node.dir.sizeOf_spec] at hsz
          omega
        rcases wfB_dir_iff.mp hwf with ⟨hnd, hwl⟩
        rcases ih.2 cs rel hszc hnd hwl with ⟨hpw, hmem⟩
        constructor
        · show List.Pairwise _ ((rel, _, _) :: walkChildren cs rel)
          refine List.Pairwise.cons ?_ hpw
          intro b hb
          rcases hmem b hb with ⟨c, _, _, hle⟩
          exact Or.inl (pathLe_trans (pathLe_append rel [c.1]) hle)
        · intro e he
          rcases List.mem_cons.mp he with he | he
          · rw [he]
            exact pathLe_refl rel
          · rcases hmem e he with ⟨c, _, _, hle⟩
            exact pathLe_trans (pathLe_append rel [c.1]) hle
    · intro cs rel hsz hnd hwl
      cases cs with
      | nil =>
        constructor
        · exact List.Pairwise.nil
        · intro e he
          cases he
      | cons c rest =>
        have hszs : sizeOf c.2 ≤ k ∧ sizeOf rest ≤ k := by
          simp only [List.cons.sizeOf_spec] at hsz
          obtain ⟨s, m⟩ := c
          simp only [Prod.mk.sizeOf_spec] at hsz
          constructor
          · show sizeOf m ≤ k
            omega
          · omega
        rw [nodupKeysB, Bool.and_eq_true] at hnd
        rw [wfListB, Bool.and_eq_true] at hwl
        have hkey : ∀ c2 ∈ rest, c2.1 ≠ c.1 := by
          intro c2 hc2 hx
          have hany : rest.any (fun e => e.1 == c.1) = true :=
            List.any_eq_true.mpr ⟨c2, hc2, by simp [hx]⟩
          rw [hany] at hnd
          exact absurd hnd.1 (by simp)
        rcases ih.2 rest rel hszs.2 hnd.2 hwl.2 with ⟨hpwr, hmemr⟩
        have hpart1 : List.Pairwise (fun a b => PathLe a.1 b.1 ∨ PathDisjoint a.1 b.1)
              (if c.2.isDirN then Node.walkNode c.2 (rel ++ [c.1]) else []) ∧
            (∀ e ∈ (if c.2.isDirN then Node.walkNode c.2 (rel ++ [c.1]) else []),
              PathLe (rel ++ [c.1]) e.1) := by
          cases hdir : c.2.isDirN with
          | false =>
            rw [if_neg Bool.false_ne_true]
            exact ⟨List.Pairwise.nil, by intro e he; cases he⟩
          | true =>
            rw [if_pos rfl]
            exact ih.1 c.2 (rel ++ [c.1]) hszs.1 hwl.1
        show List.Pairwise _ ((if c.2.isDirN then Node.walkNode c.2 (rel ++ [c.1]) else []) ++
          walkChildren rest rel) ∧ _
        constructor
        · rw [List.pairwise_append]
          refine ⟨hpart1.1, hpwr, ?_⟩
          intro a ha b hb
          have hlea : PathLe (rel ++ [c.1]) a.1 := hpart1.2 a ha
          rcases hmemr b hb with ⟨c2, hc2, _, hleb⟩
          rcases pathLe_iff.mp hlea with ⟨t, hat⟩
          rcases pathLe_iff.mp hleb with ⟨u, hbu⟩
          refine Or.inr ?_
          rw [hat, hbu, List.append_assoc, List.append_assoc]
          exact pathDisjoint_siblings (fun hx => hkey c2 hc2 hx.symm)
        · intro e he
          rcases List.mem_append.mp he with he | he
          · refine ⟨c, List.mem_cons_self c rest, ?_, hpart1.2 e he⟩
            cases hdir : c.2.isDirN with
            | true => rfl
            | false =>
              rw [if_neg (by rw [hdir]; exact Bool.false_ne_true)] at he
              cases he
          · rcases hmemr e he with ⟨c2, hc2, hd2, hle⟩
            exact ⟨c2, List.mem_cons_of_mem c hc2, hd2, hle⟩

-- ## Injectivity of the demonstration digest family

theorem encSI_head (a : List Nat) :
    a.flatMap (fun k => 'S' :: List.replicate k 'I') = [] ∨
    (a.flatMap (fun k => 'S' :: List.replicate k 'I')).head? = some 'S' := by
  cases a with
  | nil => exact Or.inl rfl
  | cons k as =>
    refine Or.inr ?_
    rw [List.flatMap_cons]
    rfl

theorem replicate_block_inj : ∀ (k m : Nat) (A B : List Char),
    (A = [] ∨ A.head? = some 'S') → (B = [] ∨ B.head? = some 'S') →
    List.replicate k 'I' ++ A = List.replicate m 'I' ++ B → k = m ∧ A = B := by
  intro k
  induction k with
  | zero =>
    intro m A B hA hB h
    cases m with
    | zero =>
      refine ⟨rfl, ?_⟩
      rw [List.replicate_zero, List.nil_append, List.nil_append] at h
      exact h
    | succ m =>
      exfalso
      rw [List.replicate_zero, List.nil_append, List.replicate_succ, List.cons_append] at h
      rcases hA with hA | hA
      · rw [hA] at h
        cases h
      · rw [h] at hA
        rw [List.head?_cons] at hA
        injection hA with hc
        cases hc
  | succ k ih =>
    intro m A B hA hB h
    cases m with
    | zero =>
      exfalso
      rw [List.replicate_zero, List.nil_append, List.replicate_succ, List.cons_append] at h
      rcases hB with hB | hB
      · rw [hB] at h
        cases h
      · rw [← h] at hB
        rw [List.head?_cons] at hB
        injection hB with hc
        cases hc
    | succ m =>
      rw [List.replicate_succ, List.cons_append, List.replicate_succ, List.cons_append] at h
      injection h with _ h2
      rcases ih m A B hA hB h2 with ⟨hk, hAB⟩
      exact ⟨by omega, hAB⟩

theorem encSI_inj : ∀ (a b : List Nat),
    a.flatMap (fun k => 'S' :: List.replicate k 'I') =
      b.flatMap (fun k => 'S' :: List.replicate k 'I') → a = b := by
  intro a
  induction a with
  | nil =>
    intro b h
    cases b with
    | nil => rfl
    | cons m bs =>
      exfalso
      rw [List.flatMap_nil, List.flatMap_cons, List.cons_append] at h
      cases h
  | cons k as ih =>
    intro b h
    cases b with
    | nil =>
      exfalso
      rw [List.flatMap_nil, List.flatMap_cons, List.cons_append] at h
      cases h
    | cons m bs =>
      rw [List.flatMap_cons, List.flatMap_cons, List.cons_append, List.cons_append] at h
      injection h with _ h2
      rcases replicate_block_inj k m _ _ (encSI_head as) (encSI_head bs) h2 with ⟨hk, htl⟩
      rw [hk, ih bs htl]

theorem Hdemo_inj (alg : String) : ∀ a b : Bytes, Hdemo alg a = Hdemo alg b → a = b := by
  intro a b h
  have h2 : (Hdemo alg a).data = (Hdemo alg b).data := congrArg String.data h
  exact encSI_inj a b h2

-- ## The extended model: special entries survive the deletion step

theorem findX_append (n : XNode) (p q : FPath) :
    n.find (p ++ q) = (n.find p).bind (fun m => m.find q) := by
  induction p generalizing n with
  | nil => simp [XNode.find]
  | cons x p ih =>
    cases n with
    | file b => rfl
    | special => rfl
    | dir cs =>
      rw [List.cons_append]
      show (match lookupX x cs with
            | none => none
            | some c => c.find (p ++ q)) =
           ((match lookupX x cs with
            | none => none
            | some c => c.find p) : Option XNode).bind (fun m => m.find q)
      cases lookupX x cs with
      | none => rfl
      | some c => exact ih c

theorem lookupX_mapReplace_self {x : String} {c c2 : XNode} {cs : List (String × XNode)}
    (h : lookupX x cs = some c) :
    lookupX x (cs.map (fun e => if e.1 = x then (x, c2) else e)) = some c2 := by
  induction cs with
  | nil => cases h
  | cons e rest ih =>
    by_cases hx : e.1 = x
    · rw [List.map_cons, if_pos hx]
      show lookupX x ((x, c2) :: _) = some c2
      rw [lookupX, if_pos rfl]
    · rw [List.map_cons, if_neg hx]
      rw [lookupX, if_neg hx] at h
      rw [lookupX, if_neg hx]
      exact ih h

theorem lookupX_removeKeyX_ne {x y : String} {cs : List (String × XNode)} (hyx : y ≠ x) :
    lookupX x (removeKeyX y cs) = lookupX x cs := by
  induction cs with
  | nil => rfl
  | cons e rest ih =>
    by_cases hy : e.1 = y
    · rw [removeKeyX, if_pos hy, ih, lookupX, if_neg (by rw [hy]; exact hyx)]
    · rw [removeKeyX, if_neg hy]
      by_cases hx : e.1 = x
      · rw [lookupX, if_pos hx, lookupX, if_pos hx]
      · rw [lookupX, if_neg hx, lookupX, if_neg hx]
        exact ih

theorem removeEntryX_ok {x : String} {cs cs2 : List (String × XNode)}
    (h : removeEntryX x cs = .ok cs2) : cs2 = removeKeyX x cs := by
  unfold removeEntryX at h
  split at h
  · injection h with h2
    exact h2.symm
  · cases h
  · cases h

theorem rmtreeEntryX_ok {x : String} {cs cs2 : List (String × XNode)}
    (h : rmtreeEntryX x cs = .ok cs2) : cs2 = removeKeyX x cs := by
  unfold rmtreeEntryX at h
  split at h
  · injection h with h2
    exact h2.symm
  · cases h
  · cases h

theorem editAtX_ok_find {fs fs2 : XNode} {p : FPath}
    {f : List (String × XNode) → Except Err (List (String × XNode))}
    (h : fs.editAt p f = .ok fs2) :
    ∃ cs cs2, fs.find p = some (.dir cs) ∧ f cs = .ok cs2 ∧
      ∀ q, fs2.find (p ++ q) = XNode.find (.dir cs2) q := by
  induction p generalizing fs fs2 with
  | nil =>
    cases fs with
    | file b => cases h
    | special => cases h
    | dir cs =>
      have hm : Except.map XNode.dir (f cs) = .ok fs2 := h
      cases hfc : f cs with
      | error e => rw [hfc] at hm; cases hm
      | ok cs2 =>
        rw [hfc] at hm
        injection hm with h2
        exact ⟨cs, cs2, rfl, hfc, fun q => by rw [← h2]; rfl⟩
  | cons x p ih =>
    cases fs with
    | file b => cases h
    | special => cases h
    | dir cs =>
      cases hl : lookupX x cs with
      | none =>
        rw [XNode.editAt, hl] at h
        exact Except.noConfusion h
      | some c =>
        rw [XNode.editAt, hl] at h
        have hm : Except.map (fun c2 => XNode.dir (cs.map (fun e => if e.1 = x then (x, c2) else e)))
            (c.editAt p f) = .ok fs2 := h
        cases hec : c.editAt p f with
        | error e => rw [hec] at hm; cases hm
        | ok c2 =>
          rw [hec] at hm
          injection hm with h2
          rcases ih hec with ⟨cs1, cs2, hfind, hok, hall⟩
          refine ⟨cs1, cs2, ?_, hok, ?_⟩
          · rw [XNode.find, hl]
            exact hfind
          · intro q
            rw [← h2, List.cons_append, XNode.find]
            rw [lookupX_mapReplace_self hl]
            exact hall q

theorem find_special_lookup {cs : List (String × XNode)} {fs : XNode} {rdir : FPath} {x : String}
    (hfind : fs.find rdir = some (.dir cs)) (h : fs.find (rdir ++ [x]) = some .special) :
    lookupX x cs = some .special := by
  rw [findX_append, hfind] at h
  have h2 : XNode.find (.dir cs) [x] = some XNode.special := h
  cases hl : lookupX x cs with
  | none =>
    rw [XNode.find, hl] at h2
    cases h2
  | some c =>
    rw [XNode.find, hl] at h2
    have h3 : XNode.find c [] = some XNode.special := h2
    rw [XNode.find] at h3
    injection h3 with h4
    rw [h4]

theorem deleteLoopX_keeps_special {rdir : FPath} {items : List String} {x : String} :
    ∀ (names : List String) (fs : XNode),
    fs.find (rdir ++ [x]) = some .special →
    (stateOfX (deleteLoopX rdir items fs names)).find (rdir ++ [x]) = some .special := by
  intro names
  induction names with
  | nil => intro fs h; exact h
  | cons y rest ih =>
    intro fs h
    rw [deleteLoopX]
    split
    · rename_i hc
      have hyx : y ≠ x := by
        intro he
        subst he
        rw [Bool.and_eq_true] at hc
        have hf : fs.isfileB (rdir ++ [y]) = true := hc.1
        unfold XNode.isfileB at hf
        rw [h] at hf
        exact Bool.noConfusion hf
      split
      · exact h
      · rename_i fs1 hrm
        apply ih
        unfold XNode.removePath at hrm
        rw [List.getLast?_concat] at hrm
        have hrm2 : fs.editAt ((rdir ++ [y]).dropLast) (removeEntryX y) = .ok fs1 := hrm
        rw [List.dropLast_concat] at hrm2
        rcases editAtX_ok_find hrm2 with ⟨cs, cs2, hfind, hok, hall⟩
        have hcs2 := removeEntryX_ok hok
        have hlx : lookupX x cs = some .special := find_special_lookup hfind h
        rw [hall [x], hcs2]
        show (match lookupX x (removeKeyX y cs) with
              | none => none
              | some c => XNode.find c [] : Option XNode) = some XNode.special
        rw [lookupX_removeKeyX_ne hyx, hlx]
        rfl
    · split
      · rename_i hc
        have hyx : y ≠ x := by
          intro he
          subst he
          rw [Bool.and_eq_true] at hc
          have hf : fs.isdirB (rdir ++ [y]) = true := hc.1
          unfold XNode.isdirB at hf
          rw [h] at hf
          exact Bool.noConfusion hf
        split
        · exact h
        · rename_i fs1 hrm
          apply ih
          unfold XNode.rmtreePath at hrm
          rw [List.getLast?_concat] at hrm
          have hrm2 : fs.editAt ((rdir ++ [y]).dropLast) (rmtreeEntryX y) = .ok fs1 := hrm
          rw [List.dropLast_concat] at hrm2
          rcases editAtX_ok_find hrm2 with ⟨cs, cs2, hfind, hok, hall⟩
          have hcs2 := rmtreeEntryX_ok hok
          have hlx : lookupX x cs = some .special := find_special_lookup hfind h
          rw [hall [x], hcs2]
          show (match lookupX x (removeKeyX y cs) with
                | none => none
                | some c => XNode.find c [] : Option XNode) = some XNode.special
          rw [lookupX_removeKeyX_ne hyx, hlx]
          rfl
      · exact ih fs h

theorem delete_extra_x_keeps_special {fs : XNode} {rdir : FPath} {items : List String}
    {x : String} (h : fs.find (rdir ++ [x]) = some .special) :
    (stateOfX (delete_extra_replica_items_x fs rdir items)).find (rdir ++ [x])
      = some .special := by
  unfold delete_extra_replica_items_x
  split
  · exact h
  · exact deleteLoopX_keeps_special _ fs h

-- ## Update-step variants: fault injection and directory collisions

theorem fi_false_eq (S : Synchronizer) (H : HashFn) (fs : Node) (sf rf : FPath) :
    S.update_changed_files_fi H false fs sf rf = S.update_changed_files H fs sf rf := by
  unfold Synchronizer.update_changed_files_fi Synchronizer.update_changed_files
  cases hsc : S.get_checksum H fs sf with
  | error e => rfl
  | ok sc =>
    cases hrc : S.get_checksum H fs rf with
    | error e => rfl
    | ok rc =>
      by_cases hne : sc ≠ rc
      · simp only [if_pos hne]
        cases hrm : fs.removePath rf with
        | error e => rfl
        | ok fs1 => rfl
      · simp only [if_neg hne]

theorem fi_noop {S : Synchronizer} {H : HashFn} {cr : Bool} {fs : Node} {sf rf : FPath}
    {b a : Bytes}
    (halg : algUsable S.algorithm = true)
    (hsb : fs.find sf = some (.file b)) (hra : fs.find rf = some (.file a))
    (heq : H S.algorithm b = H S.algorithm a) :
    S.update_changed_files_fi H cr fs sf rf = .ok (fs, []) := by
  unfold Synchronizer.update_changed_files_fi
  rw [get_checksum_ok halg hsb, get_checksum_ok halg hra]
  show (if H S.algorithm b ≠ H S.algorithm a then _ else _) = _
  rw [if_neg (fun hc => hc heq)]

theorem fi_true_deletes {S : Synchronizer} {H : HashFn} {fs fs1 : Node} {sf rf : FPath}
    {b a : Bytes}
    (halg : algUsable S.algorithm = true)
    (hsb : fs.find sf = some (.file b)) (hra : fs.find rf = some (.file a))
    (hne : H S.algorithm b ≠ H S.algorithm a)
    (hrm : fs.removePath rf = .ok fs1) :
    S.update_changed_files_fi H true fs sf rf = .error (.ioError, fs1) ∧
    fs1.find rf = none := by
  constructor
  · unfold Synchronizer.update_changed_files_fi
    rw [get_checksum_ok halg hsb, get_checksum_ok halg hra]
    show (if H S.algorithm b ≠ H S.algorithm a then _ else _) = _
    rw [if_pos hne, hrm]
    rfl
  · rcases List.eq_nil_or_concat rf with hrf | ⟨base, x, hrf⟩
    · subst hrf
      unfold Node.removePath at hrm
      cases hrm
    · rw [List.concat_eq_append] at hrf
      subst hrf
      rw [removePath_snoc] at hrm
      rcases editAt_ok_find hrm with ⟨cs, cs2, hfind, hok, hall⟩
      rcases removeEntry_ok hok with ⟨hcs2, a3, hla⟩
      subst hcs2
      rw [hall [x]]
      show Node.find (.dir (removeKeyN x cs)) [x] = none
      rw [Node.find, lookupN_removeKeyN_self]

theorem copy_skips_existing {fs : Node} {sdir rdir : FPath} {f : String}
    {rest : List String} (h : fs.existsB (rdir ++ [f]) = true) :
    copy_missing_files fs sdir rdir (f :: rest) = copy_missing_files fs sdir rdir rest := by
  rw [copy_missing_files, h]
  rw [if_neg (by decide)]

theorem update_on_dir {S : Synchronizer} {H : HashFn} {fs : Node} {sf rf : FPath}
    {a : Bytes} {cs : List (String × Node)}
    (hs : fs.find sf = some (.file a)) (hr : fs.find rf = some (.dir cs))
    (halg : algUsable S.algorithm = true) :
    S.update_changed_files H fs sf rf = .error (.isADirectory, fs) := by
  unfold Synchronizer.update_changed_files
  rw [get_checksum_ok halg hs]
  have hrc : S.get_checksum H fs rf = .error .isADirectory := by
    unfold Synchronizer.get_checksum
    rw [hr]
  rw [hrc]

theorem main_loop_stops {S : Synchronizer} {H : HashFn} {fs : Node} {e : Err × Node}
    (n : Nat) (h : S.sync H fs = .error e) :
    main_loop S H (n + 1) fs = (1, .error e) := by
  rw [main_loop, h]

-- ## The claims

/-- C1: Convergence — for a well-formed tree whose source root is a
directory, with disjoint source and replica roots and a digest family
that is collision-free on the configured algorithm, one pass of `sync`
that completes without error leaves every relative path below the
replica root with exactly the view (directory / file-with-bytes /
absent) of the same relative path in the source tree: same directories,
same file bytes, and no entry absent from the source. -/
theorem C1_convergence (S : Synchronizer) (H : HashFn)
    {fs fs2 : Node} {cs : List (String × Node)} {ev : List Event}
    (hsd : PathDisjoint S.source S.replica)
    (hT : fs.find S.source = some (.dir cs))
    (hTw : Node.wfB (.dir cs) = true)
    (hwf : fs.wfB = true)
    (hinj : ∀ a b : Bytes, H S.algorithm a = H S.algorithm b → a = b)
    (h : S.sync H fs = .ok (fs2, ev)) :
    ∀ q : FPath, viewAt fs2 (S.replica ++ q) = (Node.find (.dir cs) q).map Node.view := by
  obtain ⟨hwf2, hframe, hM⟩ := sync_post S H hsd hT hTw hwf h
  intro q
  rcases hM q with ⟨h1, h2⟩ | ⟨csr, css, h1, h2⟩ | ⟨a, b, h1, h2, hrel⟩
  · unfold viewAt
    rw [h1, h2]
  · unfold viewAt
    rw [h1, h2]
    rfl
  · unfold viewAt
    rw [h1, h2, hinj a b hrel.2]

theorem C1_convergence_witness :
    viewAt fsDemo2 (Sdemo.replica ++ ["a"]) =
      (Node.find (.dir [("a", .file [1])]) ["a"]).map Node.view ∧
    viewAt fsDemo2 (Sdemo.replica ++ ["zzz"]) =
      (Node.find (.dir [("a", .file [1])]) ["zzz"]).map Node.view :=
  ⟨@C1_convergence Sdemo Hdemo fsDemo fsDemo2 [("a", .file [1])]
      [.created ["rep", "a"]] ⟨by decide, by decide⟩ rfl rfl rfl
      (Hdemo_inj "md5") rfl ["a"],
   @C1_convergence Sdemo Hdemo fsDemo fsDemo2 [("a", .file [1])]
      [.created ["rep", "a"]] ⟨by decide, by decide⟩ rfl rfl rfl
      (Hdemo_inj "md5") rfl ["zzz"]⟩

/-- C2: Idempotence — after a pass of `sync` completes successfully and
the source is unchanged, a second pass returns the filesystem untouched
and performs zero mutations: no created, deleted or updated events. -/
theorem C2_idempotent_second_pass (S : Synchronizer) (H : HashFn)
    {fs fs2 : Node} {cs : List (String × Node)} {ev : List Event}
    (hsd : PathDisjoint S.source S.replica)
    (hT : fs.find S.source = some (.dir cs))
    (hTw : Node.wfB (.dir cs) = true)
    (hwf : fs.wfB = true)
    (h : S.sync H fs = .ok (fs2, ev)) :
    S.sync H fs2 = .ok (fs2, []) :=
  sync_second_pass S H hsd hT hTw hwf h

theorem C2_idempotent_second_pass_witness :
    Sdemo.sync Hdemo fsDemo = .ok (fsDemo2, [.created ["rep", "a"]]) ∧
    Sdemo.sync Hdemo fsDemo2 = .ok (fsDemo2, []) :=
  ⟨rfl, @C2_idempotent_second_pass Sdemo Hdemo fsDemo fsDemo2 [("a", .file [1])]
      [.created ["rep", "a"]] ⟨by decide, by decide⟩ rfl rfl rfl rfl⟩

/-- C3: Deletion precision — on a well-formed tree, when the replica
directory exists, `delete_extra_replica_items` succeeds; afterwards
every immediate child whose name is absent from the authoritative set
is gone, and the whole subtree of every child whose name is in the set
is untouched, regardless of content. -/
theorem C3_deletion_precision {fs : Node} {rdir : FPath} {items : List String}
    {ds : List (String × Node)}
    (hwf : fs.wfB = true) (hdir : fs.find rdir = some (.dir ds)) :
    ∃ fs2 ev, delete_extra_replica_items fs rdir items = .ok (fs2, ev) ∧
      (∀ x, ¬ x ∈ items → fs2.find (rdir ++ [x]) = none) ∧
      (∀ x t, x ∈ items → fs2.find (rdir ++ x :: t) = fs.find (rdir ++ x :: t)) := by
  rcases delete_extra_spec hwf hdir with ⟨fs2, ev, hrun, _, _, _, _, hk3, hk5⟩
  exact ⟨fs2, ev, hrun, hk5, fun x t hx => hk3 x t (Or.inl hx)⟩

theorem C3_deletion_precision_witness :
    fsDel.wfB = true ∧
    (stateOf (delete_extra_replica_items fsDel ["rep"] ["a"])).find ["rep", "b"] = none ∧
    (stateOf (delete_extra_replica_items fsDel ["rep"] ["a"])).find ["rep", "a"]
      = some (.file [5]) := by
  refine ⟨by decide, ?_, ?_⟩
  · rcases C3_deletion_precision (rfl : fsDel.wfB = true)
      (rfl : fsDel.find ["rep"] = some (.dir [("a", .file [5]), ("b", .dir [("z", .file [7])])]))
      with ⟨fs2, ev, hrun, hdel, _⟩
    rw [hrun]
    exact hdel "b" (by decide)
  · rcases C3_deletion_precision (rfl : fsDel.wfB = true)
      (rfl : fsDel.find ["rep"] = some (.dir [("a", .file [5]), ("b", .dir [("z", .file [7])])]))
      with ⟨fs2, ev, hrun, _, hkeep⟩
    rw [hrun]
    show fs2.find ["rep", "a"] = some (.file [5])
    exact (hkeep "a" [] (by decide)).trans rfl

/-- C4: Update atomicity, corrected — `update_changed_files` takes no
action when the fingerprints agree, and with a never-failing copy the
fault-injection model coincides with the plain model; but the
remove-then-copy sequence is NOT atomic: when `shutil.copy` fails after
`os.remove` has succeeded, the replica file is left ABSENT — neither
the old nor the new complete content, contradicting the spec's
"never leaves the replica file half-written (old or new complete
content)" guarantee. -/
theorem C4_update_atomicity (S : Synchronizer) (H : HashFn)
    {fs fs1 : Node} {sf rf : FPath} {b a : Bytes}
    (halg : algUsable S.algorithm = true)
    (hsb : fs.find sf = some (.file b)) (hra : fs.find rf = some (.file a)) :
    (∀ cr : Bool, H S.algorithm b = H S.algorithm a →
      S.update_changed_files_fi H cr fs sf rf = .ok (fs, [])) ∧
    S.update_changed_files_fi H false fs sf rf = S.update_changed_files H fs sf rf ∧
    (H S.algorithm b ≠ H S.algorithm a → fs.removePath rf = .ok fs1 →
      S.update_changed_files_fi H true fs sf rf = .error (.ioError, fs1) ∧
      fs1.find rf = none) := by
  refine ⟨?_, fi_false_eq S H fs sf rf, ?_⟩
  · intro cr heq
    exact fi_noop halg hsb hra heq
  · intro hne hrm
    exact fi_true_deletes halg hsb hra hne hrm

theorem C4_update_atomicity_witness :
    algUsable Sdemo.algorithm = true ∧
    Sdemo.update_changed_files_fi Hdemo true fsUpd ["src", "f"] ["rep", "f"]
      = .error (.ioError, fsUpdGone) ∧
    fsUpdGone.find ["rep", "f"] = none := by
  have h := @C4_update_atomicity Sdemo Hdemo fsUpd fsUpdGone ["src", "f"] ["rep", "f"]
    [1] [2] (by decide) rfl rfl
  exact ⟨by decide, (h.2.2 (by decide) rfl).1, (h.2.2 (by decide) rfl).2⟩

/-- C4 counterexample: source file `[1]`, replica file `[2]`, differing
digests; when the copy raises after the remove, the update step leaves
the replica file absent — neither the old complete content `[2]` nor
the new complete content `[1]`. -/
theorem C4_atomicity_counterexample :
    fsUpd.find ["src", "f"] = some (.file [1]) ∧
    fsUpd.find ["rep", "f"] = some (.file [2]) ∧
    Sdemo.update_changed_files_fi Hdemo true fsUpd ["src", "f"] ["rep", "f"]
      = .error (.ioError, fsUpdGone) ∧
    fsUpdGone.find ["rep", "f"] = none :=
  ⟨rfl, rfl, rfl, rfl⟩

/-- C5: Per-pass error containment, corrected — `main` runs
`while True: sync.sync(); time.sleep(...)` with no exception handling,
so a filesystem error during a pass does NOT abort only that pass: the
exception escapes `main`, the process stops, and no further scheduled
pass is ever attempted.  Whatever the remaining budget, exactly one
pass starts and the driver ends with the error. -/
theorem C5_pass_error_stops_main (S : Synchronizer) (H : HashFn)
    (fs : Node) (e : Err × Node) (n : Nat) (h : S.sync H fs = .error e) :
    main_loop S H (n + 1) fs = (1, .error e) :=
  main_loop_stops n h

theorem C5_pass_error_stops_main_witness :
    Sdemo.sync Hdemo fsErr = .error (.fileExists, fsErr) ∧
    main_loop Sdemo Hdemo 5 fsErr = (1, .error (.fileExists, fsErr)) :=
  ⟨rfl, C5_pass_error_stops_main Sdemo Hdemo fsErr (.fileExists, fsErr) 4 rfl⟩

/-- C5 counterexample: on `fsErr` the first pass raises
(`os.makedirs` hits an existing file), and with two scheduled passes
the driver starts only one — the next scheduled pass is never
attempted, refuting "the process keeps running and the next scheduled
pass is attempted". -/
theorem C5_containment_counterexample :
    main_loop Sdemo Hdemo 2 fsErr = (1, .error (.fileExists, fsErr)) ∧
    (main_loop Sdemo Hdemo 2 fsErr).1 ≠ 2 :=
  ⟨rfl, by decide⟩

/-- C6: Fail-fast configuration validation — the constructor accepts an
algorithm name exactly when it is in `hashlib.algorithms_available`,
and it does fail at construction time; but the second half of the claim
is false in the code: `"shake_128"` is accepted (it is even in
`algorithms_guaranteed`), yet `get_checksum` then fails with
`TypeError` on every file, because SHAKE's `hexdigest()` requires a
length argument the code never passes. -/
theorem C6_validation_mismatch :
    Synchronizer.init ["s"] ["r"] "log" 1 hashlib_algorithms_guaranteed "shake_128"
      = .ok Sshake ∧
    (∀ (source replica : FPath) (logfile : String) (interval : Nat)
       (avail : List String) (algorithm : String) (S : Synchronizer),
      Synchronizer.init source replica logfile interval avail algorithm = .ok S →
      avail.contains (lowerStr algorithm) = true) ∧
    (∀ (H : HashFn) (fs : Node) (p : FPath) (a : Bytes),
      fs.find p = some (.file a) → Sshake.get_checksum H fs p = .error .typeError) := by
  refine ⟨rfl, ?_, ?_⟩
  · intro source replica logfile interval avail algorithm S h
    have h2 : (if avail.contains (lowerStr algorithm) = true then
        (Except.ok { source := source, replica := replica, logfile := logfile,
                     interval := interval, algorithm := lowerStr algorithm }
          : Except Err Synchronizer)
      else .error .valueError) = .ok S := h
    by_cases hc : avail.contains (lowerStr algorithm) = true
    · exact hc
    · rw [if_neg hc] at h2
      cases h2
  · intro H fs p a h
    unfold Synchronizer.get_checksum
    rw [h]
    rfl

theorem C6_validation_mismatch_witness :
    fsUpd.find ["src", "f"] = some (.file [1]) ∧
    Sshake.get_checksum Hdemo fsUpd ["src", "f"] = .error .typeError :=
  ⟨rfl, C6_validation_mismatch.2.2 Hdemo fsUpd ["src", "f"] [1] rfl⟩

/-- C7: Mandatory per-directory ordering — (1) on a well-formed tree
the walk visits directories top-down: every later entry is a descendant
of, or disjoint from, every earlier entry (never a strict ancestor);
(2) if creating the replica directory fails, the loop body stops at
once with the filesystem untouched, so no deletion or reconcile ever
runs in a directory that was not created; (3) if creation succeeds, the
replica directory exists as a directory, and the body then runs exactly
stale-entry deletion, then missing-file copying, then the per-file
update loop, in that order on the post-creation state. -/
theorem C7_ordering :
    (∀ (n : Node) (rel : FPath), n.wfB = true →
      List.Pairwise (fun a b => PathLe a.1 b.1 ∨ PathDisjoint a.1 b.1) (n.walkNode rel)) ∧
    (∀ (S : Synchronizer) (H : HashFn) (fs : Node) (rel : FPath)
       (dn fn : List String) (e : Err),
      create_replica_folder fs (S.source ++ rel) (S.replica ++ rel) = .error e →
      S.sync_step H fs (rel, dn, fn) = .error (e, fs)) ∧
    (∀ (S : Synchronizer) (H : HashFn) (fs fs1 : Node) (rel : FPath)
       (dn fn : List String),
      create_replica_folder fs (S.source ++ rel) (S.replica ++ rel) = .ok fs1 →
      (∃ ds, fs1.find (S.replica ++ rel) = some (.dir ds)) ∧
      S.sync_step H fs (rel, dn, fn) =
        (match delete_extra_replica_items fs1 (S.replica ++ rel) (dn ++ fn) with
         | .error e => .error e
         | .ok (fs2, ev2) =>
           match copy_missing_files fs2 (S.source ++ rel) (S.replica ++ rel) fn with
           | .error e => .error e
           | .ok (fs3, ev3) =>
             match updateLoop S H (S.source ++ rel) (S.replica ++ rel) fs3 fn with
             | .error e => .error e
             | .ok (fs4, ev4) => .ok (fs4, ev2 ++ ev3 ++ ev4))) := by
  refine ⟨?_, ?_, ?_⟩
  · intro n rel hwf
    exact ((walk_td (sizeOf n)).1 n rel (Nat.le_refl _) hwf).1
  · intro S H fs rel dn fn e hmk
    have hmk2 : fs.makedirs (S.replica ++ rel) = .error e := hmk
    rw [sync_step_eq, hmk2]
  · intro S H fs fs1 rel dn fn hmk
    have hmk2 : fs.makedirs (S.replica ++ rel) = .ok fs1 := hmk
    refine ⟨?_, ?_⟩
    · rcases makedirs_dir hmk2 with ⟨ds, hds, _⟩
      exact ⟨ds, hds⟩
    · rw [sync_step_eq, hmk2]

theorem C7_ordering_witness :
    create_replica_folder fsErr (Sdemo.source ++ []) (Sdemo.replica ++ []) = .error .fileExists ∧
    Sdemo.sync_step Hdemo fsErr ([], [], []) = .error (.fileExists, fsErr) :=
  ⟨rfl, C7_ordering.2.1 Sdemo Hdemo fsErr [] [] [] .fileExists rfl⟩

/-- C8: Source immutability (frame) — over any pass of `sync`, whether
it completes or aborts with an error, the filesystem it leaves behind
agrees with the initial one on every path at or below the source root,
and more generally on every path not comparable with the replica root:
all mutations target paths under the replica root only. -/
theorem C8_source_frame (S : Synchronizer) (H : HashFn) (fs : Node)
    (hsd : PathDisjoint S.source S.replica) :
    (∀ q, PathLe S.source q → (stateOf (S.sync H fs)).find q = fs.find q) ∧
    (∀ q, ¬ PathLe q S.replica → ¬ PathLe S.replica q →
      (stateOf (S.sync H fs)).find q = fs.find q) := by
  constructor
  · intro q hq
    have h1 : ¬ PathLe q S.replica := fun hc => hsd.1 (pathLe_trans hq hc)
    have h2 : ¬ PathLe S.replica q := by
      intro hc
      rcases pathLe_comparable hq hc with hc2 | hc2
      · exact hsd.1 hc2
      · exact hsd.2 hc2
    exact sync_stateFrame h1 h2
  · intro q h1 h2
    exact sync_stateFrame h1 h2

theorem C8_source_frame_witness :
    (stateOf (Sdemo.sync Hdemo fsDemo)).find ["src", "a"] = fsDemo.find ["src", "a"] ∧
    (stateOf (Sdemo.sync Hdemo fsErr)).find ["src"] = fsErr.find ["src"] :=
  ⟨(C8_source_frame Sdemo Hdemo fsDemo ⟨by decide, by decide⟩).1 ["src", "a"] (by decide),
   (C8_source_frame Sdemo Hdemo fsErr ⟨by decide, by decide⟩).1 ["src"] (by decide)⟩

/-- C9: Implicit — in the extended model with a third entry kind,
`delete_extra_replica_items` never deletes an immediate replica child
that is neither a regular file nor a directory, even when its name is
absent from the authoritative set: both the `os.path.isfile` and
`os.path.isdir` guards are false for it, so it survives any outcome of
the deletion step. -/
theorem C9_special_survives (fs : XNode) (rdir : FPath) (items : List String)
    (x : String) (h : fs.find (rdir ++ [x]) = some .special) :
    (stateOfX (delete_extra_replica_items_x fs rdir items)).find (rdir ++ [x])
      = some .special :=
  delete_extra_x_keeps_special h

theorem C9_special_survives_witness :
    xfsDemo.find (["rep"] ++ ["weird"]) = some .special ∧
    (stateOfX (delete_extra_replica_items_x xfsDemo ["rep"] ["keep"])).find
      (["rep"] ++ ["weird"]) = some .special :=
  ⟨rfl, C9_special_survives xfsDemo ["rep"] ["keep"] "weird" rfl⟩

/-- C10: Implicit — when a source file's replica path exists as a
directory: `copy_missing_files` skips the copy (the path exists), the
fingerprint comparison then fails with `IsADirectoryError` when
`get_checksum` opens the replica directory, the update step aborts with
the filesystem unchanged, and the replica directory is still present in
the aborted state — the pass errors out instead of converging. -/
theorem C10_dir_shadow (S : Synchronizer) (H : HashFn)
    {fs : Node} {sdir rdir : FPath} {f : String} {rest : List String}
    {a : Bytes} {cs : List (String × Node)}
    (hs : fs.find (sdir ++ [f]) = some (.file a))
    (hr : fs.find (rdir ++ [f]) = some (.dir cs))
    (halg : algUsable S.algorithm = true) :
    copy_missing_files fs sdir rdir (f :: rest) = copy_missing_files fs sdir rdir rest ∧
    S.update_changed_files H fs (sdir ++ [f]) (rdir ++ [f]) = .error (.isADirectory, fs) ∧
    (stateOf (S.update_changed_files H fs (sdir ++ [f]) (rdir ++ [f]))).find (rdir ++ [f])
      = some (.dir cs) := by
  have hupd : S.update_changed_files H fs (sdir ++ [f]) (rdir ++ [f])
      = .error (.isADirectory, fs) := update_on_dir hs hr halg
  refine ⟨?_, hupd, ?_⟩
  · apply copy_skips_existing
    unfold Node.existsB
    rw [hr]
    rfl
  · rw [hupd]
    exact hr

theorem C10_dir_shadow_witness :
    copy_missing_files fsShadow ["src"] ["rep"] ["f"]
      = copy_missing_files fsShadow ["src"] ["rep"] [] ∧
    Sdemo.update_changed_files Hdemo fsShadow (["src"] ++ ["f"]) (["rep"] ++ ["f"])
      = .error (.isADirectory, fsShadow) ∧
    Sdemo.sync Hdemo fsShadow = .error (.isADirectory, fsShadow) := by
  have h := @C10_dir_shadow Sdemo Hdemo fsShadow ["src"] ["rep"] "f" [] [1] []
    rfl rfl (by decide)
  exact ⟨h.1, h.2.1, rfl⟩
